import Mathlib

/-!
# Verification of the CVXcanon affine coefficient extractor and cone transformer

This file gives a shallow embedding of the two source files of the repository:

* `src/cpp/cvxcanon/expression/LinearExpression.cpp` — the affine
  coefficient extractor `get_coefficients` together with its per-atom
  coefficient constructors, and
* `src/cpp/cvxcanon/transform/LinearConeTransform.cpp` — the cone
  transformer `transform_expression` / `LinearConeTransform::transform`.

Machine doubles are modelled as rationals; `Eigen` sparse matrices are
modelled by their triplet lists (duplicate positions sum on assembly, as
with `setFromTriplets` and `+=`); fatal `CHECK`/`LOG(FATAL)` failures are
modelled by `Option`.  External collaborators of the two files (the shape
oracle `size`/`dim`, the expression constructors of `ExpressionUtil` and
the matrix helpers of `MatrixUtil`) are not under `src/`; those are
modelled from the spec, and each such definition says so in its
documentation.
-/

namespace CVXcanon

/-- A sparse-matrix triplet `(row, col, value)`, as handed to Eigen's
`setFromTriplets`; duplicate positions sum on assembly. -/
abbrev Triplet : Type := Nat × Nat × ℚ

/-- A sparse matrix (`SparseMatrix` of `MatrixUtil.hpp`): a row count, a
column count and a list of triplets.  The represented entry at a position
is the sum of the matching triplet values. -/
structure SparseMatrix : Type where
  rows : Nat
  cols : Nat
  triplets : List Triplet

/-- The represented entry of a sparse matrix at `(i, j)`: the sum of all
triplet values at that position. -/
def SparseMatrix.entry (m : SparseMatrix) (i j : Nat) : ℚ :=
  (m.triplets.map (fun t => if t.1 = i ∧ t.2.1 = j then t.2.2 else 0)).sum

/-- The sparse matrix applied as a linear map to a (flattened) input
vector, read at output coordinate `i`. -/
def SparseMatrix.applyVec (m : SparseMatrix) (x : Nat → ℚ) (i : Nat) : ℚ :=
  (m.triplets.map (fun t => if t.1 = i then t.2.2 * x t.2.1 else 0)).sum

/-- All triplets lie inside the declared bounds of the matrix. -/
def SparseMatrix.InBounds (m : SparseMatrix) : Prop :=
  ∀ t ∈ m.triplets, t.1 < m.rows ∧ t.2.1 < m.cols

/-- Modelled from the spec (`MatrixUtil.hpp` is not under `src/`):
`identity(n)`, the `n × n` sparse identity. -/
def identity (n : Nat) : SparseMatrix :=
  ⟨n, n, (List.range n).map (fun k => (k, k, (1 : ℚ)))⟩

/-- Modelled from the spec (`MatrixUtil.hpp` is not under `src/`):
`ones_matrix(r, c)`, the all-ones `r × c` sparse matrix. -/
def ones_matrix (r c : Nat) : SparseMatrix :=
  ⟨r, c, (List.range r).flatMap (fun i => (List.range c).map (fun j => (i, j, (1 : ℚ))))⟩

/-- Modelled from the spec (`MatrixUtil.hpp` is not under `src/`):
`scalar_matrix(v, n)` is `v · I_n`. -/
def scalar_matrix (v : ℚ) (n : Nat) : SparseMatrix :=
  ⟨n, n, (List.range n).map (fun k => (k, k, v))⟩

/-- Sparse matrix product, with the triplet list expanded bilinearly; its
represented entries are those of the Eigen product `lhs * rhs`. -/
def spMul (a b : SparseMatrix) : SparseMatrix :=
  ⟨a.rows, b.cols,
    a.triplets.flatMap (fun t =>
      (b.triplets.filter (fun u => u.1 == t.2.1)).map
        (fun u => (t.1, u.2.1, t.2.2 * u.2.2)))⟩

/-- Sparse matrix sum (the `+=` accumulation of
`multiply_by_constant`): triplet lists concatenate, entries add. -/
def spAdd (a b : SparseMatrix) : SparseMatrix :=
  ⟨a.rows, a.cols, a.triplets ++ b.triplets⟩


/-! ## Slices and expressions -/

/-- A slice `(start, stop, step)` of `IndexAttributes` (negative `start` or
`stop` count from the end; `step` is nonzero for meaningful slices). -/
structure Slice : Type where
  start : Int
  stop : Int
  step : Int

/-- The while-loop of `get_index_coefficients` for one slice: starting at
`cur`, break when out of `[0, bound)`; otherwise emit `cur`, advance by
`step`, and break when the advanced value passes `stop`.  The loop is run
on fuel `bound`; for `step ≠ 0` the visited values are strictly monotone
inside `[0, bound)`, so `bound` units of fuel reproduce the loop exactly. -/
def sliceLoop (stop step : Int) (bound : Nat) : Nat → Int → List Int
  | 0, _ => []
  | fuel + 1, cur =>
    if cur < 0 ∨ (bound : Int) ≤ cur then []
    else
      cur ::
        (if (0 < step ∧ stop ≤ cur + step) ∨ (step < 0 ∧ cur + step < stop) then []
         else sliceLoop stop step bound fuel (cur + step))

/-- The values selected by a slice over a dimension of size `bound`,
after the negative-index normalization of `get_index_coefficients`
(`start < 0 ? bound + start : start`, same for `stop`). -/
def sliceIdx (s : Slice) (bound : Nat) : List Int :=
  sliceLoop (if s.stop < 0 then (bound : Int) + s.stop else s.stop) s.step bound bound
    (if s.start < 0 then (bound : Int) + s.start else s.start)

/-- The expression tree (`Expression.hpp`): a type tag, children, and the
type-specific attributes (`VAR` an identifier and shape, `CONST` a dense
matrix of shape `r × c` stored as a list of rows, `INDEX` two slices,
`P_NORM` the parameter `p`, `RESHAPE` the target shape). -/
inductive Expr : Type where
  | const (r c : Nat) (data : List (List ℚ))
  | var (id : Nat) (r c : Nat)
  | add (args : List Expr)
  | neg (e : Expr)
  | mul (lhs rhs : Expr)
  | sum_entries (e : Expr)
  | hstack (args : List Expr)
  | vstack (args : List Expr)
  | reshape (e : Expr) (r c : Nat)
  | index (e : Expr) (rowSlice colSlice : Slice)
  | diag_mat (e : Expr)
  | diag_vec (e : Expr)
  | transpose (e : Expr)
  | abs (e : Expr)
  | p_norm (p : ℚ) (e : Expr)
  | quad_over_lin (x y : Expr)
  | leq (lhs rhs : Expr)
  | soc (v w : Expr)

/-- The ordered children of a node (`expr.args()`). -/
def Expr.argsOf : Expr → List Expr
  | .const _ _ _ => []
  | .var _ _ _ => []
  | .add args => args
  | .neg e => [e]
  | .mul l r => [l, r]
  | .sum_entries e => [e]
  | .hstack args => args
  | .vstack args => args
  | .reshape e _ _ => [e]
  | .index e _ _ => [e]
  | .diag_mat e => [e]
  | .diag_vec e => [e]
  | .transpose e => [e]
  | .abs e => [e]
  | .p_norm _ e => [e]
  | .quad_over_lin x y => [x, y]
  | .leq l r => [l, r]
  | .soc v w => [v, w]

/-- The first child of a node (`expr.arg(0)`). -/
def Expr.arg0 (e : Expr) : Expr := e.argsOf.headD (.const 0 0 [])

/-- Modelled from the spec (shape inference is an external oracle, not
under `src/`): the result shape of `ADD` with scalar promotion is the
shape of the first non-scalar argument, `(1, 1)` if all are scalar. -/
def addShape : List (Nat × Nat) → Nat × Nat
  | [] => (1, 1)
  | (r, c) :: rest => if r * c = 1 then addShape rest else (r, c)

mutual

/-- Modelled from the spec (`ExpressionShape.hpp` is not under `src/`):
the shape oracle `size(expr) → (rows, cols)`.  `MUL` is the strict matrix
product shape, `TRANSPOSE` swaps, `SUM_ENTRIES`/`P_NORM`/`QUAD_OVER_LIN`
are scalar, stacking adds the stacked dimension, `INDEX` counts the
selected rows and columns, `DIAG_MAT` extracts the diagonal of a square
matrix as a column, `DIAG_VEC` embeds a column as a diagonal matrix. -/
def esize : Expr → Nat × Nat
  | .const r c _ => (r, c)
  | .var _ r c => (r, c)
  | .add args => addShape (sizeList args)
  | .neg e => esize e
  | .mul l r => ((esize l).1, (esize r).2)
  | .sum_entries _ => (1, 1)
  | .hstack args => ((sizeList args).headD (0, 0) |>.1, ((sizeList args).map (·.2)).sum)
  | .vstack args => (((sizeList args).map (·.1)).sum, (sizeList args).headD (0, 0) |>.2)
  | .reshape _ r c => (r, c)
  | .index e rs cs => ((sliceIdx rs (esize e).1).length, (sliceIdx cs (esize e).2).length)
  | .diag_mat e => ((esize e).1, 1)
  | .diag_vec e => ((esize e).1, (esize e).1)
  | .transpose e => ((esize e).2, (esize e).1)
  | .abs e => esize e
  | .p_norm _ _ => (1, 1)
  | .quad_over_lin _ _ => (1, 1)
  | .leq l _ => esize l
  | .soc _ _ => (1, 1)
  termination_by structural e => e

/-- Shapes of a list of expressions. -/
def sizeList : List Expr → List (Nat × Nat)
  | [] => []
  | a :: rest => esize a :: sizeList rest
  termination_by structural l => l

end

/-- `dim(expr) = rows · cols`. -/
def dimE (e : Expr) : Nat := (esize e).1 * (esize e).2

/-! ## Per-atom coefficient constructors (`LinearExpression.cpp`) -/

/-- Entry `(i, j)` of a dense matrix stored as a list of rows. -/
def nth2 (data : List (List ℚ)) (i j : Nat) : ℚ := (data.getD i []).getD j 0

/-- Modelled from the spec (`MatrixUtil.hpp` is not under `src/`):
`to_vector(dense_data).sparseView()` — the column-major flattening of the
dense data as a one-column sparse matrix, with exact zeros pruned. -/
def to_vector (r c : Nat) (data : List (List ℚ)) : SparseMatrix :=
  ⟨r * c, 1,
    (List.range (r * c)).filterMap (fun k =>
      if nth2 data (k % r) (k / r) = 0 then none else some (k, 0, nth2 data (k % r) (k / r)))⟩

/-- `get_add_coefficients`: one matrix per argument; a scalar argument is
promoted via the all-ones column, the rest get the identity. -/
def get_add_coefficients (expr : Expr) : List SparseMatrix :=
  expr.argsOf.map (fun arg =>
    if dimE arg = 1 then ones_matrix (dimE expr) 1 else identity (dimE expr))

/-- `get_left_mul_coefficients`: a block-diagonal matrix with
`num_blocks = size(expr).dims[1]` copies of `block`.  (The C++ returns a
one-element vector; the single matrix is returned directly.) -/
def get_left_mul_coefficients (expr : Expr) (block : SparseMatrix) : SparseMatrix :=
  ⟨(esize expr).2 * block.rows, (esize expr).2 * block.cols,
    (List.range (esize expr).2).flatMap (fun curr_block =>
      block.triplets.map (fun t =>
        (curr_block * block.rows + t.1, curr_block * block.cols + t.2.1, t.2.2)))⟩

/-- `get_right_mul_coefficients`: each stored entry of `constant` at
`(row, col)` contributes a scaled `n × n` identity block at output rows
`col·n + i` and input columns `row·n + i`, where `n = size(expr).dims[0]`. -/
def get_right_mul_coefficients (expr : Expr) (constant : SparseMatrix) : SparseMatrix :=
  ⟨constant.cols * (esize expr).1, constant.rows * (esize expr).1,
    constant.triplets.flatMap (fun t =>
      (List.range (esize expr).1).map (fun i =>
        (t.2.1 * (esize expr).1 + i, t.1 * (esize expr).1 + i, t.2.2)))⟩

/-- `get_neg_coefficients`: `−I` of size `dim(expr)`. -/
def get_neg_coefficients (expr : Expr) : SparseMatrix :=
  scalar_matrix (-1) (dimE expr)

/-- `get_sum_entries_coefficients`: the all-ones row of length
`dim(arg(0))`. -/
def get_sum_entries_coefficients (expr : Expr) : SparseMatrix :=
  ones_matrix 1 (dimE expr.arg0)

/-- The triplets of one stacked argument of shape `(ra, ca)` in
`get_stack_coefficients`: entry `(i + j·column_offset + offset,
i + j·ra) = 1` for `i < ra`, `j < ca`. -/
def stackTriplets (column_offset ra ca offset : Nat) : List Triplet :=
  (List.range ra).flatMap (fun i =>
    (List.range ca).map (fun j =>
      (i + j * column_offset + offset, i + j * ra, (1 : ℚ))))

/-- The loop of `get_stack_coefficients` over the arguments, carrying the
running `offset`; `column_offset` is the stack's row count for `VSTACK`
and the argument's row count for `HSTACK`, and `offset` advances by the
argument's row count (`VSTACK`) or its dimension (`HSTACK`). -/
def stackGo (dimExpr exprRows : Nat) (vertical : Bool) :
    List (Nat × Nat) → Nat → List SparseMatrix
  | [], _ => []
  | (ra, ca) :: rest, offset =>
    ⟨dimExpr, ra * ca, stackTriplets (if vertical then exprRows else ra) ra ca offset⟩ ::
      stackGo dimExpr exprRows vertical rest
        (offset + (if vertical then ra else ra * ca))

/-- `get_stack_coefficients`, one selection matrix per argument. -/
def get_stack_coefficients (expr : Expr) (vertical : Bool) : List SparseMatrix :=
  stackGo (dimE expr) ((esize expr).1) vertical (sizeList expr.argsOf) 0

/-- `get_hstack_coefficients`. -/
def get_hstack_coefficients (expr : Expr) : List SparseMatrix :=
  get_stack_coefficients expr false

/-- `get_vstack_coefficients`. -/
def get_vstack_coefficients (expr : Expr) : List SparseMatrix :=
  get_stack_coefficients expr true

/-- `get_reshape_coefficients`: the identity of size `dim(expr)`. -/
def get_reshape_coefficients (expr : Expr) : SparseMatrix :=
  identity (dimE expr)

/-- The triplets `(counter, sel[counter], 1)` of `get_index_coefficients`,
with the counter advancing over the selected flat positions. -/
def indexTriplets : List Nat → Nat → List Triplet
  | [], _ => []
  | idx :: rest, cnt => (cnt, idx, (1 : ℚ)) :: indexTriplets rest (cnt + 1)

/-- The flat input positions selected by an `INDEX` node, iterating the
column slice outermost and the row slice innermost, each selected
`(row, col)` contributing `col · rows + row`. -/
def indexSel (rows cols : Nat) (rs cs : Slice) : List Nat :=
  (sliceIdx cs cols).flatMap (fun col =>
    (sliceIdx rs rows).map (fun row => col.toNat * rows + row.toNat))

/-- `get_index_coefficients`: the selection matrix of the two slices of an
`INDEX` node (zero matrix on any other node type). -/
def get_index_coefficients (expr : Expr) : SparseMatrix :=
  match expr with
  | .index e rs cs =>
    ⟨dimE (.index e rs cs), (esize e).1 * (esize e).2,
      indexTriplets (indexSel (esize e).1 (esize e).2 rs cs) 0⟩
  | _ => ⟨0, 0, []⟩

/-- `get_diag_mat_coefficients`: entry `(i, i·rows + i) = 1` for
`i < rows = size(expr).dims[0]`. -/
def get_diag_mat_coefficients (expr : Expr) : SparseMatrix :=
  ⟨(esize expr).1, (esize expr).1 * (esize expr).1,
    (List.range (esize expr).1).map (fun i => (i, i * (esize expr).1 + i, (1 : ℚ)))⟩

/-- `get_diag_vec_coefficients`: entry `(i·rows + i, i) = 1` for
`i < rows = size(expr).dims[0]`. -/
def get_diag_vec_coefficients (expr : Expr) : SparseMatrix :=
  ⟨(esize expr).1 * (esize expr).1, (esize expr).1,
    (List.range (esize expr).1).map (fun i => (i * (esize expr).1 + i, i, (1 : ℚ)))⟩

/-- `get_transpose_coefficients`: with `rows = size(expr).dims[0]` and
`cols = size(expr).dims[1]` (the shape of the `TRANSPOSE` node itself),
entry `(rows·j + i, i·cols + j) = 1` for `i < rows`, `j < cols`. -/
def get_transpose_coefficients (expr : Expr) : SparseMatrix :=
  ⟨(esize expr).1 * (esize expr).2, (esize expr).1 * (esize expr).2,
    (List.range (esize expr).1).flatMap (fun i =>
      (List.range (esize expr).2).map (fun j =>
        ((esize expr).1 * j + i, i * (esize expr).2 + j, (1 : ℚ))))⟩

/-! ## Coefficient maps and `get_coefficients` -/

/-- Variable identifiers as map keys; real variables are nonnegative. -/
abbrev VarId : Type := Int

/-- Modelled from the spec (`LinearExpression.hpp` is not under `src/`):
the sentinel key of the constant term, distinct from every variable id. -/
def kConstCoefficientId : VarId := -1

/-- A `CoeffMap` (`std::map<int, SparseMatrix>`), as an association list
with pairwise-distinct keys.  Iteration order is irrelevant to every
property proved here. -/
abbrev CoeffMap : Type := List (VarId × SparseMatrix)

/-- Lookup in a `CoeffMap`. -/
def CoeffMap.find (m : CoeffMap) (k : VarId) : Option SparseMatrix :=
  (m.find? (fun p => p.1 == k)).map (·.2)

/-- `is_constant`: the map holds `kConstCoefficientId` and nothing else. -/
def is_constant (coeffs : CoeffMap) : Bool :=
  (coeffs.find kConstCoefficientId).isSome && coeffs.length == 1

/-- The matrix stored under `kConstCoefficientId`
(`coeffs[kConstCoefficientId]`, present whenever `is_constant`). -/
def constPart (coeffs : CoeffMap) : SparseMatrix :=
  (coeffs.find kConstCoefficientId).getD ⟨0, 0, []⟩

/-- `result->insert` followed by `+=` on collision: add `v` to the entry
at key `k`, creating it if absent. -/
def insertAdd (k : VarId) (v : SparseMatrix) : CoeffMap → CoeffMap
  | [] => [(k, v)]
  | (k', v') :: rest =>
    if k = k' then (k', spAdd v' v) :: rest else (k', v') :: insertAdd k v rest

/-- `multiply_by_constant(lhs, rhs, result)`: for every entry of `rhs`,
check `CHECK_EQ(lhs.cols(), entry.rows())` (fatal mismatch modelled as
`none`) and accumulate `lhs * entry` into the result at the same key. -/
def multiply_by_constant (lhs : SparseMatrix) : CoeffMap → CoeffMap → Option CoeffMap
  | [], acc => some acc
  | (k, a) :: rest, acc =>
    if lhs.cols = a.rows then
      multiply_by_constant lhs rest (insertAdd k (spMul lhs a) acc)
    else none

mutual

/-- `get_coefficients(expr)` (`LinearExpression.cpp`): the recursive
bottom-up extraction of the per-variable coefficient matrices, with every
fatal path (`LOG(FATAL)` on a product of two non-constants, the `CHECK`
on an unregistered type, and `CHECK_EQ` dimension mismatches) modelled as
`none`. -/
def get_coefficients : Expr → Option CoeffMap
  | .const r c data => some [(kConstCoefficientId, to_vector r c data)]
  | .var v r c => some [((v : Int), identity (r * c))]
  | .mul l r => do
    let lhs_coeffs ← get_coefficients l
    let rhs_coeffs ← get_coefficients r
    if is_constant lhs_coeffs then
      multiply_by_constant
        (get_left_mul_coefficients (.mul l r) (constPart lhs_coeffs)) rhs_coeffs []
    else if is_constant rhs_coeffs then
      multiply_by_constant
        (get_right_mul_coefficients (.mul l r) (constPart rhs_coeffs)) lhs_coeffs []
    else none
  | .add args => accumulateArgs (get_add_coefficients (.add args)) args []
  | .neg e => do
    let arg_coeffs ← get_coefficients e
    multiply_by_constant (get_neg_coefficients (.neg e)) arg_coeffs []
  | .sum_entries e => do
    let arg_coeffs ← get_coefficients e
    multiply_by_constant (get_sum_entries_coefficients (.sum_entries e)) arg_coeffs []
  | .hstack args => accumulateArgs (get_hstack_coefficients (.hstack args)) args []
  | .vstack args => accumulateArgs (get_vstack_coefficients (.vstack args)) args []
  | .reshape e r c => do
    let arg_coeffs ← get_coefficients e
    multiply_by_constant (get_reshape_coefficients (.reshape e r c)) arg_coeffs []
  | .index e rs cs => do
    let arg_coeffs ← get_coefficients e
    multiply_by_constant (get_index_coefficients (.index e rs cs)) arg_coeffs []
  | .diag_mat e => do
    let arg_coeffs ← get_coefficients e
    multiply_by_constant (get_diag_mat_coefficients (.diag_mat e)) arg_coeffs []
  | .diag_vec e => do
    let arg_coeffs ← get_coefficients e
    multiply_by_constant (get_diag_vec_coefficients (.diag_vec e)) arg_coeffs []
  | .transpose e => do
    let arg_coeffs ← get_coefficients e
    multiply_by_constant (get_transpose_coefficients (.transpose e)) arg_coeffs []
  | .abs _ => none
  | .p_norm _ _ => none
  | .quad_over_lin _ _ => none
  | .leq _ _ => none
  | .soc _ _ => none
  termination_by structural e => e

/-- The loop over the children in the table-dispatched branch of
`get_coefficients`: extract each child's map and fold it into the result
through `multiply_by_constant` with the child's coefficient matrix. -/
def accumulateArgs : List SparseMatrix → List Expr → CoeffMap → Option CoeffMap
  | _, [], acc => some acc
  | fs, a :: rest, acc => do
    let arg_coeffs ← get_coefficients a
    let acc' ← multiply_by_constant (fs.headD ⟨0, 0, []⟩) arg_coeffs acc
    accumulateArgs fs.tail rest acc'
  termination_by structural _ l _ => l

end

/-! ## Evaluation semantics (modelled from the spec)

Expression evaluation is not part of the two source files; the
definitions below are modelled from the spec's data model: every matrix
is identified with its column-major flattened vector (entry `(i, j)` at
flat position `j·r + i`), an assignment gives each variable identifier
its flattened value vector, and each atom has its usual linear-algebra
meaning (`ADD` with scalar promotion, `MUL` the strict matrix product,
stacking, reshape as flat identity, `INDEX` the slice selection in the
order of `get_index_coefficients`' loops, diagonal extraction/embedding,
transposition). -/

mutual

/-- Modelled from the spec: the column-major flattened value of an
expression under an assignment `σ` of flattened values to variable ids. -/
def evalVec : Expr → (Nat → Nat → ℚ) → Nat → ℚ
  | .const r _ data, _, i => nth2 data (i % r) (i / r)
  | .var v _ _, σ, i => σ v i
  | .add args, σ, i => addEval args σ i
  | .neg e, σ, i => - evalVec e σ i
  | .mul l r, σ, i =>
    ((List.range (esize l).2).map (fun k =>
      evalVec l σ (k * (esize l).1 + i % (esize l).1) *
        evalVec r σ ((i / (esize l).1) * (esize l).2 + k))).sum
  | .sum_entries e, σ, _ => ((List.range (dimE e)).map (fun j => evalVec e σ j)).sum
  | .hstack args, σ, i => hstackEval args σ i
  | .vstack args, σ, i =>
    vstackEval args σ (i % (((sizeList args).map (·.1)).sum)) (i / (((sizeList args).map (·.1)).sum))
  | .reshape e _ _, σ, i => evalVec e σ i
  | .index e rs cs, σ, i => evalVec e σ ((indexSel (esize e).1 (esize e).2 rs cs).getD i 0)
  | .diag_mat e, σ, i => evalVec e σ (i * (esize e).1 + i)
  | .diag_vec e, σ, i =>
    if i % (esize e).1 = i / (esize e).1 then evalVec e σ (i % (esize e).1) else 0
  | .transpose e, σ, i => evalVec e σ ((i % (esize e).2) * (esize e).1 + i / (esize e).2)
  | .abs e, σ, i => |evalVec e σ i|
  | .p_norm _ _, _, _ => 0
  | .quad_over_lin _ _, _, _ => 0
  | .leq _ _, _, _ => 0
  | .soc _ _, _, _ => 0
  termination_by structural e => e

/-- `ADD` evaluation: sum the arguments, a scalar argument broadcast. -/
def addEval : List Expr → (Nat → Nat → ℚ) → Nat → ℚ
  | [], _, _ => 0
  | a :: rest, σ, i =>
    (if dimE a = 1 then evalVec a σ 0 else evalVec a σ i) + addEval rest σ i
  termination_by structural l => l

/-- `HSTACK` evaluation: the flattened arguments concatenate. -/
def hstackEval : List Expr → (Nat → Nat → ℚ) → Nat → ℚ
  | [], _, _ => 0
  | a :: rest, σ, i =>
    if i < dimE a then evalVec a σ i else hstackEval rest σ (i - dimE a)
  termination_by structural l => l

/-- `VSTACK` evaluation at row `p`, column `q` of the stack. -/
def vstackEval : List Expr → (Nat → Nat → ℚ) → Nat → Nat → ℚ
  | [], _, _, _ => 0
  | a :: rest, σ, p, q =>
    if p < (esize a).1 then evalVec a σ (q * (esize a).1 + p)
    else vstackEval rest σ (p - (esize a).1) q
  termination_by structural l => l

end

/-! ## Shape well-formedness -/

mutual

/-- Shape well-formedness of an affine expression, the standing
precondition of the extractor claims (the input is produced by a
DCP-compliant front end): positive dimensions at every node, matching
inner dimensions for `MUL`, matching stacked dimensions for
`HSTACK`/`VSTACK` with at least one argument, at least one `ADD`
argument, dimension-preserving `RESHAPE`, square `DIAG_MAT` argument,
column `DIAG_VEC` argument, nonzero `INDEX` steps; the non-affine atoms
are not well-formed for the extractor. -/
def wf : Expr → Bool
  | .const r c _ => 0 < r && 0 < c
  | .var _ r c => 0 < r && 0 < c
  | .add args => !args.isEmpty && wfList args
  | .neg e => wf e
  | .mul l r => (esize l).2 = (esize r).1 && wf l && wf r
  | .sum_entries e => wf e
  | .hstack args =>
    !args.isEmpty && (sizeList args).all (fun s => s.1 = ((sizeList args).headD (0, 0)).1 && 0 < s.2)
      && wfList args
  | .vstack args =>
    !args.isEmpty && (sizeList args).all (fun s => s.2 = ((sizeList args).headD (0, 0)).2 && 0 < s.1)
      && wfList args
  | .reshape e r c => 0 < r && 0 < c && r * c = dimE e && wf e
  | .index e rs cs =>
    rs.step ≠ 0 && cs.step ≠ 0 && 0 < (sliceIdx rs (esize e).1).length
      && 0 < (sliceIdx cs (esize e).2).length && wf e
  | .diag_mat e => (esize e).1 = (esize e).2 && wf e
  | .diag_vec e => (esize e).2 = 1 && wf e
  | .transpose e => wf e
  | .abs _ => false
  | .p_norm _ _ => false
  | .quad_over_lin _ _ => false
  | .leq _ _ => false
  | .soc _ _ => false
  termination_by structural e => e

/-- Shape well-formedness of each expression in a list. -/
def wfList : List Expr → Bool
  | [] => true
  | a :: rest => wf a && wfList rest
  termination_by structural l => l

end

/-! ## The cone transformer (`LinearConeTransform.cpp`)

The expression constructors used by the transformer (`leq`, `neg`, `add`,
`mul`, `vstack`, `sum_entries`, `constant`, `soc` of
`ExpressionUtil.hpp`, not under `src/`) are modelled from the spec as the
corresponding `Expr` constructors; `epi_var`/`scalar_epi_var` mint a
fresh variable, modelled by threading the next fresh identifier
explicitly (identifiers are globally unique within the problem). -/

/-- Modelled from the spec: `epi_var(expr, name)`, a fresh variable with
the shape of `expr`. -/
def epi_var (expr : Expr) (fresh : Nat) : Expr :=
  .var fresh (esize expr).1 (esize expr).2

/-- Modelled from the spec: `scalar_epi_var(expr, name)`, a fresh scalar
variable. -/
def scalar_epi_var (_ : Expr) (fresh : Nat) : Expr :=
  .var fresh 1 1

/-- `transform_abs`: mint `t = epi_var(expr)`, push `x ≤ t` and
`−x ≤ t`, return `t`. -/
def transform_abs (expr : Expr) (constraints : List Expr) (fresh : Nat) :
    Expr × List Expr × Nat :=
  let x := expr.arg0
  let t := epi_var expr fresh
  (t, constraints ++ [.leq x t, .leq (.neg x) t], fresh + 1)

/-- `transform_p_norm`: `CHECK_EQ(p, 1)` (fatal otherwise, modelled as
`none`), then `sum_entries(transform_abs(expr, constraints))`. -/
def transform_p_norm (expr : Expr) (constraints : List Expr) (fresh : Nat) :
    Option (Expr × List Expr × Nat) :=
  match expr with
  | .p_norm p e =>
    if p = 1 then
      let r := transform_abs (.p_norm p e) constraints fresh
      some (.sum_entries r.1, r.2.1, r.2.2)
    else none
  | _ => none

/-- `transform_quad_over_lin`: mint a scalar `t`, push
`SOC(vstack(y + (−t), 2·x), y + t)` and `0 ≤ y`, return `t`. -/
def transform_quad_over_lin (expr : Expr) (constraints : List Expr) (fresh : Nat) :
    Expr × List Expr × Nat :=
  let x := expr.arg0
  let y := expr.argsOf.getD 1 (.const 0 0 [])
  let t := scalar_epi_var expr fresh
  (t, constraints ++
      [.soc (.vstack [.add [y, .neg t], .mul (.const 1 1 [[2]]) x]) (.add [y, t]),
       .leq (.const 1 1 [[0]]) y],
    fresh + 1)

mutual

/-- `transform_expression`: transform the children first, rebuild the
node with the same type and attributes, then apply the registered
rewrite (`kTransforms`: `ABS`, `P_NORM`, `QUAD_OVER_LIN`) if any. -/
def transform_expression : Expr → List Expr → Nat → Option (Expr × List Expr × Nat)
  | .const r c d, cs, fresh => some (.const r c d, cs, fresh)
  | .var v r c, cs, fresh => some (.var v r c, cs, fresh)
  | .add args, cs, fresh => do
    let (args', cs1, f1) ← transformList args cs fresh
    some (.add args', cs1, f1)
  | .neg e, cs, fresh => do
    let (e', cs1, f1) ← transform_expression e cs fresh
    some (.neg e', cs1, f1)
  | .mul l r, cs, fresh => do
    let (l', cs1, f1) ← transform_expression l cs fresh
    let (r', cs2, f2) ← transform_expression r cs1 f1
    some (.mul l' r', cs2, f2)
  | .sum_entries e, cs, fresh => do
    let (e', cs1, f1) ← transform_expression e cs fresh
    some (.sum_entries e', cs1, f1)
  | .hstack args, cs, fresh => do
    let (args', cs1, f1) ← transformList args cs fresh
    some (.hstack args', cs1, f1)
  | .vstack args, cs, fresh => do
    let (args', cs1, f1) ← transformList args cs fresh
    some (.vstack args', cs1, f1)
  | .reshape e r c, cs, fresh => do
    let (e', cs1, f1) ← transform_expression e cs fresh
    some (.reshape e' r c, cs1, f1)
  | .index e rs' cs', cs, fresh => do
    let (e', cs1, f1) ← transform_expression e cs fresh
    some (.index e' rs' cs', cs1, f1)
  | .diag_mat e, cs, fresh => do
    let (e', cs1, f1) ← transform_expression e cs fresh
    some (.diag_mat e', cs1, f1)
  | .diag_vec e, cs, fresh => do
    let (e', cs1, f1) ← transform_expression e cs fresh
    some (.diag_vec e', cs1, f1)
  | .transpose e, cs, fresh => do
    let (e', cs1, f1) ← transform_expression e cs fresh
    some (.transpose e', cs1, f1)
  | .abs e, cs, fresh => do
    let (e', cs1, f1) ← transform_expression e cs fresh
    some (transform_abs (.abs e') cs1 f1)
  | .p_norm p e, cs, fresh => do
    let (e', cs1, f1) ← transform_expression e cs fresh
    transform_p_norm (.p_norm p e') cs1 f1
  | .quad_over_lin x y, cs, fresh => do
    let (x', cs1, f1) ← transform_expression x cs fresh
    let (y', cs2, f2) ← transform_expression y cs1 f1
    some (transform_quad_over_lin (.quad_over_lin x' y') cs2 f2)
  | .leq l r, cs, fresh => do
    let (l', cs1, f1) ← transform_expression l cs fresh
    let (r', cs2, f2) ← transform_expression r cs1 f1
    some (.leq l' r', cs2, f2)
  | .soc v w, cs, fresh => do
    let (v', cs1, f1) ← transform_expression v cs fresh
    let (w', cs2, f2) ← transform_expression w cs1 f1
    some (.soc v' w', cs2, f2)
  termination_by structural e => e

/-- The child loop of `transform_expression`, left to right, threading
the constraint accumulator and the fresh-identifier counter. -/
def transformList : List Expr → List Expr → Nat → Option (List Expr × List Expr × Nat)
  | [], cs, fresh => some ([], cs, fresh)
  | a :: rest, cs, fresh => do
    let (a', cs1, f1) ← transform_expression a cs fresh
    let (rest', cs2, f2) ← transformList rest cs1 f1
    some (a' :: rest', cs2, f2)
  termination_by structural l => l

end

/-- The optimization sense of a problem. -/
inductive Sense : Type where
  | minimize
  | maximize

/-- A `Problem`: sense, objective, constraints. -/
structure Problem : Type where
  sense : Sense
  objective : Expr
  constraints : List Expr

/-- The constraint loop of `LinearConeTransform::transform`: for each
original constraint, the auxiliary constraints produced while
transforming it are appended to the shared accumulator, then the
transformed constraint itself is pushed. -/
def transformConstrLoop : List Expr → List Expr → Nat → Option (List Expr × Nat)
  | [], cs, fresh => some (cs, fresh)
  | constr :: rest, cs, fresh => do
    let (c', cs1, f1) ← transform_expression constr cs fresh
    transformConstrLoop rest (cs1 ++ [c']) f1

/-- `LinearConeTransform::transform`: transform the objective into the
empty accumulator, then each constraint in order, returning the problem
with the transformed objective and the accumulated constraint list. -/
def LinearConeTransform_transform (p : Problem) (fresh : Nat) :
    Option (Problem × Nat) := do
  let (linear_objective, cs1, f1) ← transform_expression p.objective [] fresh
  let (csFinal, f2) ← transformConstrLoop p.constraints cs1 f1
  some ({ sense := p.sense, objective := linear_objective, constraints := csFinal }, f2)

mutual

/-- No `ABS`, `P_NORM` or `QUAD_OVER_LIN` node (the registered entries of
`kTransforms`) occurs anywhere in the tree. -/
def coneAtomFree : Expr → Bool
  | .const _ _ _ => true
  | .var _ _ _ => true
  | .add args => coneAtomFreeList args
  | .neg e => coneAtomFree e
  | .mul l r => coneAtomFree l && coneAtomFree r
  | .sum_entries e => coneAtomFree e
  | .hstack args => coneAtomFreeList args
  | .vstack args => coneAtomFreeList args
  | .reshape e _ _ => coneAtomFree e
  | .index e _ _ => coneAtomFree e
  | .diag_mat e => coneAtomFree e
  | .diag_vec e => coneAtomFree e
  | .transpose e => coneAtomFree e
  | .abs _ => false
  | .p_norm _ _ => false
  | .quad_over_lin _ _ => false
  | .leq l r => coneAtomFree l && coneAtomFree r
  | .soc v w => coneAtomFree v && coneAtomFree w
  termination_by structural e => e

/-- `coneAtomFree` for every expression of a list. -/
def coneAtomFreeList : List Expr → Bool
  | [] => true
  | a :: rest => coneAtomFree a && coneAtomFreeList rest
  termination_by structural l => l

end

/-- The constraint layout stated by claim C10, following the spec's
words: for each original constraint in input order, the auxiliary
constraints emitted while transforming it (its transform run on the empty
accumulator), immediately followed by the transformed constraint itself. -/
def constraintLayout : List Expr → Nat → Option (List Expr × Nat)
  | [], fresh => some ([], fresh)
  | c :: rest, fresh => do
    let (c', d, f1) ← transform_expression c [] fresh
    let (tail, f2) ← constraintLayout rest f1
    some (d ++ [c'] ++ tail, f2)

/-! ## Semantics of coefficient maps -/

/-- The input vector standing for the constant term: the indicator of
position `0` (the constant column is `dim(expr) × 1`). -/
def unitVec : Nat → ℚ := fun j => if j = 0 then 1 else 0

/-- The affine map represented by a `CoeffMap`: the sum, over its
entries, of the stored matrix applied to the vector the assignment gives
its key (`kConstCoefficientId` is assigned `unitVec` in the correctness
statement, so its column contributes the constant term). -/
def coeffSum (m : CoeffMap) (assign : VarId → Nat → ℚ) (i : Nat) : ℚ :=
  (m.map (fun p => p.2.applyVec (assign p.1) i)).sum

/-- The structural invariant of a coefficient map for an expression of
dimension `d`: every stored matrix has exactly `d` rows with all triplet
rows under `d`, and the constant entry is a single column whose triplets
sit in column `0`. -/
def GoodMap (m : CoeffMap) (d : Nat) : Prop :=
  ∀ p ∈ m, p.2.rows = d ∧ (∀ t ∈ p.2.triplets, t.1 < d) ∧
    (p.1 = kConstCoefficientId → p.2.cols = 1 ∧ ∀ t ∈ p.2.triplets, t.2.1 = 0)

/-- The total contribution of the per-argument coefficient matrices
applied to the evaluated arguments, in the pairing order of the child
loop of `get_coefficients`. -/
def contribSum : List SparseMatrix → List Expr → (Nat → Nat → ℚ) → Nat → ℚ
  | _, [], _, _ => 0
  | fs, a :: rest, σ, i =>
    (fs.headD ⟨0, 0, []⟩).applyVec (evalVec a σ) i + contribSum fs.tail rest σ i

/-- Structural facts about the per-argument coefficient matrices handed
to the child loop: each has `d` rows, triplet rows under `d` and triplet
columns inside its column count. -/
def FsOK : List SparseMatrix → List Expr → Nat → Prop
  | _, [], _ => True
  | fs, _ :: rest, d =>
    ((fs.headD ⟨0, 0, []⟩).rows = d ∧
      ∀ t ∈ (fs.headD ⟨0, 0, []⟩).triplets,
        t.1 < d ∧ t.2.1 < (fs.headD ⟨0, 0, []⟩).cols) ∧
    FsOK fs.tail rest d

/-- The keys of a coefficient map are pairwise distinct (the map models
`std::map`). -/
def KeysDistinct (m : CoeffMap) : Prop :=
  m.Pairwise (fun p q => p.1 ≠ q.1)

/-- The input the correctness statement hands to a coefficient map: the
constant sentinel key reads the unit vector (so its single column
contributes the constant term), a variable key reads that variable's
flattened value under `σ`. -/
def extendAssign (σ : Nat → Nat → ℚ) : VarId → Nat → ℚ :=
  fun k => if k = kConstCoefficientId then unitVec else σ k.toNat

/-! ## Small summation toolkit over triplet lists -/

theorem lsum_append (l₁ l₂ : List ℚ) : (l₁ ++ l₂).sum = l₁.sum + l₂.sum :=
  List.sum_append

theorem lsum_map_append {α : Type} (f : α → ℚ) (l₁ l₂ : List α) :
    ((l₁ ++ l₂).map f).sum = (l₁.map f).sum + (l₂.map f).sum := by
  rw [List.map_append, List.sum_append]

theorem lsum_map_add {α : Type} (f g : α → ℚ) (l : List α) :
    (l.map (fun a => f a + g a)).sum = (l.map f).sum + (l.map g).sum := by
  induction l with
  | nil => simp
  | cons a l ih => simp [ih]; ring

theorem lsum_map_mul_left {α : Type} (c : ℚ) (f : α → ℚ) (l : List α) :
    (l.map (fun a => c * f a)).sum = c * (l.map f).sum := by
  induction l with
  | nil => simp
  | cons a l ih => simp [ih]; ring

theorem lsum_map_zero {α : Type} (l : List α) :
    (l.map (fun _ => (0 : ℚ))).sum = 0 := by
  induction l with
  | nil => simp
  | cons a l ih => simp [ih]

theorem lsum_flatMap {α β : Type} (f : β → ℚ) (g : α → List β) (l : List α) :
    ((l.flatMap g).map f).sum = (l.map (fun a => ((g a).map f).sum)).sum := by
  induction l with
  | nil => simp
  | cons a l ih => simp [List.flatMap_cons, lsum_map_append, ih]

theorem lsum_filter {α : Type} (p : α → Bool) (f : α → ℚ) (l : List α) :
    ((l.filter p).map f).sum = (l.map (fun a => if p a then f a else 0)).sum := by
  induction l with
  | nil => simp
  | cons a l ih =>
    by_cases h : p a <;> simp [List.filter_cons, h, ih]

theorem lsum_congr {α : Type} (f g : α → ℚ) (l : List α)
    (h : ∀ a ∈ l, f a = g a) : (l.map f).sum = (l.map g).sum := by
  rw [List.map_congr_left h]

/-- Summing an indicator of a single index over `List.range n`. -/
theorem lsum_range_ite (n a : Nat) (x : Nat → ℚ) :
    ((List.range n).map (fun k => if k = a then x k else 0)).sum =
      if a < n then x a else 0 := by
  induction n with
  | zero => simp
  | succ n ih =>
    rw [List.range_succ, lsum_map_append, ih]
    rcases Nat.lt_trichotomy a n with h | h | h
    · simp [Nat.lt_succ_of_lt h, h, Nat.ne_of_gt h]
    · subst h; simp [Nat.lt_irrefl]
    · have h1 : ¬ a < n := by omega
      have h2 : ¬ a < n + 1 := by omega
      have h3 : n ≠ a := by omega
      simp [h1, h2, h3]

/-- Collapsing a double range sum of a column-major flat index into a
single range sum. -/
theorem lsum_double_range (r c : Nat) (g : Nat → ℚ) :
    ((List.range c).flatMap (fun j => (List.range r).map (fun i => g (j * r + i)))).sum
      = ((List.range (r * c)).map g).sum := by
  induction c with
  | zero => simp
  | succ c ih =>
    rw [List.range_succ, List.flatMap_append, lsum_append, ih]
    have hrc : r * (c + 1) = r * c + r := by ring
    rw [hrc, List.range_add, lsum_map_append]
    congr 1
    rw [List.flatMap_cons, List.flatMap_nil, List.append_nil, List.map_map]
    apply lsum_congr
    intro i _
    simp only [Function.comp_apply]
    congr 1
    ring

/-! ## Key lemmas about `applyVec` -/

theorem applyVec_spAdd (a b : SparseMatrix) (x : Nat → ℚ) (i : Nat) :
    (spAdd a b).applyVec x i = a.applyVec x i + b.applyVec x i := by
  simp [spAdd, SparseMatrix.applyVec, lsum_map_append]

theorem applyVec_spMul (a b : SparseMatrix) (x : Nat → ℚ) (i : Nat) :
    (spMul a b).applyVec x i = a.applyVec (fun j => b.applyVec x j) i := by
  simp only [spMul, SparseMatrix.applyVec, lsum_flatMap, List.map_map]
  apply lsum_congr
  intro t _
  have hcomp : ((b.triplets.filter (fun u => u.1 == t.2.1)).map
      ((fun s => if s.1 = i then s.2.2 * x s.2.1 else 0) ∘
        (fun u => (t.1, u.2.1, t.2.2 * u.2.2)))) =
      ((b.triplets.filter (fun u => u.1 == t.2.1)).map
      (fun u => if t.1 = i then t.2.2 * u.2.2 * x u.2.1 else 0)) := rfl
  rw [hcomp]
  by_cases h : t.1 = i
  · simp only [h, if_true, eq_self_iff_true]
    have step1 : ((b.triplets.filter (fun u => u.1 == t.2.1)).map
        (fun u => t.2.2 * u.2.2 * x u.2.1)).sum =
        ((b.triplets.filter (fun u => u.1 == t.2.1)).map
        (fun u => t.2.2 * (u.2.2 * x u.2.1))).sum := by
      apply lsum_congr; intro u _; ring
    rw [step1, lsum_map_mul_left]
    congr 1
    rw [lsum_filter]
    apply lsum_congr
    intro u _
    by_cases hu : u.1 = t.2.1 <;> simp [hu]
  · simp only [h, if_false]
    rw [← lsum_map_zero (b.triplets.filter (fun u => u.1 == t.2.1))]
    apply lsum_congr
    intro u _
    simp [h]

theorem applyVec_zero_fun (m : SparseMatrix) (i : Nat) :
    m.applyVec (fun _ => 0) i = 0 := by
  simp only [SparseMatrix.applyVec]
  rw [show (0 : ℚ) = (m.triplets.map (fun _ => (0:ℚ))).sum from (lsum_map_zero _).symm]
  apply lsum_congr
  intro t _
  split <;> simp

theorem applyVec_add_fun (m : SparseMatrix) (x y : Nat → ℚ) (i : Nat) :
    m.applyVec (fun j => x j + y j) i = m.applyVec x i + m.applyVec y i := by
  simp only [SparseMatrix.applyVec]
  rw [← lsum_map_add]
  apply lsum_congr
  intro t _
  split <;> ring

theorem applyVec_identity (n : Nat) (x : Nat → ℚ) (i : Nat) (hi : i < n) :
    (identity n).applyVec x i = x i := by
  simp only [identity, SparseMatrix.applyVec, List.map_map]
  have : ((List.range n).map (fun k => if k = i then (1:ℚ) * x k else 0)).sum =
      if i < n then 1 * x i else 0 := lsum_range_ite n i (fun k => 1 * x k)
  rw [show ((List.range n).map ((fun t => if t.1 = i then t.2.2 * x t.2.1 else 0) ∘
      (fun k => (k, k, (1:ℚ))))).sum =
      ((List.range n).map (fun k => if k = i then (1:ℚ) * x k else 0)).sum from rfl]
  rw [this, if_pos hi, one_mul]

theorem applyVec_scalar (v : ℚ) (n : Nat) (x : Nat → ℚ) (i : Nat) (hi : i < n) :
    (scalar_matrix v n).applyVec x i = v * x i := by
  simp only [scalar_matrix, SparseMatrix.applyVec, List.map_map]
  have : ((List.range n).map (fun k => if k = i then v * x k else 0)).sum =
      if i < n then v * x i else 0 := lsum_range_ite n i (fun k => v * x k)
  rw [show ((List.range n).map ((fun t => if t.1 = i then t.2.2 * x t.2.1 else 0) ∘
      (fun k => (k, k, v)))).sum =
      ((List.range n).map (fun k => if k = i then v * x k else 0)).sum from rfl]
  rw [this, if_pos hi]

/-! ## Claims about the cone transformer's registered rewrites -/

/-- **C6.** `transform_expression` on an `ABS` node whose argument
transforms to `x'` mints exactly one fresh epigraph variable `t`
(`epi_var`, same shape as the `ABS` expression; the fresh counter
advances by one), appends exactly the two constraints `x' ≤ t` and
`−x' ≤ t`, in that order, and returns `t`. -/
theorem abs_rewrite_C6 (x x' : Expr) (cs cs1 : List Expr) (f f1 : Nat)
    (h : transform_expression x cs f = some (x', cs1, f1)) :
    transform_expression (.abs x) cs f =
      some (epi_var (.abs x') f1,
        cs1 ++ [.leq x' (epi_var (.abs x') f1), .leq (.neg x') (epi_var (.abs x') f1)],
        f1 + 1) ∧
      esize (epi_var (.abs x') f1) = esize (.abs x') := by
  constructor
  · simp only [transform_expression, h, Option.bind_eq_bind, Option.some_bind]
    simp [transform_abs, Expr.arg0, Expr.argsOf, epi_var]
  · simp [epi_var, esize]

/-- Witness for `abs_rewrite_C6` at `ABS(VAR(0, (1,1)))` (scenario S6). -/
theorem abs_rewrite_C6_witness :
    transform_expression (.abs (.var 0 1 1)) [] 3 =
      some (epi_var (.abs (.var 0 1 1)) 3,
        [] ++ [.leq (.var 0 1 1) (epi_var (.abs (.var 0 1 1)) 3),
          .leq (.neg (.var 0 1 1)) (epi_var (.abs (.var 0 1 1)) 3)],
        3 + 1) ∧
      esize (epi_var (.abs (.var 0 1 1)) 3) = esize (.abs (.var 0 1 1)) :=
  abs_rewrite_C6 (.var 0 1 1) (.var 0 1 1) [] [] 3 3 (by simp [transform_expression])

/-- **C7.** `transform_expression` on a `QUAD_OVER_LIN` node whose
children transform to `x'` and `y'` mints exactly one fresh scalar
epigraph variable `t` and appends exactly the two constraints
`SOC(vstack(y' + (−t), 2·x'), y' + t)` followed by `0 ≤ y'`, returning
`t`. -/
theorem quad_over_lin_rewrite_C7 (x y x' y' : Expr) (cs cs1 cs2 : List Expr)
    (f f1 f2 : Nat)
    (hx : transform_expression x cs f = some (x', cs1, f1))
    (hy : transform_expression y cs1 f1 = some (y', cs2, f2)) :
    transform_expression (.quad_over_lin x y) cs f =
      some (.var f2 1 1,
        cs2 ++
          [.soc (.vstack [.add [y', .neg (.var f2 1 1)], .mul (.const 1 1 [[2]]) x'])
            (.add [y', .var f2 1 1]),
           .leq (.const 1 1 [[0]]) y'],
        f2 + 1) := by
  simp only [transform_expression, hx, hy, Option.bind_eq_bind, Option.some_bind]
  simp [transform_quad_over_lin, scalar_epi_var, Expr.arg0, Expr.argsOf]

/-- Witness for `quad_over_lin_rewrite_C7` at
`QUAD_OVER_LIN(VAR(1, (3,1)), VAR(2, (1,1)))` (scenario S7). -/
theorem quad_over_lin_rewrite_C7_witness :
    transform_expression (.quad_over_lin (.var 1 3 1) (.var 2 1 1)) [] 5 =
      some (.var 5 1 1,
        [] ++
          [.soc (.vstack [.add [.var 2 1 1, .neg (.var 5 1 1)],
              .mul (.const 1 1 [[2]]) (.var 1 3 1)])
            (.add [.var 2 1 1, .var 5 1 1]),
           .leq (.const 1 1 [[0]]) (.var 2 1 1)],
        5 + 1) :=
  quad_over_lin_rewrite_C7 (.var 1 3 1) (.var 2 1 1) (.var 1 3 1) (.var 2 1 1)
    [] [] [] 5 5 5 (by simp [transform_expression]) (by simp [transform_expression])

/-- **C8.** The cone transformer on a `P_NORM` node fails fatally
whenever `p ≠ 1`; for `p = 1` it invokes the `ABS` rewrite on the node
(minting exactly one epigraph variable and appending its two
constraints) and wraps the result in `SUM_ENTRIES`. -/
theorem p_norm_rewrite_C8 (p : ℚ) (x x' : Expr) (cs cs1 : List Expr) (f f1 : Nat)
    (hx : transform_expression x cs f = some (x', cs1, f1)) :
    (p ≠ 1 → transform_expression (.p_norm p x) cs f = none) ∧
    (p = 1 → transform_expression (.p_norm p x) cs f =
      some (.sum_entries (epi_var (.p_norm p x') f1),
        cs1 ++ [.leq x' (epi_var (.p_norm p x') f1),
          .leq (.neg x') (epi_var (.p_norm p x') f1)],
        f1 + 1)) := by
  constructor
  · intro hp
    simp only [transform_expression, hx, Option.bind_eq_bind, Option.some_bind]
    simp [transform_p_norm, hp]
  · intro hp
    simp only [transform_expression, hx, Option.bind_eq_bind, Option.some_bind]
    simp [transform_p_norm, hp, transform_abs, Expr.arg0, Expr.argsOf]

/-- Witness for `p_norm_rewrite_C8` at `P_NORM(p = 1, VAR(0, (3,1)))`
and `P_NORM(p = 2, VAR(0, (3,1)))`. -/
theorem p_norm_rewrite_C8_witness :
    ((2 : ℚ) ≠ 1 → transform_expression (.p_norm 2 (.var 0 3 1)) [] 7 = none) ∧
    ((2 : ℚ) = 1 → transform_expression (.p_norm 2 (.var 0 3 1)) [] 7 =
      some (.sum_entries (epi_var (.p_norm 2 (.var 0 3 1)) 7),
        [] ++ [.leq (.var 0 3 1) (epi_var (.p_norm 2 (.var 0 3 1)) 7),
          .leq (.neg (.var 0 3 1)) (epi_var (.p_norm 2 (.var 0 3 1)) 7)],
        7 + 1)) :=
  p_norm_rewrite_C8 2 (.var 0 3 1) (.var 0 3 1) [] [] 7 7
    (by simp [transform_expression])

/-! ## Structural induction over expression trees -/

/-- Induction over `Expr`, with the hypotheses on the children of the
list-carrying nodes phrased through membership. -/
theorem Expr.indOn {P : Expr → Prop}
    (hconst : ∀ r c d, P (.const r c d))
    (hvar : ∀ v r c, P (.var v r c))
    (hadd : ∀ args, (∀ a ∈ args, P a) → P (.add args))
    (hneg : ∀ e, P e → P (.neg e))
    (hmul : ∀ l r, P l → P r → P (.mul l r))
    (hsum : ∀ e, P e → P (.sum_entries e))
    (hhs : ∀ args, (∀ a ∈ args, P a) → P (.hstack args))
    (hvs : ∀ args, (∀ a ∈ args, P a) → P (.vstack args))
    (hresh : ∀ e r c, P e → P (.reshape e r c))
    (hidx : ∀ e rs cs, P e → P (.index e rs cs))
    (hdm : ∀ e, P e → P (.diag_mat e))
    (hdv : ∀ e, P e → P (.diag_vec e))
    (htr : ∀ e, P e → P (.transpose e))
    (habs : ∀ e, P e → P (.abs e))
    (hpn : ∀ p e, P e → P (.p_norm p e))
    (hqol : ∀ x y, P x → P y → P (.quad_over_lin x y))
    (hleq : ∀ l r, P l → P r → P (.leq l r))
    (hsoc : ∀ v w, P v → P w → P (.soc v w)) :
    ∀ e, P e := by
  have main : ∀ n, ∀ e : Expr, sizeOf e ≤ n → P e := by
    intro n
    induction n with
    | zero => intro e he; exfalso; cases e <;> simp at he
    | succ n ih =>
      intro e he
      have hmem : ∀ (args : List Expr), sizeOf (Expr.add args) ≤ n + 1 ∨
          sizeOf (Expr.hstack args) ≤ n + 1 ∨ sizeOf (Expr.vstack args) ≤ n + 1 →
          ∀ a ∈ args, P a := by
        intro args hargs a ha
        have hs := List.sizeOf_lt_of_mem ha
        apply ih
        rcases hargs with h | h | h <;> simp at h <;> omega
      match e with
      | .const r c d => exact hconst r c d
      | .var v r c => exact hvar v r c
      | .add args => exact hadd args (hmem args (Or.inl he))
      | .neg e => refine hneg e (ih e ?_); simp at he; omega
      | .mul l r =>
        refine hmul l r (ih l ?_) (ih r ?_) <;> simp at he <;> omega
      | .sum_entries e => refine hsum e (ih e ?_); simp at he; omega
      | .hstack args => exact hhs args (hmem args (Or.inr (Or.inl he)))
      | .vstack args => exact hvs args (hmem args (Or.inr (Or.inr he)))
      | .reshape e r c => refine hresh e r c (ih e ?_); simp at he; omega
      | .index e rs cs => refine hidx e rs cs (ih e ?_); simp at he; omega
      | .diag_mat e => refine hdm e (ih e ?_); simp at he; omega
      | .diag_vec e => refine hdv e (ih e ?_); simp at he; omega
      | .transpose e => refine htr e (ih e ?_); simp at he; omega
      | .abs e => refine habs e (ih e ?_); simp at he; omega
      | .p_norm p e => refine hpn p e (ih e ?_); simp at he; omega
      | .quad_over_lin x y =>
        refine hqol x y (ih x ?_) (ih y ?_) <;> simp at he <;> omega
      | .leq l r => refine hleq l r (ih l ?_) (ih r ?_) <;> simp at he <;> omega
      | .soc v w => refine hsoc v w (ih v ?_) (ih w ?_) <;> simp at he <;> omega
  exact fun e => main (sizeOf e) e le_rfl

/-! ## C9: the transformer is the identity on cone-atom-free trees -/

theorem coneAtomFreeList_mem {args : List Expr} (h : coneAtomFreeList args = true) :
    ∀ a ∈ args, coneAtomFree a = true := by
  induction args with
  | nil => intro a ha; cases ha
  | cons b rest ih =>
    rw [coneAtomFreeList, Bool.and_eq_true] at h
    intro a ha
    rcases List.mem_cons.mp ha with rfl | ha'
    · exact h.1
    · exact ih h.2 a ha'

theorem transformList_congr_id {args : List Expr}
    (h : ∀ a ∈ args, ∀ cs f, transform_expression a cs f = some (a, cs, f)) :
    ∀ cs f, transformList args cs f = some (args, cs, f) := by
  induction args with
  | nil => intro cs f; rw [transformList]
  | cons a rest ih =>
    intro cs f
    simp [transformList, h a (List.mem_cons_self a rest),
      ih (fun b hb cs' f' => h b (List.mem_cons_of_mem a hb) cs' f')]

theorem transform_id_of_coneAtomFree :
    ∀ e : Expr, coneAtomFree e = true →
      ∀ cs f, transform_expression e cs f = some (e, cs, f) := by
  intro e
  induction e using Expr.indOn with
  | hconst r c d => intro _ cs f; rw [transform_expression]
  | hvar v r c => intro _ cs f; rw [transform_expression]
  | hadd args ih =>
    intro h cs f
    have hm := coneAtomFreeList_mem (by simpa [coneAtomFree] using h)
    simp [transform_expression,
      transformList_congr_id (fun a ha => ih a ha (hm a ha))]
  | hneg e ih =>
    intro h cs f
    simp [transform_expression, ih (by simpa [coneAtomFree] using h)]
  | hmul l r ihl ihr =>
    intro h cs f
    rw [coneAtomFree, Bool.and_eq_true] at h
    simp [transform_expression, ihl h.1, ihr h.2]
  | hsum e ih =>
    intro h cs f
    simp [transform_expression, ih (by simpa [coneAtomFree] using h)]
  | hhs args ih =>
    intro h cs f
    have hm := coneAtomFreeList_mem (by simpa [coneAtomFree] using h)
    simp [transform_expression,
      transformList_congr_id (fun a ha => ih a ha (hm a ha))]
  | hvs args ih =>
    intro h cs f
    have hm := coneAtomFreeList_mem (by simpa [coneAtomFree] using h)
    simp [transform_expression,
      transformList_congr_id (fun a ha => ih a ha (hm a ha))]
  | hresh e r c ih =>
    intro h cs f
    simp [transform_expression, ih (by simpa [coneAtomFree] using h)]
  | hidx e rs cs0 ih =>
    intro h cs f
    simp [transform_expression, ih (by simpa [coneAtomFree] using h)]
  | hdm e ih =>
    intro h cs f
    simp [transform_expression, ih (by simpa [coneAtomFree] using h)]
  | hdv e ih =>
    intro h cs f
    simp [transform_expression, ih (by simpa [coneAtomFree] using h)]
  | htr e ih =>
    intro h cs f
    simp [transform_expression, ih (by simpa [coneAtomFree] using h)]
  | habs e ih => intro h; simp [coneAtomFree] at h
  | hpn p e ih => intro h; simp [coneAtomFree] at h
  | hqol x y ihx ihy => intro h; simp [coneAtomFree] at h
  | hleq l r ihl ihr =>
    intro h cs f
    rw [coneAtomFree, Bool.and_eq_true] at h
    simp [transform_expression, ihl h.1, ihr h.2]
  | hsoc v w ihv ihw =>
    intro h cs f
    rw [coneAtomFree, Bool.and_eq_true] at h
    simp [transform_expression, ihv h.1, ihw h.2]

/-- **C9.** If `e` contains no `ABS`, `P_NORM` or `QUAD_OVER_LIN` node
anywhere in its tree, `transform_expression(e, [])` returns an expression
structurally equal to `e` and leaves the constraint list empty (and the
fresh-variable counter untouched). -/
theorem cone_transform_identity_C9 (e : Expr) (h : coneAtomFree e = true)
    (fresh : Nat) :
    transform_expression e [] fresh = some (e, [], fresh) :=
  transform_id_of_coneAtomFree e h [] fresh

/-- Witness for `cone_transform_identity_C9` on an affine tree using
several atoms. -/
theorem cone_transform_identity_C9_witness :
    transform_expression
      (.transpose (.add [.mul (.const 1 2 [[1, 2]]) (.var 0 2 1), .neg (.var 1 1 1)]))
      [] 5 =
      some (.transpose (.add [.mul (.const 1 2 [[1, 2]]) (.var 0 2 1), .neg (.var 1 1 1)]),
        [], 5) :=
  cone_transform_identity_C9
    (.transpose (.add [.mul (.const 1 2 [[1, 2]]) (.var 0 2 1), .neg (.var 1 1 1)]))
    (by decide) 5

/-! ## C10: the constraint accumulator is append-only, and the output
layout of `LinearConeTransform::transform` -/

theorem transformList_shift {args : List Expr}
    (h : ∀ a ∈ args, ∀ (cs₀ cs : List Expr) (f : Nat),
      transform_expression a (cs₀ ++ cs) f =
        (transform_expression a cs f).map (fun r => (r.1, cs₀ ++ r.2.1, r.2.2))) :
    ∀ (cs₀ cs : List Expr) (f : Nat),
      transformList args (cs₀ ++ cs) f =
        (transformList args cs f).map (fun r => (r.1, cs₀ ++ r.2.1, r.2.2)) := by
  induction args with
  | nil => intro cs₀ cs f; simp [transformList]
  | cons a rest ih =>
    intro cs₀ cs f
    simp only [transformList]
    rw [h a (List.mem_cons_self a rest)]
    cases hx : transform_expression a cs f with
    | none => rfl
    | some r =>
      rcases r with ⟨a', cs1, f1⟩
      simp only [Option.bind_eq_bind, Option.some_bind, Option.map_some']
      rw [ih (fun b hb => h b (List.mem_cons_of_mem a hb))]
      cases transformList rest cs1 f1 with
      | none => rfl
      | some r2 => rcases r2 with ⟨rest', cs2, f2⟩; rfl

theorem transform_shift :
    ∀ (e : Expr) (cs₀ cs : List Expr) (f : Nat),
      transform_expression e (cs₀ ++ cs) f =
        (transform_expression e cs f).map (fun r => (r.1, cs₀ ++ r.2.1, r.2.2)) := by
  intro e
  induction e using Expr.indOn with
  | hconst r c d => intro cs₀ cs f; simp [transform_expression]
  | hvar v r c => intro cs₀ cs f; simp [transform_expression]
  | hadd args ih =>
    intro cs₀ cs f
    simp only [transform_expression]
    rw [transformList_shift ih]
    cases transformList args cs f with
    | none => rfl
    | some r => rcases r with ⟨args', cs1, f1⟩; rfl
  | hneg e ih =>
    intro cs₀ cs f
    simp only [transform_expression]
    rw [ih]
    cases transform_expression e cs f with
    | none => rfl
    | some r => rcases r with ⟨e', cs1, f1⟩; rfl
  | hmul l r ihl ihr =>
    intro cs₀ cs f
    simp only [transform_expression]
    rw [ihl]
    cases transform_expression l cs f with
    | none => rfl
    | some rl =>
      rcases rl with ⟨l', cs1, f1⟩
      simp only [Option.bind_eq_bind, Option.some_bind, Option.map_some']
      rw [ihr]
      cases transform_expression r cs1 f1 with
      | none => rfl
      | some rr => rcases rr with ⟨r', cs2, f2⟩; rfl
  | hsum e ih =>
    intro cs₀ cs f
    simp only [transform_expression]
    rw [ih]
    cases transform_expression e cs f with
    | none => rfl
    | some r => rcases r with ⟨e', cs1, f1⟩; rfl
  | hhs args ih =>
    intro cs₀ cs f
    simp only [transform_expression]
    rw [transformList_shift ih]
    cases transformList args cs f with
    | none => rfl
    | some r => rcases r with ⟨args', cs1, f1⟩; rfl
  | hvs args ih =>
    intro cs₀ cs f
    simp only [transform_expression]
    rw [transformList_shift ih]
    cases transformList args cs f with
    | none => rfl
    | some r => rcases r with ⟨args', cs1, f1⟩; rfl
  | hresh e r c ih =>
    intro cs₀ cs f
    simp only [transform_expression]
    rw [ih]
    cases transform_expression e cs f with
    | none => rfl
    | some r0 => rcases r0 with ⟨e', cs1, f1⟩; rfl
  | hidx e rs0 cs0 ih =>
    intro cs₀ cs f
    simp only [transform_expression]
    rw [ih]
    cases transform_expression e cs f with
    | none => rfl
    | some r0 => rcases r0 with ⟨e', cs1, f1⟩; rfl
  | hdm e ih =>
    intro cs₀ cs f
    simp only [transform_expression]
    rw [ih]
    cases transform_expression e cs f with
    | none => rfl
    | some r0 => rcases r0 with ⟨e', cs1, f1⟩; rfl
  | hdv e ih =>
    intro cs₀ cs f
    simp only [transform_expression]
    rw [ih]
    cases transform_expression e cs f with
    | none => rfl
    | some r0 => rcases r0 with ⟨e', cs1, f1⟩; rfl
  | htr e ih =>
    intro cs₀ cs f
    simp only [transform_expression]
    rw [ih]
    cases transform_expression e cs f with
    | none => rfl
    | some r0 => rcases r0 with ⟨e', cs1, f1⟩; rfl
  | habs e ih =>
    intro cs₀ cs f
    simp only [transform_expression]
    rw [ih]
    cases transform_expression e cs f with
    | none => rfl
    | some r0 =>
      rcases r0 with ⟨e', cs1, f1⟩
      simp [transform_abs]
  | hpn p e ih =>
    intro cs₀ cs f
    simp only [transform_expression]
    rw [ih]
    cases transform_expression e cs f with
    | none => rfl
    | some r0 =>
      rcases r0 with ⟨e', cs1, f1⟩
      by_cases hp : p = 1 <;> simp [transform_p_norm, hp, transform_abs]
  | hqol x y ihx ihy =>
    intro cs₀ cs f
    simp only [transform_expression]
    rw [ihx]
    cases transform_expression x cs f with
    | none => rfl
    | some rx =>
      rcases rx with ⟨x', cs1, f1⟩
      simp only [Option.bind_eq_bind, Option.some_bind, Option.map_some']
      rw [ihy]
      cases transform_expression y cs1 f1 with
      | none => rfl
      | some ry =>
        rcases ry with ⟨y', cs2, f2⟩
        simp [transform_quad_over_lin]
  | hleq l r ihl ihr =>
    intro cs₀ cs f
    simp only [transform_expression]
    rw [ihl]
    cases transform_expression l cs f with
    | none => rfl
    | some rl =>
      rcases rl with ⟨l', cs1, f1⟩
      simp only [Option.bind_eq_bind, Option.some_bind, Option.map_some']
      rw [ihr]
      cases transform_expression r cs1 f1 with
      | none => rfl
      | some rr => rcases rr with ⟨r', cs2, f2⟩; rfl
  | hsoc v w ihv ihw =>
    intro cs₀ cs f
    simp only [transform_expression]
    rw [ihv]
    cases transform_expression v cs f with
    | none => rfl
    | some rv =>
      rcases rv with ⟨v', cs1, f1⟩
      simp only [Option.bind_eq_bind, Option.some_bind, Option.map_some']
      rw [ihw]
      cases transform_expression w cs1 f1 with
      | none => rfl
      | some rw0 => rcases rw0 with ⟨w', cs2, f2⟩; rfl

theorem transform_delta (e : Expr) (cs : List Expr) (f : Nat) :
    transform_expression e cs f =
      (transform_expression e [] f).map (fun r => (r.1, cs ++ r.2.1, r.2.2)) := by
  have h := transform_shift e cs [] f
  simpa using h

theorem transformConstrLoop_layout :
    ∀ (cl cs : List Expr) (f : Nat) (out : List Expr) (f2 : Nat),
      transformConstrLoop cl cs f = some (out, f2) →
      ∃ tail, constraintLayout cl f = some (tail, f2) ∧ out = cs ++ tail := by
  intro cl
  induction cl with
  | nil =>
    intro cs f out f2 h
    simp only [transformConstrLoop, Option.some.injEq, Prod.mk.injEq] at h
    exact ⟨[], by simp [constraintLayout, h.2], by simp [h.1.symm]⟩
  | cons c rest ih =>
    intro cs f out f2 h
    simp only [transformConstrLoop] at h
    cases hx : transform_expression c cs f with
    | none => rw [hx] at h; cases h
    | some r =>
      rcases r with ⟨c', cs1, f1⟩
      rw [hx] at h
      simp only [Option.bind_eq_bind, Option.some_bind] at h
      obtain ⟨tail', hl, hout⟩ := ih (cs1 ++ [c']) f1 out f2 h
      have hd := transform_delta c cs f
      rw [hx] at hd
      cases hz : transform_expression c [] f with
      | none => rw [hz] at hd; cases hd
      | some r0 =>
        rcases r0 with ⟨c0, d, f0⟩
        rw [hz] at hd
        simp only [Option.map_some', Option.some.injEq, Prod.mk.injEq] at hd
        obtain ⟨rfl, rfl, rfl⟩ := hd
        refine ⟨d ++ [c'] ++ tail', ?_, ?_⟩
        · simp [constraintLayout, hz, hl]
        · rw [hout]; simp [List.append_assoc]

/-- **C10.** `transform_expression` only ever appends to the caller's
constraint accumulator: the output accumulator is the input followed by a
suffix that does not depend on the input (the run on the empty
accumulator produces exactly that suffix).  Consequently
`LinearConeTransform::transform` produces its constraint list as: the
auxiliary constraints of the objective, then, for each original
constraint in input order, the auxiliary constraints emitted while
transforming it immediately followed by the transformed constraint
itself (`constraintLayout`). -/
theorem transform_frame_C10 :
    (∀ (e : Expr) (cs : List Expr) (f : Nat) (r : Expr) (cs' : List Expr) (f' : Nat),
      transform_expression e cs f = some (r, cs', f') →
      ∃ d, cs' = cs ++ d ∧ transform_expression e [] f = some (r, d, f')) ∧
    (∀ (p : Problem) (f : Nat) (q : Problem) (fout : Nat),
      LinearConeTransform_transform p f = some (q, fout) →
      ∃ obj' dObj f1 tail,
        transform_expression p.objective [] f = some (obj', dObj, f1) ∧
        constraintLayout p.constraints f1 = some (tail, fout) ∧
        q.sense = p.sense ∧ q.objective = obj' ∧ q.constraints = dObj ++ tail) := by
  constructor
  · intro e cs f r cs' f' h
    have hd := transform_delta e cs f
    rw [h] at hd
    cases hz : transform_expression e [] f with
    | none => rw [hz] at hd; cases hd
    | some r0 =>
      rcases r0 with ⟨r1, d, f1⟩
      rw [hz] at hd
      simp only [Option.map_some', Option.some.injEq, Prod.mk.injEq] at hd
      obtain ⟨rfl, rfl, rfl⟩ := hd
      exact ⟨d, rfl, rfl⟩
  · intro p f q fout h
    simp only [LinearConeTransform_transform] at h
    cases hobj : transform_expression p.objective [] f with
    | none => rw [hobj] at h; cases h
    | some r0 =>
      rcases r0 with ⟨obj', dObj, f1⟩
      rw [hobj] at h
      simp only [Option.bind_eq_bind, Option.some_bind] at h
      cases hloop : transformConstrLoop p.constraints dObj f1 with
      | none => rw [hloop] at h; cases h
      | some r1 =>
        rcases r1 with ⟨csFinal, f2⟩
        rw [hloop] at h
        simp only [Option.some_bind, Option.some.injEq, Prod.mk.injEq] at h
        obtain ⟨rfl, rfl⟩ := h
        obtain ⟨tail, hl, hout⟩ := transformConstrLoop_layout p.constraints dObj f1 csFinal f2 hloop
        exact ⟨obj', dObj, f1, tail, rfl, hl, rfl, rfl, hout⟩

/-- Witness for `transform_frame_C10`: the append-only part at an `ABS`
node run on a nonempty accumulator, and the layout part on a problem with
objective `VAR 0` and the single constraint `ABS(VAR 0) ≤ VAR 1`. -/
theorem transform_frame_C10_witness :
    (∃ d, ([Expr.leq (.var 1 1 1) (.var 1 1 1),
        .leq (.var 0 1 1) (.var 2 1 1), .leq (.neg (.var 0 1 1)) (.var 2 1 1)] : List Expr) =
        [Expr.leq (.var 1 1 1) (.var 1 1 1)] ++ d ∧
      transform_expression (.abs (.var 0 1 1)) [] 2 = some (.var 2 1 1, d, 3)) ∧
    (∃ obj' dObj f1 tail,
      transform_expression (Problem.mk .minimize (.var 0 1 1)
          [.leq (.abs (.var 0 1 1)) (.var 1 1 1)]).objective [] 7 = some (obj', dObj, f1) ∧
      constraintLayout (Problem.mk .minimize (.var 0 1 1)
          [.leq (.abs (.var 0 1 1)) (.var 1 1 1)]).constraints f1 = some (tail, 8) ∧
      (Problem.mk Sense.minimize (.var 0 1 1)
          [.leq (.var 0 1 1) (.var 7 1 1), .leq (.neg (.var 0 1 1)) (.var 7 1 1),
           .leq (.var 7 1 1) (.var 1 1 1)]).sense =
        (Problem.mk Sense.minimize (.var 0 1 1)
          [.leq (.abs (.var 0 1 1)) (.var 1 1 1)]).sense ∧
      (Problem.mk Sense.minimize (.var 0 1 1)
          [.leq (.var 0 1 1) (.var 7 1 1), .leq (.neg (.var 0 1 1)) (.var 7 1 1),
           .leq (.var 7 1 1) (.var 1 1 1)]).objective = obj' ∧
      (Problem.mk Sense.minimize (.var 0 1 1)
          [.leq (.var 0 1 1) (.var 7 1 1), .leq (.neg (.var 0 1 1)) (.var 7 1 1),
           .leq (.var 7 1 1) (.var 1 1 1)]).constraints = dObj ++ tail) :=
  ⟨transform_frame_C10.1 (.abs (.var 0 1 1)) [.leq (.var 1 1 1) (.var 1 1 1)] 2
      (.var 2 1 1)
      [Expr.leq (.var 1 1 1) (.var 1 1 1),
        .leq (.var 0 1 1) (.var 2 1 1), .leq (.neg (.var 0 1 1)) (.var 2 1 1)] 3
      (by rfl),
   transform_frame_C10.2
      (Problem.mk .minimize (.var 0 1 1) [.leq (.abs (.var 0 1 1)) (.var 1 1 1)]) 7
      (Problem.mk Sense.minimize (.var 0 1 1)
          [.leq (.var 0 1 1) (.var 7 1 1), .leq (.neg (.var 0 1 1)) (.var 7 1 1),
           .leq (.var 7 1 1) (.var 1 1 1)]) 8
      (by rfl)⟩

/-! ## C2: the TRANSPOSE coefficient matrix -/

theorem entry_eq_applyVec (m : SparseMatrix) (i j : Nat) :
    m.entry i j = m.applyVec (fun k => if k = j then 1 else 0) i := by
  simp only [SparseMatrix.entry, SparseMatrix.applyVec]
  apply lsum_congr
  intro t _
  by_cases h1 : t.1 = i <;> by_cases h2 : t.2.1 = j <;> simp [h1, h2]

/-- The action of the triplet family of `get_transpose_coefficients`
(`(R·j + i, i·C + j, 1)` over `i < R`, `j < C`) as a linear map: it reads
input position `(ρ % R)·C + ρ / R` at output position `ρ`. -/
theorem applyVec_transpose_triplets (R C : Nat) (x : Nat → ℚ) (ρ : Nat)
    (hρ : ρ < R * C) :
    SparseMatrix.applyVec
      ⟨R * C, R * C,
        (List.range R).flatMap (fun i =>
          (List.range C).map (fun j => (R * j + i, i * C + j, (1 : ℚ))))⟩
      x ρ = x ((ρ % R) * C + ρ / R) := by
  rcases Nat.eq_zero_or_pos R with hR | hR
  · subst hR; simp at hρ
  have hmod : ρ % R < R := Nat.mod_lt ρ hR
  have hdiv : ρ / R < C := Nat.div_lt_of_lt_mul hρ
  have hdm : R * (ρ / R) + ρ % R = ρ := Nat.div_add_mod ρ R
  simp only [SparseMatrix.applyVec, lsum_flatMap, List.map_map]
  have inner : ∀ i ∈ List.range R,
      ((List.range C).map ((fun t : Triplet => if t.1 = ρ then t.2.2 * x t.2.1 else 0) ∘
        (fun j => (R * j + i, i * C + j, (1 : ℚ))))).sum =
      (if i = ρ % R then (1 : ℚ) * x (i * C + ρ / R) else 0) := by
    intro i hi
    have hiR : i < R := List.mem_range.mp hi
    by_cases hiρ : i = ρ % R
    · subst hiρ
      rw [if_pos rfl]
      have hcongr : ∀ j ∈ List.range C,
          ((fun t : Triplet => if t.1 = ρ then t.2.2 * x t.2.1 else 0) ∘
            (fun j => (R * j + ρ % R, (ρ % R) * C + j, (1 : ℚ)))) j =
          (fun j => if j = ρ / R then (1 : ℚ) * x ((ρ % R) * C + j) else 0) j := by
        intro j _
        simp only [Function.comp_apply]
        by_cases hj : j = ρ / R
        · subst hj
          rw [if_pos (by omega), if_pos rfl]
        · rw [if_neg (fun hcon => hj (Nat.eq_of_mul_eq_mul_left hR (by omega))), if_neg hj]
      rw [lsum_congr _ _ _ hcongr,
        lsum_range_ite C (ρ / R) (fun j => (1 : ℚ) * x ((ρ % R) * C + j)), if_pos hdiv]
    · rw [if_neg hiρ]
      refine (lsum_congr _ (fun _ => (0 : ℚ)) _ ?_).trans (lsum_map_zero _)
      intro j _
      simp only [Function.comp_apply]
      have hne : ¬ (R * j + i = ρ) := by
        intro hcon
        have hmods : ρ % R = i := by
          rw [← hcon, Nat.add_comm, Nat.add_mul_mod_self_left, Nat.mod_eq_of_lt hiR]
        exact hiρ hmods.symm
      rw [if_neg hne]
  rw [lsum_congr _ (fun i => if i = ρ % R then (1 : ℚ) * x (i * C + ρ / R) else 0) _ inner,
    lsum_range_ite R (ρ % R) (fun i => (1 : ℚ) * x (i * C + ρ / R)), if_pos hmod, one_mul]

/-- Counterexample to **C2** as stated.  For a `TRANSPOSE` node whose
argument has shape `(r, c) = (2, 3)`, the claim places a nonzero entry at
`(r·j + i, i·c + j)`; at `(i, j) = (1, 0)` that is position `(1, 3)`, and
by its "no other entries" part the claim puts nothing at `(1, 2)`.  The
matrix the code builds has entry `0` at `(1, 3)` and entry `1` at
`(1, 2)` (the code indexes with the shape of the result, not of the
argument: entries sit at `(c·j + i, i·r + j)` transposed to the claim's
formula). -/
theorem transpose_coefficients_C2_counterexample :
    (get_transpose_coefficients (.transpose (.var 0 2 3))).entry 1 3 = 0 ∧
    (get_transpose_coefficients (.transpose (.var 0 2 3))).entry 1 2 = 1 := by
  constructor <;>
    · simp only [get_transpose_coefficients, esize, SparseMatrix.entry,
        show (3 : Nat) = 2 + 1 from rfl, show (2 : Nat) = 1 + 1 from rfl,
        List.range_succ, List.range_zero]
      norm_num

/-- **C2 (amended).**  For a `TRANSPOSE` node whose argument has shape
`(r, c)` (result shape `(c, r)`), the coefficient matrix is `rc × rc`,
has exactly one nonzero entry per pair `(i, j) ∈ [0,r) × [0,c)`, located
at row `i·c + j` and column `j·r + i` with value `1` (the transpose of
the rows/columns the claim as stated gives), and no other entries;
applied to the column-major flattening of any `(r, c)` matrix it yields
the flattening of the transposed matrix. -/
theorem transpose_coefficients_C2 (a : Expr) (r c : Nat)
    (hs : esize a = (r, c)) :
    (get_transpose_coefficients (.transpose a)).rows = r * c ∧
    (get_transpose_coefficients (.transpose a)).cols = r * c ∧
    (∀ i j, i < r → j < c →
      (get_transpose_coefficients (.transpose a)).entry (i * c + j) (j * r + i) = 1) ∧
    (∀ ρ γ, ρ < r * c →
      (get_transpose_coefficients (.transpose a)).entry ρ γ ≠ 0 →
      ∃ i j, i < r ∧ j < c ∧ ρ = i * c + j ∧ γ = j * r + i ∧
        (get_transpose_coefficients (.transpose a)).entry ρ γ = 1) ∧
    (∀ (M : Nat → Nat → ℚ) (ρ : Nat), ρ < r * c →
      (get_transpose_coefficients (.transpose a)).applyVec
        (fun k => M (k % r) (k / r)) ρ = M (ρ / c) (ρ % c)) := by
  have hnode : esize (Expr.transpose a) = (c, r) := by rw [esize, hs]
  have hform : get_transpose_coefficients (.transpose a) =
      ⟨c * r, c * r,
        (List.range c).flatMap (fun i =>
          (List.range r).map (fun j => (c * j + i, i * r + j, (1 : ℚ))))⟩ := by
    simp [get_transpose_coefficients, hnode]
  have hA : ∀ (x : Nat → ℚ) (ρ : Nat), ρ < c * r →
      (get_transpose_coefficients (.transpose a)).applyVec x ρ =
        x ((ρ % c) * r + ρ / c) := by
    intro x ρ hρ
    rw [hform]
    exact applyVec_transpose_triplets c r x ρ hρ
  have hE : ∀ ρ γ, ρ < c * r →
      (get_transpose_coefficients (.transpose a)).entry ρ γ =
        if (ρ % c) * r + ρ / c = γ then 1 else 0 := by
    intro ρ γ hρ
    rw [entry_eq_applyVec, hA _ ρ hρ]
  refine ⟨by rw [hform]; exact Nat.mul_comm c r, by rw [hform]; exact Nat.mul_comm c r,
    ?_, ?_, ?_⟩
  · intro i j hi hj
    have hc : 0 < c := Nat.pos_of_ne_zero (by omega)
    have hρlt : i * c + j < c * r := by
      calc i * c + j < i * c + c := by omega
        _ = (i + 1) * c := by ring
        _ ≤ r * c := Nat.mul_le_mul_right c hi
        _ = c * r := Nat.mul_comm r c
    have hmod : (i * c + j) % c = j := by
      rw [Nat.mul_comm i c, Nat.mul_add_mod, Nat.mod_eq_of_lt hj]
    have hdiv : (i * c + j) / c = i := by
      rw [Nat.add_comm, Nat.add_mul_div_right j i hc, Nat.div_eq_of_lt hj, Nat.zero_add]
    rw [hE _ _ hρlt, hmod, hdiv, if_pos rfl]
  · intro ρ γ hρ hne
    have hρ' : ρ < c * r := by rw [Nat.mul_comm] at hρ; exact hρ
    have hc : 0 < c := by
      rcases Nat.eq_zero_or_pos c with h0 | h0
      · subst h0; simp at hρ'
      · exact h0
    have hi : ρ / c < r := Nat.div_lt_of_lt_mul hρ'
    have hj : ρ % c < c := Nat.mod_lt ρ hc
    rw [hE _ _ hρ'] at hne ⊢
    by_cases hγ : (ρ % c) * r + ρ / c = γ
    · refine ⟨ρ / c, ρ % c, hi, hj, ?_, by omega, by rw [if_pos hγ]⟩
      rw [Nat.mul_comm (ρ / c) c]
      have := Nat.div_add_mod ρ c
      omega
    · rw [if_neg hγ] at hne
      exact absurd rfl hne
  · intro M ρ hρ
    have hρ' : ρ < c * r := by rw [Nat.mul_comm] at hρ; exact hρ
    have hc : 0 < c := by
      rcases Nat.eq_zero_or_pos c with h0 | h0
      · subst h0; simp at hρ'
      · exact h0
    have hq : ρ / c < r := Nat.div_lt_of_lt_mul hρ'
    have hr : 0 < r := Nat.pos_of_ne_zero (fun h0 => by subst h0; simp at hρ)
    rw [hA _ ρ hρ']
    congr 1
    · rw [Nat.mul_comm (ρ % c) r, Nat.mul_add_mod, Nat.mod_eq_of_lt hq]
    · rw [Nat.add_comm, Nat.add_mul_div_right _ _ hr, Nat.div_eq_of_lt hq, Nat.zero_add]

/-- Witness for `transpose_coefficients_C2` at argument shape `(2, 3)`:
the entry of the pair `(i, j) = (1, 0)` sits at `(1·3 + 0, 0·2 + 1) =
(3, 1)`. -/
theorem transpose_coefficients_C2_witness :
    (get_transpose_coefficients (.transpose (.var 0 2 3))).entry (1 * 3 + 0) (0 * 2 + 1) = 1 :=
  (transpose_coefficients_C2 (.var 0 2 3) 2 3 rfl).2.2.1 1 0 (by omega) (by omega)

/-! ## C3: the multiplication broadcasting operators -/

theorem decomp_mod (q R t : Nat) (ht : t < R) : (q * R + t) % R = t := by
  rw [Nat.add_comm, Nat.mul_comm, Nat.add_mul_mod_self_left, Nat.mod_eq_of_lt ht]

theorem decomp_div (q R t : Nat) (ht : t < R) : (q * R + t) / R = q := by
  have hR : 0 < R := by omega
  rw [Nat.add_comm, Nat.add_mul_div_right t q hR, Nat.div_eq_of_lt ht, Nat.zero_add]

/-- The entries of the block-diagonal triplet family of
`get_left_mul_coefficients`: inside bounds, entry `(a, b)` is the block
entry `B[a % rows, b % cols]` when `a` and `b` fall in the same block,
and `0` otherwise. -/
theorem entry_left_mul_triplets (n : Nat) (B : SparseMatrix) (hB : B.InBounds)
    (a b : Nat) (ha : a < n * B.rows) (hb : b < n * B.cols) :
    SparseMatrix.entry
      ⟨n * B.rows, n * B.cols,
        (List.range n).flatMap (fun curr_block =>
          B.triplets.map (fun t =>
            (curr_block * B.rows + t.1, curr_block * B.cols + t.2.1, t.2.2)))⟩ a b =
      if a / B.rows = b / B.cols then B.entry (a % B.rows) (b % B.cols) else 0 := by
  have hR : 0 < B.rows := by
    rcases Nat.eq_zero_or_pos B.rows with h0 | h0
    · rw [h0, Nat.mul_zero] at ha; omega
    · exact h0
  have hC : 0 < B.cols := by
    rcases Nat.eq_zero_or_pos B.cols with h0 | h0
    · rw [h0, Nat.mul_zero] at hb; omega
    · exact h0
  have haR : a / B.rows < n := Nat.div_lt_of_lt_mul (by rw [Nat.mul_comm]; exact ha)
  simp only [SparseMatrix.entry, lsum_flatMap, List.map_map]
  have inner : ∀ cb ∈ List.range n,
      (B.triplets.map ((fun t : Triplet => if t.1 = a ∧ t.2.1 = b then t.2.2 else 0) ∘
        (fun t => (cb * B.rows + t.1, cb * B.cols + t.2.1, t.2.2)))).sum =
      (if cb = a / B.rows ∧ cb = b / B.cols then
        B.entry (a % B.rows) (b % B.cols) else 0) := by
    intro cb _
    by_cases hq : cb = a / B.rows ∧ cb = b / B.cols
    · rw [if_pos hq]
      obtain ⟨hq1, hq2⟩ := hq
      simp only [SparseMatrix.entry]
      apply lsum_congr
      intro t ht
      obtain ⟨htr, htc⟩ := hB t ht
      simp only [Function.comp_apply]
      by_cases hcond : t.1 = a % B.rows ∧ t.2.1 = b % B.cols
      · rw [if_pos ?_, if_pos hcond]
        obtain ⟨hc1, hc2⟩ := hcond
        constructor
        · rw [hq1, hc1]
          exact Nat.div_add_mod' a B.rows
        · rw [hq2, hc2]
          exact Nat.div_add_mod' b B.cols
      · rw [if_neg ?_, if_neg hcond]
        rintro ⟨hx1, hx2⟩
        refine hcond ⟨?_, ?_⟩
        · rw [← hx1, decomp_mod cb B.rows t.1 htr]
        · rw [← hx2, decomp_mod cb B.cols t.2.1 htc]
    · rw [if_neg hq]
      refine (lsum_congr _ (fun _ => (0 : ℚ)) _ ?_).trans (lsum_map_zero _)
      intro t ht
      obtain ⟨htr, htc⟩ := hB t ht
      simp only [Function.comp_apply]
      rw [if_neg ?_]
      rintro ⟨hx1, hx2⟩
      refine hq ⟨?_, ?_⟩
      · rw [← hx1, decomp_div cb B.rows t.1 htr]
      · rw [← hx2, decomp_div cb B.cols t.2.1 htc]
  rw [lsum_congr _ (fun cb => if cb = a / B.rows ∧ cb = b / B.cols then
    B.entry (a % B.rows) (b % B.cols) else 0) _ inner]
  by_cases hd : a / B.rows = b / B.cols
  · rw [if_pos hd]
    have hcongr : ∀ cb ∈ List.range n,
        (fun cb => if cb = a / B.rows ∧ cb = b / B.cols then
          B.entry (a % B.rows) (b % B.cols) else 0) cb =
        (fun cb => if cb = a / B.rows then
          B.entry (a % B.rows) (b % B.cols) else 0) cb := by
      intro cb _
      simp only []
      by_cases hcb : cb = a / B.rows
      · rw [if_pos ⟨hcb, hd ▸ hcb⟩, if_pos hcb]
      · rw [if_neg (fun hx => hcb hx.1), if_neg hcb]
    rw [lsum_congr _ _ _ hcongr,
      lsum_range_ite n (a / B.rows) (fun _ => B.entry (a % B.rows) (b % B.cols)),
      if_pos haR]
    rfl
  · rw [if_neg hd]
    refine (lsum_congr _ (fun _ => (0 : ℚ)) _ ?_).trans (lsum_map_zero _)
    intro cb _
    rw [if_neg ?_]
    rintro ⟨hx1, hx2⟩
    exact hd (hx1 ▸ hx2)

/-- The entries of the triplet family of `get_right_mul_coefficients`:
inside bounds, entry `(a, b)` is `B[b / n, a / n]` when `a` and `b` agree
modulo `n`, and `0` otherwise. -/
theorem entry_right_mul_triplets (n : Nat) (B : SparseMatrix)
    (a b : Nat) (ha : a < B.cols * n) (hb : b < B.rows * n) :
    SparseMatrix.entry
      ⟨B.cols * n, B.rows * n,
        B.triplets.flatMap (fun t =>
          (List.range n).map (fun i => (t.2.1 * n + i, t.1 * n + i, t.2.2)))⟩ a b =
      if a % n = b % n then B.entry (b / n) (a / n) else 0 := by
  have hn : 0 < n := by
    rcases Nat.eq_zero_or_pos n with h0 | h0
    · rw [h0, Nat.mul_zero] at ha; omega
    · exact h0
  have hamod : a % n < n := Nat.mod_lt a hn
  simp only [SparseMatrix.entry, lsum_flatMap, List.map_map]
  have inner : ∀ t ∈ B.triplets,
      ((List.range n).map ((fun s : Triplet => if s.1 = a ∧ s.2.1 = b then s.2.2 else 0) ∘
        (fun i => (t.2.1 * n + i, t.1 * n + i, t.2.2)))).sum =
      (if t.1 = b / n ∧ t.2.1 = a / n ∧ a % n = b % n then t.2.2 else 0) := by
    intro t _
    by_cases hcond : t.1 = b / n ∧ t.2.1 = a / n ∧ a % n = b % n
    · rw [if_pos hcond]
      obtain ⟨hc1, hc2, hc3⟩ := hcond
      have hcongr : ∀ i ∈ List.range n,
          ((fun s : Triplet => if s.1 = a ∧ s.2.1 = b then s.2.2 else 0) ∘
            (fun i => (t.2.1 * n + i, t.1 * n + i, t.2.2))) i =
          (fun i => if i = a % n then t.2.2 else 0) i := by
        intro i hi
        have hin : i < n := List.mem_range.mp hi
        simp only [Function.comp_apply]
        by_cases hik : i = a % n
        · rw [if_pos ?_, if_pos hik]
          subst hik
          constructor
          · rw [hc2]
            exact Nat.div_add_mod' a n
          · rw [hc1, hc3]
            exact Nat.div_add_mod' b n
        · rw [if_neg ?_, if_neg hik]
          rintro ⟨hx1, _⟩
          exact hik (by rw [← hx1, decomp_mod t.2.1 n i hin])
      rw [lsum_congr _ _ _ hcongr, lsum_range_ite n (a % n) (fun _ => t.2.2),
        if_pos hamod]
    · rw [if_neg hcond]
      refine (lsum_congr _ (fun _ => (0 : ℚ)) _ ?_).trans (lsum_map_zero _)
      intro i hi
      have hin : i < n := List.mem_range.mp hi
      simp only [Function.comp_apply]
      rw [if_neg ?_]
      rintro ⟨hx1, hx2⟩
      refine hcond ⟨?_, ?_, ?_⟩
      · rw [← hx2, decomp_div t.1 n i hin]
      · rw [← hx1, decomp_div t.2.1 n i hin]
      · rw [← hx1, ← hx2, decomp_mod t.2.1 n i hin, decomp_mod t.1 n i hin]
  rw [lsum_congr _ (fun t : Triplet => if t.1 = b / n ∧ t.2.1 = a / n ∧ a % n = b % n
    then t.2.2 else 0) _ inner]
  by_cases hmods : a % n = b % n
  · rw [if_pos hmods]
    apply lsum_congr
    intro t _
    by_cases hc : t.1 = b / n ∧ t.2.1 = a / n
    · rw [if_pos ⟨hc.1, hc.2, hmods⟩, if_pos hc]
    · rw [if_neg (fun hx => hc ⟨hx.1, hx.2.1⟩), if_neg hc]
  · rw [if_neg hmods]
    refine ((lsum_congr _ (fun _ => (0 : ℚ)) _ ?_).trans (lsum_map_zero _)).symm.symm
    intro t _
    rw [if_neg (fun hx => hmods hx.2.2)]

/-- **C3.** The multiplication-broadcasting operators.  Left: with
`n = size(expr).dims[1]` result columns and a constant `B` of shape
`(r, c)`, `get_left_mul_coefficients` is the block-diagonal matrix with
`n` identical blocks of `B`, of shape `(n·r, n·c)`.  Right: with
`m = size(expr).dims[0]` rows on the unknown side, every nonzero
`B[i, j]` of the constant contributes the scaled identity `B[i,j]·I_m` at
output rows `[j·m, j·m + m)` and input columns `[i·m, i·m + m)`, total
shape `(c·m, r·m)`; both stated as an entry-level characterization. -/
theorem mul_broadcast_C3 (expr : Expr) (B : SparseMatrix) (hB : B.InBounds) :
    ((get_left_mul_coefficients expr B).rows = (esize expr).2 * B.rows ∧
     (get_left_mul_coefficients expr B).cols = (esize expr).2 * B.cols ∧
     (∀ a b, a < (esize expr).2 * B.rows → b < (esize expr).2 * B.cols →
       (get_left_mul_coefficients expr B).entry a b =
         if a / B.rows = b / B.cols then B.entry (a % B.rows) (b % B.cols) else 0)) ∧
    ((get_right_mul_coefficients expr B).rows = B.cols * (esize expr).1 ∧
     (get_right_mul_coefficients expr B).cols = B.rows * (esize expr).1 ∧
     (∀ a b, a < B.cols * (esize expr).1 → b < B.rows * (esize expr).1 →
       (get_right_mul_coefficients expr B).entry a b =
         if a % (esize expr).1 = b % (esize expr).1 then
           B.entry (b / (esize expr).1) (a / (esize expr).1) else 0)) := by
  refine ⟨⟨rfl, rfl, ?_⟩, ⟨rfl, rfl, ?_⟩⟩
  · intro a b ha hb
    exact entry_left_mul_triplets ((esize expr).2) B hB a b ha hb
  · intro a b ha hb
    exact entry_right_mul_triplets ((esize expr).1) B a b ha hb

/-- Witness for `mul_broadcast_C3`: `expr` of shape `(2, 2)` and the
column constant `B = [3; 5]` — the left operator's entry `(2, 1)` lies in
block `1` at block position `(0, 0)`, the right operator's entry `(1, 2)`
pairs output row `1` with input column `2` (`i = 1`, `k = 1`,
`B[1,0] = 5`). -/
theorem mul_broadcast_C3_witness :
    (get_left_mul_coefficients (.var 0 2 2) ⟨2, 1, [(0, 0, 3), (1, 0, 5)]⟩).entry 2 1 =
      (if 2 / 2 = 1 / 1 then
        SparseMatrix.entry ⟨2, 1, [(0, 0, 3), (1, 0, 5)]⟩ (2 % 2) (1 % 1) else 0) ∧
    (get_right_mul_coefficients (.var 0 2 2) ⟨2, 1, [(0, 0, 3), (1, 0, 5)]⟩).entry 1 3 =
      (if 1 % 2 = 3 % 2 then
        SparseMatrix.entry ⟨2, 1, [(0, 0, 3), (1, 0, 5)]⟩ (3 / 2) (1 / 2) else 0) :=
  ⟨(mul_broadcast_C3 (.var 0 2 2) ⟨2, 1, [(0, 0, 3), (1, 0, 5)]⟩
      (by intro t ht; fin_cases ht <;> exact ⟨by norm_num, by norm_num⟩)).1.2.2
      2 1 (by norm_num [esize]) (by norm_num [esize]),
   (mul_broadcast_C3 (.var 0 2 2) ⟨2, 1, [(0, 0, 3), (1, 0, 5)]⟩
      (by intro t ht; fin_cases ht <;> exact ⟨by norm_num, by norm_num⟩)).2.2.2
      1 3 (by norm_num [esize]) (by norm_num [esize])⟩

/-! ## The multiply-and-accumulate layer of `get_coefficients` -/

theorem applyVec_cons (r c : Nat) (t : Triplet) (T : List Triplet)
    (x : Nat → ℚ) (i : Nat) :
    SparseMatrix.applyVec ⟨r, c, t :: T⟩ x i =
      (if t.1 = i then t.2.2 * x t.2.1 else 0) + SparseMatrix.applyVec ⟨r, c, T⟩ x i := by
  simp [SparseMatrix.applyVec]

theorem applyVec_congr (m : SparseMatrix) (x y : Nat → ℚ) (i : Nat)
    (hcols : ∀ t ∈ m.triplets, t.2.1 < m.cols)
    (h : ∀ j < m.cols, x j = y j) :
    m.applyVec x i = m.applyVec y i := by
  simp only [SparseMatrix.applyVec]
  apply lsum_congr
  intro t ht
  by_cases h1 : t.1 = i
  · rw [if_pos h1, if_pos h1, h t.2.1 (hcols t ht)]
  · rw [if_neg h1, if_neg h1]

theorem coeffSum_cons (p : VarId × SparseMatrix) (m : CoeffMap)
    (σ : VarId → Nat → ℚ) (i : Nat) :
    coeffSum (p :: m) σ i = p.2.applyVec (σ p.1) i + coeffSum m σ i := by
  simp [coeffSum]

theorem coeffSum_insertAdd (k : VarId) (v : SparseMatrix) (m : CoeffMap)
    (σ : VarId → Nat → ℚ) (i : Nat) :
    coeffSum (insertAdd k v m) σ i = coeffSum m σ i + v.applyVec (σ k) i := by
  induction m with
  | nil => simp [insertAdd, coeffSum]
  | cons p m ih =>
    rcases p with ⟨k', v'⟩
    rw [insertAdd]
    by_cases h : k = k'
    · rw [if_pos h, coeffSum_cons, coeffSum_cons]
      subst h
      rw [show SparseMatrix.applyVec (spAdd v' v) (σ k) i =
        v'.applyVec (σ k) i + v.applyVec (σ k) i from applyVec_spAdd v' v (σ k) i]
      ring
    · rw [if_neg h, coeffSum_cons, coeffSum_cons, ih]
      ring

theorem mbc_sum (F : SparseMatrix) :
    ∀ (rhs acc res : CoeffMap), multiply_by_constant F rhs acc = some res →
      ∀ (σ : VarId → Nat → ℚ) (i : Nat),
        coeffSum res σ i = coeffSum acc σ i +
          F.applyVec (fun j => coeffSum rhs σ j) i := by
  intro rhs
  induction rhs with
  | nil =>
    intro acc res h σ i
    rw [multiply_by_constant, Option.some.injEq] at h
    subst h
    have hz : F.applyVec (fun j => coeffSum ([] : CoeffMap) σ j) i = 0 := by
      have := applyVec_zero_fun F i
      simpa [coeffSum] using this
    rw [hz, add_zero]
  | cons p rest ih =>
    intro acc res h σ i
    rcases p with ⟨k, A⟩
    rw [multiply_by_constant] at h
    by_cases hg : F.cols = A.rows
    · rw [if_pos hg] at h
      rw [ih (insertAdd k (spMul F A) acc) res h σ i, coeffSum_insertAdd, applyVec_spMul]
      rw [show (fun j => coeffSum ((k, A) :: rest) σ j) =
        (fun j => A.applyVec (σ k) j + coeffSum rest σ j) from
        funext (fun j => coeffSum_cons (k, A) rest σ j)]
      rw [applyVec_add_fun]
      ring
    · rw [if_neg hg] at h
      cases h

theorem mem_spMul {a b : SparseMatrix} {s : Triplet}
    (hs : s ∈ (spMul a b).triplets) :
    ∃ t ∈ a.triplets, ∃ u ∈ b.triplets, s = (t.1, u.2.1, t.2.2 * u.2.2) := by
  simp only [spMul, List.mem_flatMap, List.mem_map, List.mem_filter] at hs
  obtain ⟨t, ht, u, ⟨hu, _⟩, hs⟩ := hs
  exact ⟨t, ht, u, hu, hs.symm⟩

theorem goodMap_insertAdd (k : VarId) (v : SparseMatrix) (m : CoeffMap) (d : Nat)
    (hm : GoodMap m d)
    (hv : v.rows = d ∧ (∀ t ∈ v.triplets, t.1 < d) ∧
      (k = kConstCoefficientId → v.cols = 1 ∧ ∀ t ∈ v.triplets, t.2.1 = 0)) :
    GoodMap (insertAdd k v m) d := by
  induction m with
  | nil =>
    intro p hp
    rw [insertAdd, List.mem_singleton] at hp
    subst hp
    exact ⟨hv.1, hv.2.1, hv.2.2⟩
  | cons q rest ih =>
    rcases q with ⟨k', v'⟩
    rw [insertAdd]
    have hq := hm (k', v') (List.mem_cons_self _ _)
    have hrest : GoodMap rest d := fun p hp => hm p (List.mem_cons_of_mem _ hp)
    by_cases h : k = k'
    · rw [if_pos h]
      intro p hp
      rcases List.mem_cons.mp hp with rfl | hp'
      · refine ⟨hq.1, ?_, ?_⟩
        · intro t ht
          rcases List.mem_append.mp ht with h1 | h2
          · exact hq.2.1 t h1
          · exact hv.2.1 t h2
        · intro hk
          have hc1 := hq.2.2 hk
          have hc2 := hv.2.2 (h ▸ hk)
          refine ⟨hc1.1, ?_⟩
          intro t ht
          rcases List.mem_append.mp ht with h1 | h2
          · exact hc1.2 t h1
          · exact hc2.2 t h2
      · exact hrest p hp'
    · rw [if_neg h]
      intro p hp
      rcases List.mem_cons.mp hp with rfl | hp'
      · exact hq
      · exact ih hrest p hp'

theorem goodMap_mbc (F : SparseMatrix) (d : Nat)
    (hF : F.rows = d ∧ ∀ t ∈ F.triplets, t.1 < d) :
    ∀ (rhs acc res : CoeffMap), multiply_by_constant F rhs acc = some res →
      GoodMap acc d →
      (∀ p ∈ rhs, p.1 = kConstCoefficientId →
        p.2.cols = 1 ∧ ∀ t ∈ p.2.triplets, t.2.1 = 0) →
      GoodMap res d := by
  intro rhs
  induction rhs with
  | nil =>
    intro acc res h hacc _
    rw [multiply_by_constant, Option.some.injEq] at h
    subst h
    exact hacc
  | cons p rest ih =>
    intro acc res h hacc hconst
    rcases p with ⟨k, A⟩
    rw [multiply_by_constant] at h
    by_cases hg : F.cols = A.rows
    · rw [if_pos hg] at h
      refine ih (insertAdd k (spMul F A) acc) res h ?_
        (fun p hp => hconst p (List.mem_cons_of_mem _ hp))
      refine goodMap_insertAdd k (spMul F A) acc d hacc ⟨hF.1, ?_, ?_⟩
      · intro t ht
        obtain ⟨t', ht', u, hu, rfl⟩ := mem_spMul ht
        exact hF.2 t' ht'
      · intro hk
        have hc := hconst (k, A) (List.mem_cons_self _ _) hk
        refine ⟨hc.1, ?_⟩
        intro t ht
        obtain ⟨t', ht', u, hu, rfl⟩ := mem_spMul ht
        exact hc.2 u hu
    · rw [if_neg hg] at h
      cases h

theorem insertAdd_ne_nil (k : VarId) (v : SparseMatrix) (m : CoeffMap) :
    insertAdd k v m ≠ [] := by
  cases m with
  | nil => simp [insertAdd]
  | cons p rest =>
    rcases p with ⟨k', v'⟩
    rw [insertAdd]
    by_cases h : k = k' <;> simp [h]

theorem mbc_ne_nil (F : SparseMatrix) :
    ∀ (rhs acc res : CoeffMap), multiply_by_constant F rhs acc = some res →
      (acc ≠ [] ∨ rhs ≠ []) → res ≠ [] := by
  intro rhs
  induction rhs with
  | nil =>
    intro acc res h hd
    rw [multiply_by_constant, Option.some.injEq] at h
    subst h
    rcases hd with h1 | h1
    · exact h1
    · exact absurd rfl h1
  | cons p rest ih =>
    intro acc res h _
    rcases p with ⟨k, A⟩
    rw [multiply_by_constant] at h
    by_cases hg : F.cols = A.rows
    · rw [if_pos hg] at h
      exact ih _ res h (Or.inl (insertAdd_ne_nil _ _ _))
    · rw [if_neg hg] at h
      cases h

theorem mbc_guard (F : SparseMatrix) :
    ∀ (rhs acc res : CoeffMap), multiply_by_constant F rhs acc = some res →
      ∀ p ∈ rhs, F.cols = p.2.rows := by
  intro rhs
  induction rhs with
  | nil => intro acc res _ p hp; cases hp
  | cons q rest ih =>
    intro acc res h p hp
    rcases q with ⟨k, A⟩
    rw [multiply_by_constant] at h
    by_cases hg : F.cols = A.rows
    · rw [if_pos hg] at h
      rcases List.mem_cons.mp hp with rfl | hp'
      · exact hg
      · exact ih _ res h p hp'
    · rw [if_neg hg] at h
      cases h

theorem mem_insertAdd (k : VarId) (v : SparseMatrix) (m : CoeffMap) :
    ∀ p ∈ insertAdd k v m, p.1 = k ∨ p.1 ∈ m.map (·.1) := by
  induction m with
  | nil =>
    intro p hp
    rw [insertAdd, List.mem_singleton] at hp
    subst hp
    exact Or.inl rfl
  | cons q rest ih =>
    rcases q with ⟨k', v'⟩
    rw [insertAdd]
    by_cases h : k = k'
    · rw [if_pos h]
      intro p hp
      rcases List.mem_cons.mp hp with rfl | hp'
      · exact Or.inr (by simp)
      · exact Or.inr (by simp [List.mem_map_of_mem (·.1) hp'])
    · rw [if_neg h]
      intro p hp
      rcases List.mem_cons.mp hp with rfl | hp'
      · exact Or.inr (by simp)
      · rcases ih p hp' with h1 | h1
        · exact Or.inl h1
        · exact Or.inr (by simp [h1])

theorem keysDistinct_insertAdd (k : VarId) (v : SparseMatrix) (m : CoeffMap)
    (hm : KeysDistinct m) : KeysDistinct (insertAdd k v m) := by
  induction m with
  | nil =>
    rw [insertAdd]
    exact List.pairwise_singleton _ _
  | cons q rest ih =>
    rcases q with ⟨k', v'⟩
    rw [KeysDistinct, List.pairwise_cons] at hm
    rw [insertAdd]
    by_cases h : k = k'
    · rw [if_pos h]
      rw [KeysDistinct, List.pairwise_cons]
      exact ⟨fun q hq => hm.1 q hq, hm.2⟩
    · rw [if_neg h]
      rw [KeysDistinct, List.pairwise_cons]
      constructor
      · intro q hq
        rcases mem_insertAdd k v rest q hq with h1 | h1
        · rw [h1]; exact fun hx => h hx.symm
        · obtain ⟨q', hq', hq1⟩ := List.mem_map.mp h1
          rw [← hq1]
          exact hm.1 q' hq'
      · exact ih hm.2

theorem keysDistinct_mbc (F : SparseMatrix) :
    ∀ (rhs acc res : CoeffMap), multiply_by_constant F rhs acc = some res →
      KeysDistinct acc → KeysDistinct res := by
  intro rhs
  induction rhs with
  | nil =>
    intro acc res h hacc
    rw [multiply_by_constant, Option.some.injEq] at h
    subst h
    exact hacc
  | cons q rest ih =>
    intro acc res h hacc
    rcases q with ⟨k, A⟩
    rw [multiply_by_constant] at h
    by_cases hg : F.cols = A.rows
    · rw [if_pos hg] at h
      exact ih _ res h (keysDistinct_insertAdd _ _ _ hacc)
    · rw [if_neg hg] at h
      cases h

/-! ## Per-atom coefficient operator lemmas -/

theorem mem_identity {n : Nat} {t : Triplet} (ht : t ∈ (identity n).triplets) :
    t.1 < n ∧ t.2.1 < n := by
  simp only [identity, List.mem_map, List.mem_range] at ht
  obtain ⟨k, hk, rfl⟩ := ht
  exact ⟨hk, hk⟩

theorem mem_ones {r c : Nat} {t : Triplet} (ht : t ∈ (ones_matrix r c).triplets) :
    t.1 < r ∧ t.2.1 < c := by
  simp only [ones_matrix, List.mem_flatMap, List.mem_map, List.mem_range] at ht
  obtain ⟨i, hi, j, hj, rfl⟩ := ht
  exact ⟨hi, hj⟩

theorem mem_scalar {v : ℚ} {n : Nat} {t : Triplet}
    (ht : t ∈ (scalar_matrix v n).triplets) : t.1 < n ∧ t.2.1 < n := by
  simp only [scalar_matrix, List.mem_map, List.mem_range] at ht
  obtain ⟨k, hk, rfl⟩ := ht
  exact ⟨hk, hk⟩

theorem applyVec_ones (r c : Nat) (x : Nat → ℚ) (i : Nat) (hi : i < r) :
    (ones_matrix r c).applyVec x i = ((List.range c).map x).sum := by
  simp only [ones_matrix, SparseMatrix.applyVec, lsum_flatMap, List.map_map]
  have inner : ∀ p ∈ List.range r,
      ((List.range c).map ((fun t : Triplet => if t.1 = i then t.2.2 * x t.2.1 else 0) ∘
        (fun j => (p, j, (1 : ℚ))))).sum =
      (if p = i then ((List.range c).map x).sum else 0) := by
    intro p _
    by_cases hp : p = i
    · rw [if_pos hp]
      subst hp
      apply lsum_congr
      intro j _
      simp
    · rw [if_neg hp]
      refine (lsum_congr _ (fun _ => (0 : ℚ)) _ ?_).trans (lsum_map_zero _)
      intro j _
      simp [hp]
  rw [lsum_congr _ (fun p => if p = i then ((List.range c).map x).sum else 0) _ inner,
    lsum_range_ite r i (fun _ => ((List.range c).map x).sum), if_pos hi]

/-- Sum over a `flatMap` as a sum of the inner sums. -/
theorem lsum_flatMap_direct {α : Type} (g : α → List ℚ) (l : List α) :
    (l.flatMap g).sum = (l.map (fun a => (g a).sum)).sum := by
  induction l with
  | nil => simp
  | cons a rest ih =>
    rw [List.flatMap_cons, lsum_append, ih, List.map_cons, List.sum_cons]

/-- Pointwise congruence of `flatMap` sums. -/
theorem lsum_flatMap_congr {α : Type} (l : List α) (g g' : α → List ℚ)
    (h : ∀ a ∈ l, (g a).sum = (g' a).sum) :
    (l.flatMap g).sum = (l.flatMap g').sum := by
  rw [lsum_flatMap_direct, lsum_flatMap_direct]
  exact lsum_congr _ _ _ h

/-- Exchanging the nesting order of a double range sum. -/
theorem lsum_swap (R C : Nat) (h : Nat → Nat → ℚ) :
    ((List.range R).flatMap (fun i => (List.range C).map (fun j => h i j))).sum =
    ((List.range C).flatMap (fun j => (List.range R).map (fun i => h i j))).sum := by
  induction R with
  | zero =>
    rw [lsum_flatMap_direct (fun j => (List.range 0).map (fun i => h i j)) (List.range C)]
    simp
  | succ R ih =>
    rw [lsum_flatMap_direct (fun j => (List.range (R + 1)).map (fun i => h i j))
      (List.range C)]
    have hsplit : ∀ j ∈ List.range C,
        (fun j => ((List.range (R + 1)).map (fun i => h i j)).sum) j =
        (fun j => ((List.range R).map (fun i => h i j)).sum + h R j) j := by
      intro j _
      simp only []
      rw [List.range_succ, lsum_map_append]
      simp
    rw [lsum_congr _ _ _ hsplit, lsum_map_add,
      ← lsum_flatMap_direct (fun j => (List.range R).map (fun i => h i j)) (List.range C),
      ← ih, List.range_succ, List.flatMap_append, lsum_append,
      List.flatMap_cons, List.flatMap_nil, List.append_nil]

/-- The `HSTACK` per-argument operator (`column_offset = ra`): a shifted
identity on the window `[offset, offset + ra·ca)`. -/
theorem applyVec_stack_h (ra ca off D : Nat) (x : Nat → ℚ) (ρ : Nat) :
    SparseMatrix.applyVec ⟨D, ra * ca, stackTriplets ra ra ca off⟩ x ρ =
      if off ≤ ρ ∧ ρ < off + ra * ca then x (ρ - off) else 0 := by
  simp only [stackTriplets, SparseMatrix.applyVec]
  rw [show ((List.range ra).flatMap (fun i => (List.range ca).map (fun j =>
        (i + j * ra + off, i + j * ra, (1 : ℚ))))).map
        (fun t => if t.1 = ρ then t.2.2 * x t.2.1 else 0) =
      (List.range ra).flatMap (fun i => (List.range ca).map (fun j =>
        if i + j * ra + off = ρ then 1 * x (i + j * ra) else 0)) from ?_]
  · rw [lsum_swap ra ca (fun i j => if i + j * ra + off = ρ then 1 * x (i + j * ra) else 0)]
    rw [show ((List.range ca).flatMap (fun j => (List.range ra).map (fun i =>
        if i + j * ra + off = ρ then 1 * x (i + j * ra) else 0))) =
      ((List.range ca).flatMap (fun j => (List.range ra).map (fun i =>
        (fun t => if t + off = ρ then 1 * x t else 0) (j * ra + i)))) from ?_]
    · rw [lsum_double_range ra ca (fun t => if t + off = ρ then 1 * x t else 0)]
      by_cases hoff : off ≤ ρ
      · have hcongr : ∀ t ∈ List.range (ra * ca),
            (fun t => if t + off = ρ then 1 * x t else 0) t =
            (fun t => if t = ρ - off then 1 * x t else 0) t := by
          intro t _
          simp only []
          by_cases ht : t + off = ρ
          · rw [if_pos ht, if_pos (by omega)]
          · rw [if_neg ht, if_neg (by omega)]
        rw [lsum_congr _ _ _ hcongr,
          lsum_range_ite (ra * ca) (ρ - off) (fun t => 1 * x t)]
        by_cases h2 : ρ - off < ra * ca
        · rw [if_pos h2, if_pos (by omega), one_mul]
        · rw [if_neg h2, if_neg (by omega)]
      · rw [if_neg (by omega)]
        refine (lsum_congr _ (fun _ => (0 : ℚ)) _ ?_).trans (lsum_map_zero _)
        intro t _
        simp only []
        rw [if_neg (by omega)]
    · congr 1
      funext j
      congr 1
      funext i
      simp only [Nat.add_comm i (j * ra)]
  · rw [List.map_flatMap]
    congr 1
    funext i
    rw [List.map_map]
    rfl

/-- The `VSTACK` per-argument operator (`column_offset = R`, the total row
count): reads the window `[offset, offset + ra)` of each column. -/
theorem applyVec_stack_v (R ra ca off D : Nat) (x : Nat → ℚ) (ρ : Nat)
    (hwin : off + ra ≤ R) (hρ : ρ < R * ca) :
    SparseMatrix.applyVec ⟨D, ra * ca, stackTriplets R ra ca off⟩ x ρ =
      if off ≤ ρ % R ∧ ρ % R < off + ra then
        x ((ρ % R - off) + (ρ / R) * ra) else 0 := by
  have hR : 0 < R := by
    rcases Nat.eq_zero_or_pos R with h0 | h0
    · rw [h0, Nat.zero_mul] at hρ; omega
    · exact h0
  have hjlt : ρ / R < ca := Nat.div_lt_of_lt_mul hρ
  have hmodR : ρ % R < R := Nat.mod_lt ρ hR
  simp only [stackTriplets, SparseMatrix.applyVec, lsum_flatMap, List.map_map]
  have inner : ∀ i ∈ List.range ra,
      ((List.range ca).map ((fun t : Triplet => if t.1 = ρ then t.2.2 * x t.2.1 else 0) ∘
        (fun j => (i + j * R + off, i + j * ra, (1 : ℚ))))).sum =
      (if i + off = ρ % R then (1 : ℚ) * x (i + (ρ / R) * ra) else 0) := by
    intro i hi
    have hira : i < ra := List.mem_range.mp hi
    by_cases hieq : i + off = ρ % R
    · rw [if_pos hieq]
      have hcongr : ∀ j ∈ List.range ca,
          ((fun t : Triplet => if t.1 = ρ then t.2.2 * x t.2.1 else 0) ∘
            (fun j => (i + j * R + off, i + j * ra, (1 : ℚ)))) j =
          (fun j => if j = ρ / R then (1 : ℚ) * x (i + j * ra) else 0) j := by
        intro j _
        simp only [Function.comp_apply]
        by_cases hj : j = ρ / R
        · subst hj
          rw [if_pos ?_, if_pos rfl]
          have := Nat.div_add_mod' ρ R
          omega
        · rw [if_neg ?_, if_neg hj]
          intro hcon
          have hx : j * R + (i + off) = ρ := by omega
          have hd := decomp_div j R (i + off) (by omega)
          rw [hx] at hd
          exact hj hd.symm
      rw [lsum_congr _ _ _ hcongr,
        lsum_range_ite ca (ρ / R) (fun j => (1 : ℚ) * x (i + j * ra)), if_pos hjlt]
    · rw [if_neg hieq]
      refine (lsum_congr _ (fun _ => (0 : ℚ)) _ ?_).trans (lsum_map_zero _)
      intro j _
      simp only [Function.comp_apply]
      rw [if_neg ?_]
      intro hcon
      have hx : j * R + (i + off) = ρ := by omega
      have hd := decomp_mod j R (i + off) (by omega)
      rw [hx] at hd
      exact hieq hd.symm
  rw [lsum_congr _ (fun i => if i + off = ρ % R then (1 : ℚ) * x (i + (ρ / R) * ra)
    else 0) _ inner]
  by_cases hsel : off ≤ ρ % R ∧ ρ % R < off + ra
  · have hcongr : ∀ i ∈ List.range ra,
        (fun i => if i + off = ρ % R then (1 : ℚ) * x (i + (ρ / R) * ra) else 0) i =
        (fun i => if i = ρ % R - off then (1 : ℚ) * x (i + (ρ / R) * ra) else 0) i := by
      intro i _
      simp only []
      by_cases hieq : i + off = ρ % R
      · rw [if_pos hieq, if_pos (by omega)]
      · rw [if_neg hieq, if_neg (by omega)]
    rw [lsum_congr _ _ _ hcongr,
      lsum_range_ite ra (ρ % R - off) (fun i => (1 : ℚ) * x (i + (ρ / R) * ra)),
      if_pos (by omega), if_pos hsel, one_mul]
  · rw [if_neg hsel]
    refine (lsum_congr _ (fun _ => (0 : ℚ)) _ ?_).trans (lsum_map_zero _)
    intro i hi
    have hira : i < ra := List.mem_range.mp hi
    simp only []
    rw [if_neg (by omega)]

theorem mem_stackTriplets {co ra ca off : Nat} {t : Triplet}
    (ht : t ∈ stackTriplets co ra ca off) :
    ∃ i j, i < ra ∧ j < ca ∧ t = (i + j * co + off, i + j * ra, (1 : ℚ)) := by
  simp only [stackTriplets, List.mem_flatMap, List.mem_map, List.mem_range] at ht
  obtain ⟨i, hi, j, hj, rfl⟩ := ht
  exact ⟨i, j, hi, hj, rfl⟩

theorem indexTriplets_applyVec (D C : Nat) (sel : List Nat) :
    ∀ (cnt : Nat) (x : Nat → ℚ) (ρ : Nat),
      SparseMatrix.applyVec ⟨D, C, indexTriplets sel cnt⟩ x ρ =
        if cnt ≤ ρ ∧ ρ < cnt + sel.length then x (sel.getD (ρ - cnt) 0) else 0 := by
  induction sel with
  | nil =>
    intro cnt x ρ
    simp only [indexTriplets, SparseMatrix.applyVec, List.map_nil, List.sum_nil,
      List.length_nil]
    rw [if_neg (by omega)]
  | cons a rest ih =>
    intro cnt x ρ
    rw [indexTriplets, applyVec_cons, ih (cnt + 1) x ρ]
    by_cases h : ρ = cnt
    · subst h
      rw [if_pos rfl, if_neg (by omega), if_pos (by simp)]
      simp
    · rw [if_neg (fun hx => h hx.symm)]
      by_cases h2 : cnt + 1 ≤ ρ ∧ ρ < cnt + 1 + rest.length
      · rw [if_pos h2, if_pos (by simp; omega), zero_add]
        congr 1
        have hsplit : ρ - cnt = (ρ - (cnt + 1)) + 1 := by omega
        rw [hsplit, List.getD_cons_succ]
      · rw [if_neg h2, if_neg (by simp; omega), zero_add]

theorem mem_indexTriplets (sel : List Nat) :
    ∀ (cnt : Nat), ∀ t ∈ indexTriplets sel cnt,
      cnt ≤ t.1 ∧ t.1 < cnt + sel.length ∧ t.2.1 ∈ sel := by
  induction sel with
  | nil => intro cnt t ht; cases ht
  | cons a rest ih =>
    intro cnt t ht
    rw [indexTriplets] at ht
    rcases List.mem_cons.mp ht with rfl | ht'
    · exact ⟨Nat.le_refl _, by simp, by simp⟩
    · obtain ⟨h1, h2, h3⟩ := ih (cnt + 1) t ht'
      refine ⟨by omega, ?_, by simp [h3]⟩
      simp only [List.length_cons]
      omega

theorem sliceLoop_mem_bound (stop step : Int) (bound : Nat) :
    ∀ (fuel : Nat) (cur : Int), ∀ v ∈ sliceLoop stop step bound fuel cur,
      0 ≤ v ∧ v < (bound : Int) := by
  intro fuel
  induction fuel with
  | zero => intro cur v hv; cases hv
  | succ fuel ih =>
    intro cur v hv
    rw [sliceLoop] at hv
    by_cases h1 : cur < 0 ∨ (bound : Int) ≤ cur
    · rw [if_pos h1] at hv; cases hv
    · rw [if_neg h1] at hv
      push_neg at h1
      rcases List.mem_cons.mp hv with rfl | hv'
      · exact ⟨h1.1, h1.2⟩
      · by_cases h2 : (0 < step ∧ stop ≤ cur + step) ∨ (step < 0 ∧ cur + step < stop)
        · rw [if_pos h2] at hv'; cases hv'
        · rw [if_neg h2] at hv'; exact ih _ v hv'

theorem sliceIdx_mem_bound (s : Slice) (bound : Nat) :
    ∀ v ∈ sliceIdx s bound, 0 ≤ v ∧ v < (bound : Int) := by
  intro v hv
  exact sliceLoop_mem_bound _ _ bound bound _ v hv

theorem indexSel_mem_bound (rows cols : Nat) (rs cs : Slice) :
    ∀ k ∈ indexSel rows cols rs cs, k < rows * cols := by
  intro k hk
  simp only [indexSel, List.mem_flatMap, List.mem_map] at hk
  obtain ⟨col, hcol, row, hrow, rfl⟩ := hk
  obtain ⟨hc0, hcb⟩ := sliceIdx_mem_bound cs cols col hcol
  obtain ⟨hr0, hrb⟩ := sliceIdx_mem_bound rs rows row hrow
  have hcn : col.toNat < cols := by omega
  have hrn : row.toNat < rows := by omega
  calc col.toNat * rows + row.toNat < col.toNat * rows + rows := by omega
    _ = (col.toNat + 1) * rows := by ring
    _ ≤ cols * rows := Nat.mul_le_mul_right rows hcn
    _ = rows * cols := Nat.mul_comm cols rows

theorem flatMap_const_length {α β : Type} (l : List α) (g : α → List β) (n : Nat)
    (h : ∀ a ∈ l, (g a).length = n) : (l.flatMap g).length = l.length * n := by
  induction l with
  | nil => simp
  | cons a rest ih =>
    rw [List.flatMap_cons, List.length_append, h a (List.mem_cons_self _ _),
      ih (fun b hb => h b (List.mem_cons_of_mem _ hb)), List.length_cons]
    ring

theorem indexSel_length (rows cols : Nat) (rs cs : Slice) :
    (indexSel rows cols rs cs).length =
      (sliceIdx cs cols).length * (sliceIdx rs rows).length := by
  rw [indexSel, flatMap_const_length _ _ ((sliceIdx rs rows).length)
    (fun a _ => List.length_map _ _)]

theorem applyVec_diag_mat (n : Nat) (x : Nat → ℚ) (ρ : Nat) (hρ : ρ < n) :
    SparseMatrix.applyVec
      ⟨n, n * n, (List.range n).map (fun i => (i, i * n + i, (1 : ℚ)))⟩ x ρ =
      x (ρ * n + ρ) := by
  simp only [SparseMatrix.applyVec, List.map_map]
  have h := lsum_range_ite n ρ (fun k => (1 : ℚ) * x (k * n + k))
  rw [show ((List.range n).map ((fun t : Triplet => if t.1 = ρ then t.2.2 * x t.2.1 else 0) ∘
    (fun i => (i, i * n + i, (1 : ℚ))))).sum =
    ((List.range n).map (fun k => if k = ρ then (1 : ℚ) * x (k * n + k) else 0)).sum from
    rfl, h, if_pos hρ, one_mul]

theorem applyVec_diag_vec (n : Nat) (x : Nat → ℚ) (ρ : Nat) (hρ : ρ < n * n) :
    SparseMatrix.applyVec
      ⟨n * n, n, (List.range n).map (fun i => (i * n + i, i, (1 : ℚ)))⟩ x ρ =
      if ρ % n = ρ / n then x (ρ % n) else 0 := by
  have hn : 0 < n := by
    rcases Nat.eq_zero_or_pos n with h0 | h0
    · rw [h0, Nat.zero_mul] at hρ; omega
    · exact h0
  have hdm : ρ / n < n := Nat.div_lt_of_lt_mul hρ
  simp only [SparseMatrix.applyVec, List.map_map]
  have hcongr : ∀ k ∈ List.range n,
      ((fun t : Triplet => if t.1 = ρ then t.2.2 * x t.2.1 else 0) ∘
        (fun i => (i * n + i, i, (1 : ℚ)))) k =
      (fun k => if k = ρ / n then
        (if ρ % n = ρ / n then (1 : ℚ) * x k else 0) else 0) k := by
    intro k hk
    have hkn : k < n := List.mem_range.mp hk
    simp only [Function.comp_apply]
    by_cases hcond : k * n + k = ρ
    · have hdiv : ρ / n = k := by rw [← hcond]; exact decomp_div k n k hkn
      have hmod : ρ % n = k := by rw [← hcond]; exact decomp_mod k n k hkn
      rw [if_pos hcond, if_pos (by omega), if_pos (by omega)]
    · rw [if_neg hcond]
      by_cases hk2 : k = ρ / n
      · rw [if_pos hk2]
        rw [if_neg ?_]
        intro hmods
        apply hcond
        subst hk2
        have hdm2 := Nat.div_add_mod' ρ n
        omega
      · rw [if_neg hk2]
  rw [lsum_congr _ _ _ hcongr,
    lsum_range_ite n (ρ / n) (fun k => if ρ % n = ρ / n then (1 : ℚ) * x k else 0),
    if_pos hdm]
  by_cases hmods : ρ % n = ρ / n
  · rw [if_pos hmods, if_pos hmods, one_mul, hmods]
  · rw [if_neg hmods, if_neg hmods]

/-! ## Groundwork for the extractor invariant -/

theorem extendAssign_const (σ : Nat → Nat → ℚ) :
    extendAssign σ kConstCoefficientId = unitVec := by
  simp [extendAssign]

theorem extendAssign_nat (σ : Nat → Nat → ℚ) (v : Nat) :
    extendAssign σ (v : Int) = σ v := by
  simp only [extendAssign]
  rw [if_neg (show ¬((v : Int) = kConstCoefficientId) from by
    show ¬((v : Int) = (-1 : Int))
    omega)]
  simp

theorem coeffSum_nil (assign : VarId → Nat → ℚ) (i : Nat) :
    coeffSum [] assign i = 0 := by
  simp [coeffSum]

theorem unitVec_zero : unitVec 0 = 1 := rfl

/-- Swapping the two levels of a sum over a `flatMap` of `map`s. -/
theorem lsum_swap_list {α β : Type} (l1 : List α) (l2 : List β) (h : α → β → ℚ) :
    (l1.flatMap (fun a => l2.map (fun b => h a b))).sum =
    (l2.flatMap (fun b => l1.map (fun a => h a b))).sum := by
  induction l1 with
  | nil =>
    rw [lsum_flatMap_direct (fun b => ([] : List α).map (fun a => h a b)) l2]
    simp
  | cons a rest ih =>
    rw [List.flatMap_cons, lsum_append, ih,
      lsum_flatMap_direct (fun b => (a :: rest).map (fun a => h a b)) l2,
      lsum_flatMap_direct (fun b => rest.map (fun a => h a b)) l2, ← lsum_map_add]
    apply lsum_congr
    intro b _
    rw [List.map_cons, List.sum_cons]

/-- Sum over a `filterMap` as a sum over the underlying list. -/
theorem lsum_filterMap {α β : Type} (f : α → Option β) (h : β → ℚ) (l : List α) :
    ((l.filterMap f).map h).sum = (l.map (fun a => ((f a).map h).getD 0)).sum := by
  induction l with
  | nil => simp
  | cons a rest ih =>
    rw [List.filterMap_cons]
    cases hf : f a
    · simp [hf, ih]
    · simp [hf, ih]

/-- `to_vector` applied to the unit vector reads back the dense entry at
the column-major flat position. -/
theorem applyVec_to_vector (r c : Nat) (data : List (List ℚ)) (i : Nat)
    (hi : i < r * c) :
    (to_vector r c data).applyVec unitVec i = nth2 data (i % r) (i / r) := by
  simp only [to_vector, SparseMatrix.applyVec, lsum_filterMap]
  have hcongr : ∀ k ∈ List.range (r * c),
      (fun k => (((if nth2 data (k % r) (k / r) = 0 then none
        else some ((k, 0, nth2 data (k % r) (k / r)) : Triplet))).map
          (fun t : Triplet => if t.1 = i then t.2.2 * unitVec t.2.1 else 0)).getD 0) k =
      (fun k => if k = i then nth2 data (k % r) (k / r) else 0) k := by
    intro k _
    simp only []
    by_cases hz : nth2 data (k % r) (k / r) = 0
    · rw [if_pos hz]
      by_cases hk : k = i
      · subst hk
        simp [hz]
      · simp [hk]
    · rw [if_neg hz]
      by_cases hk : k = i
      · simp [hk, unitVec]
      · simp [hk]
  rw [lsum_congr _ _ _ hcongr,
    lsum_range_ite (r * c) i (fun k => nth2 data (k % r) (k / r)), if_pos hi]

theorem sizeList_eq_map : ∀ args : List Expr, sizeList args = args.map esize := by
  intro args
  induction args with
  | nil => rw [sizeList, List.map_nil]
  | cons a rest ih => rw [sizeList, List.map_cons, ih]

theorem wfList_mem : ∀ args : List Expr, wfList args = true →
    ∀ a ∈ args, wf a = true := by
  intro args
  induction args with
  | nil => intro _ a ha; cases ha
  | cons b rest ih =>
    intro h a ha
    rw [wfList, Bool.and_eq_true] at h
    rcases List.mem_cons.mp ha with rfl | ha'
    · exact h.1
    · exact ih h.2 a ha'

theorem addShape_pos : ∀ ss : List (Nat × Nat),
    (∀ s ∈ ss, 0 < s.1 ∧ 0 < s.2) → 0 < (addShape ss).1 ∧ 0 < (addShape ss).2 := by
  intro ss
  induction ss with
  | nil => intro _; simp [addShape]
  | cons s rest ih =>
    intro h
    rcases s with ⟨r, c⟩
    rw [addShape]
    by_cases h1 : r * c = 1
    · rw [if_pos h1]
      exact ih (fun s hs => h s (List.mem_cons_of_mem _ hs))
    · rw [if_neg h1]
      exact h (r, c) (List.mem_cons_self _ _)

/-- A constant coefficient map is exactly the singleton at the sentinel
key. -/
theorem is_constant_destruct (γ : CoeffMap) (h : is_constant γ = true) :
    γ = [(kConstCoefficientId, constPart γ)] := by
  cases γ with
  | nil => simp [is_constant, CoeffMap.find] at h
  | cons p rest =>
    cases rest with
    | cons q rest2 =>
      exfalso
      rw [is_constant, Bool.and_eq_true] at h
      have h2 := h.2
      simp at h2
    | nil =>
      rcases p with ⟨k, v⟩
      by_cases hk : k = kConstCoefficientId
      · subst hk
        simp [constPart, CoeffMap.find]
      · exfalso
        rw [is_constant, Bool.and_eq_true] at h
        have h1 := h.1
        have hb : ((k, v).1 == kConstCoefficientId) = false := by
          simp [hk]
        rw [CoeffMap.find, List.find?] at h1
        rw [hb] at h1
        simp at h1

/-- Inserting at a key absent from the map appends at the end. -/
theorem insertAdd_fresh (k : VarId) (v : SparseMatrix) :
    ∀ m : CoeffMap, (∀ q ∈ m, k ≠ q.1) → insertAdd k v m = m ++ [(k, v)] := by
  intro m
  induction m with
  | nil => intro _; rw [insertAdd, List.nil_append]
  | cons p rest ih =>
    intro h
    rcases p with ⟨k1, v1⟩
    rw [insertAdd, if_neg (h (k1, v1) (List.mem_cons_self _ _)), List.cons_append,
      ih (fun q hq => h q (List.mem_cons_of_mem _ hq))]

/-- When every dimension guard passes and keys are distinct,
`multiply_by_constant` maps each entry to the product at the same key, in
order. -/
theorem mbc_map_of_distinct (F : SparseMatrix) :
    ∀ (rhs acc : CoeffMap),
      (∀ p ∈ rhs, F.cols = p.2.rows) →
      (∀ p ∈ rhs, ∀ q ∈ acc, p.1 ≠ q.1) →
      KeysDistinct rhs →
      multiply_by_constant F rhs acc =
        some (acc ++ rhs.map (fun p => (p.1, spMul F p.2))) := by
  intro rhs
  induction rhs with
  | nil => intro acc _ _ _; rw [multiply_by_constant, List.map_nil, List.append_nil]
  | cons p rest ih =>
    intro acc hg hfresh hdist
    rcases p with ⟨k, A⟩
    rw [KeysDistinct, List.pairwise_cons] at hdist
    have hfresh2 : ∀ p ∈ rest, ∀ q ∈ acc ++ [(k, spMul F A)], p.1 ≠ q.1 := by
      intro p hp q hq
      rcases List.mem_append.mp hq with h1 | h1
      · exact hfresh p (List.mem_cons_of_mem _ hp) q h1
      · rw [List.mem_singleton] at h1
        subst h1
        exact fun hx => hdist.1 p hp hx.symm
    rw [multiply_by_constant, if_pos (hg (k, A) (List.mem_cons_self _ _)),
      insertAdd_fresh k (spMul F A) acc
        (fun q hq => hfresh (k, A) (List.mem_cons_self _ _) q hq),
      ih (acc ++ [(k, spMul F A)]) (fun p hp => hg p (List.mem_cons_of_mem _ hp))
        hfresh2 hdist.2,
      List.map_cons, List.append_assoc, List.singleton_append]

/-- A single dimension mismatch anywhere in the map makes
`multiply_by_constant` fail. -/
theorem mbc_none_of_mismatch (F : SparseMatrix) :
    ∀ (rhs acc : CoeffMap) (p : VarId × SparseMatrix), p ∈ rhs →
      F.cols ≠ p.2.rows → multiply_by_constant F rhs acc = none := by
  intro rhs
  induction rhs with
  | nil => intro acc p hp _; cases hp
  | cons q rest ih =>
    intro acc p hp hne
    rcases q with ⟨k, A⟩
    rw [multiply_by_constant]
    rcases List.mem_cons.mp hp with rfl | hp'
    · rw [if_neg hne]
    · by_cases hg : F.cols = A.rows
      · rw [if_pos hg]
        exact ih _ p hp' hne
      · rw [if_neg hg]

/-- The master lemma for the unary dispatch of `get_coefficients`: a
successful `multiply_by_constant` of the atom's coefficient matrix with
the child's map (into an empty accumulator) preserves the structural
invariant and composes the linear maps. -/
theorem unary_master (F : SparseMatrix) (γ res : CoeffMap) (d dc : Nat)
    (hmbc : multiply_by_constant F γ [] = some res)
    (hgood : GoodMap γ dc) (hne : γ ≠ []) (hFr : F.rows = d)
    (hFt : ∀ t ∈ F.triplets, t.1 < d ∧ t.2.1 < F.cols) :
    GoodMap res d ∧ res ≠ [] ∧ KeysDistinct res ∧ F.cols = dc ∧
    ∀ (assign : VarId → Nat → ℚ) (g : Nat → ℚ),
      (∀ j, j < dc → coeffSum γ assign j = g j) →
      ∀ i, coeffSum res assign i = F.applyVec g i := by
  have hcols : F.cols = dc := by
    obtain ⟨p, hp⟩ := List.exists_mem_of_ne_nil γ hne
    rw [mbc_guard F γ [] res hmbc p hp]
    exact (hgood p hp).1
  refine ⟨?_, ?_, ?_, hcols, ?_⟩
  · exact goodMap_mbc F d ⟨hFr, fun t ht => (hFt t ht).1⟩ γ [] res hmbc
      (fun p hp => absurd hp (List.not_mem_nil p)) (fun p hp => (hgood p hp).2.2)
  · exact mbc_ne_nil F γ [] res hmbc (Or.inr hne)
  · exact keysDistinct_mbc F γ [] res hmbc List.Pairwise.nil
  · intro assign g hag i
    rw [mbc_sum F γ [] res hmbc assign i, coeffSum_nil, zero_add]
    apply applyVec_congr
    · exact fun t ht => (hFt t ht).2
    · intro j hj
      rw [hcols] at hj
      exact hag j hj

theorem mem_left_mul {expr : Expr} {B : SparseMatrix} {s : Triplet}
    (hs : s ∈ (get_left_mul_coefficients expr B).triplets) :
    ∃ k, k < (esize expr).2 ∧ ∃ t ∈ B.triplets,
      s = (k * B.rows + t.1, k * B.cols + t.2.1, t.2.2) := by
  simp only [get_left_mul_coefficients, List.mem_flatMap, List.mem_map,
    List.mem_range] at hs
  obtain ⟨k, hk, t, ht, rfl⟩ := hs
  exact ⟨k, hk, t, ht, rfl⟩

theorem mem_right_mul {expr : Expr} {B : SparseMatrix} {s : Triplet}
    (hs : s ∈ (get_right_mul_coefficients expr B).triplets) :
    ∃ t ∈ B.triplets, ∃ k, k < (esize expr).1 ∧
      s = (t.2.1 * (esize expr).1 + k, t.1 * (esize expr).1 + k, t.2.2) := by
  simp only [get_right_mul_coefficients, List.mem_flatMap, List.mem_map,
    List.mem_range] at hs
  obtain ⟨t, ht, k, hk, rfl⟩ := hs
  exact ⟨t, ht, k, hk, rfl⟩

/-- The block-diagonal left-multiplication operator applied to a vector,
when the block is a single column: block `k` of the output reads `x k`
scaled by the column. -/
theorem applyVec_left_mul (expr : Expr) (B : SparseMatrix) (hBc : B.cols = 1)
    (hBt : ∀ t ∈ B.triplets, t.1 < B.rows ∧ t.2.1 = 0)
    (x : Nat → ℚ) (i : Nat) (hi : i < (esize expr).2 * B.rows) :
    (get_left_mul_coefficients expr B).applyVec x i =
      B.applyVec unitVec (i % B.rows) * x (i / B.rows) := by
  have hR : 0 < B.rows := by
    rcases Nat.eq_zero_or_pos B.rows with h0 | h0
    · rw [h0, Nat.mul_zero] at hi; omega
    · exact h0
  have hdiv : i / B.rows < (esize expr).2 :=
    Nat.div_lt_of_lt_mul (by rw [Nat.mul_comm] at hi; exact hi)
  have hmod : i % B.rows < B.rows := Nat.mod_lt i hR
  have hdm : B.rows * (i / B.rows) + i % B.rows = i := Nat.div_add_mod i B.rows
  simp only [get_left_mul_coefficients, SparseMatrix.applyVec, lsum_flatMap,
    List.map_map]
  have inner : ∀ k ∈ List.range (esize expr).2,
      ((B.triplets.map ((fun s : Triplet => if s.1 = i then s.2.2 * x s.2.1 else 0) ∘
        (fun t => (k * B.rows + t.1, k * B.cols + t.2.1, t.2.2)))).sum) =
      (if k = i / B.rows then
        (B.triplets.map
          (fun t => if t.1 = i % B.rows then t.2.2 * unitVec t.2.1 else 0)).sum * x k
       else 0) := by
    intro k hk
    by_cases hkd : k = i / B.rows
    · rw [if_pos hkd,
        mul_comm ((B.triplets.map
          (fun t => if t.1 = i % B.rows then t.2.2 * unitVec t.2.1 else 0)).sum) (x k),
        ← lsum_map_mul_left]
      apply lsum_congr
      intro t ht
      simp only [Function.comp_apply]
      have h0 : t.2.1 = 0 := (hBt t ht).2
      by_cases h1 : t.1 = i % B.rows
      · have hcond : k * B.rows + t.1 = i := by
          rw [hkd, h1]
          exact Nat.div_add_mod' i B.rows
        rw [if_pos hcond, if_pos h1, h0, hBc, Nat.mul_one, Nat.add_zero, unitVec_zero,
          mul_one]
        ring
      · rw [if_neg ?_, if_neg h1, mul_zero]
        intro hcon
        apply h1
        rw [← hcon, decomp_mod k B.rows t.1 (hBt t ht).1]
    · rw [if_neg hkd]
      refine (lsum_congr _ (fun _ => (0 : ℚ)) _ ?_).trans (lsum_map_zero _)
      intro t ht
      simp only [Function.comp_apply]
      rw [if_neg ?_]
      intro hcon
      apply hkd
      rw [← hcon]
      exact (decomp_div k B.rows t.1 (hBt t ht).1).symm
  rw [lsum_congr _ _ _ inner,
    lsum_range_ite (esize expr).2 (i / B.rows)
      (fun k => (B.triplets.map
        (fun t => if t.1 = i % B.rows then t.2.2 * unitVec t.2.1 else 0)).sum * x k),
    if_pos hdiv]

/-- The right-multiplication operator applied to a vector, when the
constant is a single column: output position `ρ` sums the constant's
entries against strided reads of `x`. -/
theorem applyVec_right_mul (expr : Expr) (B : SparseMatrix) (hBc : B.cols = 1)
    (hBt : ∀ t ∈ B.triplets, t.1 < B.rows ∧ t.2.1 = 0)
    (x : Nat → ℚ) (ρ : Nat) (hρ : ρ < (esize expr).1) :
    (get_right_mul_coefficients expr B).applyVec x ρ =
      ((List.range B.rows).map (fun k =>
        B.applyVec unitVec k * x (k * (esize expr).1 + ρ))).sum := by
  simp only [get_right_mul_coefficients, SparseMatrix.applyVec, lsum_flatMap,
    List.map_map]
  have inner : ∀ t ∈ B.triplets,
      (((List.range (esize expr).1).map
        ((fun s : Triplet => if s.1 = ρ then s.2.2 * x s.2.1 else 0) ∘
          (fun i2 => (t.2.1 * (esize expr).1 + i2, t.1 * (esize expr).1 + i2,
            t.2.2)))).sum) =
      t.2.2 * x (t.1 * (esize expr).1 + ρ) := by
    intro t ht
    have h0 : t.2.1 = 0 := (hBt t ht).2
    have hcongr : ∀ i2 ∈ List.range (esize expr).1,
        ((fun s : Triplet => if s.1 = ρ then s.2.2 * x s.2.1 else 0) ∘
          (fun i2 => (t.2.1 * (esize expr).1 + i2, t.1 * (esize expr).1 + i2,
            t.2.2))) i2 =
        (fun i2 => if i2 = ρ then t.2.2 * x (t.1 * (esize expr).1 + i2) else 0) i2 := by
      intro i2 _
      simp only [Function.comp_apply]
      rw [h0, Nat.zero_mul, Nat.zero_add]
    rw [lsum_congr _ _ _ hcongr,
      lsum_range_ite (esize expr).1 ρ
        (fun i2 => t.2.2 * x (t.1 * (esize expr).1 + i2)),
      if_pos hρ]
  rw [lsum_congr _ _ _ inner]
  have expand : ∀ k ∈ List.range B.rows,
      (B.triplets.map (fun t : Triplet =>
        if t.1 = k then t.2.2 * unitVec t.2.1 else 0)).sum *
        x (k * (esize expr).1 + ρ) =
      (B.triplets.map
        (fun t => if t.1 = k then t.2.2 * x (k * (esize expr).1 + ρ) else 0)).sum := by
    intro k _
    rw [mul_comm ((B.triplets.map (fun t : Triplet =>
        if t.1 = k then t.2.2 * unitVec t.2.1 else 0)).sum)
        (x (k * (esize expr).1 + ρ)),
      ← lsum_map_mul_left]
    apply lsum_congr
    intro t ht
    by_cases h1 : t.1 = k
    · rw [if_pos h1, if_pos h1, (hBt t ht).2, unitVec_zero, mul_one]
      ring
    · rw [if_neg h1, if_neg h1, mul_zero]
  rw [lsum_congr (fun k => (B.triplets.map (fun t : Triplet =>
        if t.1 = k then t.2.2 * unitVec t.2.1 else 0)).sum * x (k * (esize expr).1 + ρ))
      (fun k => (B.triplets.map
        (fun t => if t.1 = k then t.2.2 * x (k * (esize expr).1 + ρ) else 0)).sum)
      (List.range B.rows) expand,
    ← lsum_flatMap_direct (fun k => B.triplets.map
      (fun t => if t.1 = k then t.2.2 * x (k * (esize expr).1 + ρ) else 0))
      (List.range B.rows),
    lsum_swap_list (List.range B.rows) B.triplets
      (fun k t => if t.1 = k then t.2.2 * x (k * (esize expr).1 + ρ) else 0),
    lsum_flatMap_direct]
  apply lsum_congr
  intro t ht
  have hcongr2 : ∀ k ∈ List.range B.rows,
      (if t.1 = k then t.2.2 * x (k * (esize expr).1 + ρ) else 0) =
      (if k = t.1 then t.2.2 * x (k * (esize expr).1 + ρ) else 0) := by
    intro k _
    by_cases h1 : t.1 = k
    · rw [if_pos h1, if_pos h1.symm]
    · rw [if_neg h1, if_neg (fun hx => h1 hx.symm)]
  rw [lsum_congr (fun k => if t.1 = k then t.2.2 * x (k * (esize expr).1 + ρ) else 0)
      (fun k => if k = t.1 then t.2.2 * x (k * (esize expr).1 + ρ) else 0)
      (List.range B.rows) hcongr2,
    lsum_range_ite B.rows t.1 (fun k => t.2.2 * x (k * (esize expr).1 + ρ)),
    if_pos (hBt t ht).1]

/-! ## The child-accumulation loop of `get_coefficients` -/

/-- A successful run of the child loop preserves the structural invariant
and adds the per-argument contributions to the accumulator's affine
map. -/
theorem accumulate_master (σ : Nat → Nat → ℚ) (d : Nat) :
    ∀ (args : List Expr) (fs : List SparseMatrix) (acc res : CoeffMap),
      accumulateArgs fs args acc = some res →
      FsOK fs args d →
      (∀ a ∈ args, ∀ γ : CoeffMap, get_coefficients a = some γ →
        GoodMap γ (dimE a) ∧ γ ≠ [] ∧
        ∀ i, i < dimE a → evalVec a σ i = coeffSum γ (extendAssign σ) i) →
      GoodMap acc d → KeysDistinct acc →
      GoodMap res d ∧ KeysDistinct res ∧
      (args ≠ [] ∨ acc ≠ [] → res ≠ []) ∧
      ∀ i, coeffSum res (extendAssign σ) i =
        coeffSum acc (extendAssign σ) i + contribSum fs args σ i := by
  intro args
  induction args with
  | nil =>
    intro fs acc res h _ _ hacc hdist
    rw [accumulateArgs, Option.some.injEq] at h
    subst h
    refine ⟨hacc, hdist, ?_, ?_⟩
    · intro hne
      rcases hne with h1 | h1
      · exact absurd rfl h1
      · exact h1
    · intro i
      rw [contribSum, add_zero]
  | cons a rest ih =>
    intro fs acc res h hfs hIH hacc hdist
    rw [accumulateArgs] at h
    cases hγ : get_coefficients a with
    | none =>
      rw [hγ] at h
      simp at h
    | some γ =>
      rw [hγ] at h
      simp only [Option.bind_eq_bind, Option.some_bind] at h
      cases hacc1 : multiply_by_constant (fs.headD ⟨0, 0, []⟩) γ acc with
      | none =>
        rw [hacc1] at h
        simp at h
      | some acc1 =>
        rw [hacc1] at h
        simp only [Option.some_bind] at h
        obtain ⟨hγgood, hγne, hγsem⟩ := hIH a (List.mem_cons_self _ _) γ hγ
        obtain ⟨hFhead, hFtail⟩ := hfs
        have hguard : (fs.headD ⟨0, 0, []⟩).cols = dimE a := by
          obtain ⟨p, hp⟩ := List.exists_mem_of_ne_nil γ hγne
          rw [mbc_guard _ γ acc acc1 hacc1 p hp]
          exact (hγgood p hp).1
        have hgood1 : GoodMap acc1 d :=
          goodMap_mbc _ d ⟨hFhead.1, fun t ht => (hFhead.2 t ht).1⟩ γ acc acc1 hacc1
            hacc (fun p hp => (hγgood p hp).2.2)
        have hdist1 : KeysDistinct acc1 := keysDistinct_mbc _ γ acc acc1 hacc1 hdist
        have hne1 : acc1 ≠ [] := mbc_ne_nil _ γ acc acc1 hacc1 (Or.inr hγne)
        obtain ⟨hg2, hd2, hne2, hsum2⟩ := ih fs.tail acc1 res h hFtail
          (fun b hb => hIH b (List.mem_cons_of_mem _ hb)) hgood1 hdist1
        refine ⟨hg2, hd2, fun _ => hne2 (Or.inr hne1), ?_⟩
        intro i
        rw [hsum2 i, mbc_sum _ γ acc acc1 hacc1 _ i, contribSum]
        have hcongr : (fs.headD ⟨0, 0, []⟩).applyVec
            (fun j => coeffSum γ (extendAssign σ) j) i =
            (fs.headD ⟨0, 0, []⟩).applyVec (evalVec a σ) i := by
          apply applyVec_congr
          · exact fun t ht => (hFhead.2 t ht).2
          · intro j hj
            rw [hguard] at hj
            exact (hγsem j hj).symm
        rw [hcongr]
        ring

/-! ## The per-atom operator lists handed to the child loop -/

theorem fsOK_add (d : Nat) : ∀ args : List Expr,
    FsOK (args.map (fun arg =>
      if dimE arg = 1 then ones_matrix d 1 else identity d)) args d := by
  intro args
  induction args with
  | nil => exact trivial
  | cons a rest ih =>
    rw [List.map_cons]
    by_cases h1 : dimE a = 1
    · rw [if_pos h1]
      exact ⟨⟨rfl, fun t ht => mem_ones ht⟩, ih⟩
    · rw [if_neg h1]
      exact ⟨⟨rfl, fun t ht => mem_identity ht⟩, ih⟩

theorem contribSum_add (d : Nat) (σ : Nat → Nat → ℚ) (i : Nat) (hi : i < d) :
    ∀ args : List Expr,
      contribSum (args.map (fun arg =>
        if dimE arg = 1 then ones_matrix d 1 else identity d)) args σ i =
      addEval args σ i := by
  intro args
  induction args with
  | nil => rw [contribSum, addEval]
  | cons a rest ih =>
    rw [List.map_cons, contribSum, List.headD_cons, List.tail_cons, addEval]
    by_cases h1 : dimE a = 1
    · rw [if_pos h1, if_pos h1, ih, applyVec_ones d 1 (evalVec a σ) i hi,
        show List.range 1 = [0] from rfl]
      simp
    · rw [if_neg h1, if_neg h1, ih, applyVec_identity d (evalVec a σ) i hi]

theorem sum_dims_by_rows : ∀ (ss : List (Nat × Nat)) (R0 : Nat),
    (∀ s ∈ ss, s.1 = R0) →
    (ss.map (fun s => s.1 * s.2)).sum = R0 * (ss.map (fun s => s.2)).sum := by
  intro ss R0
  induction ss with
  | nil => intro _; simp
  | cons s rest ih =>
    intro h
    simp only [List.map_cons, List.sum_cons]
    rw [ih (fun q hq => h q (List.mem_cons_of_mem _ hq)), h s (List.mem_cons_self _ _),
      Nat.mul_add]

theorem stackGo_false_cons (d R ra ca off : Nat) (rest : List (Nat × Nat)) :
    stackGo d R false ((ra, ca) :: rest) off =
      ⟨d, ra * ca, stackTriplets ra ra ca off⟩ ::
        stackGo d R false rest (off + ra * ca) := by
  rw [stackGo]
  simp

theorem stackGo_true_cons (d R ra ca off : Nat) (rest : List (Nat × Nat)) :
    stackGo d R true ((ra, ca) :: rest) off =
      ⟨d, ra * ca, stackTriplets R ra ca off⟩ ::
        stackGo d R true rest (off + ra) := by
  rw [stackGo]
  simp

theorem stack_col_bound {i j ra ca : Nat} (hi : i < ra) (hj : j < ca) :
    i + j * ra < ra * ca := by
  calc i + j * ra < ra + j * ra := by omega
    _ = (j + 1) * ra := by ring
    _ ≤ ca * ra := Nat.mul_le_mul_right ra (by omega)
    _ = ra * ca := Nat.mul_comm ca ra

theorem stack_row_bound_v {i j ra ca off R d : Nat} (hi : i < ra) (hj : j < ca)
    (hwin : off + ra ≤ R) (hcd : ca * R ≤ d) : i + j * R + off < d := by
  calc i + j * R + off < (off + ra) + j * R := by omega
    _ ≤ R + j * R := by omega
    _ = (j + 1) * R := by ring
    _ ≤ ca * R := Nat.mul_le_mul_right R (by omega)
    _ ≤ d := hcd

theorem fsOK_stack_h (d R : Nat) : ∀ (args : List Expr) (off : Nat),
    off + ((sizeList args).map (fun s => s.1 * s.2)).sum ≤ d →
    FsOK (stackGo d R false (sizeList args) off) args d := by
  intro args
  induction args with
  | nil => intro off _; exact trivial
  | cons a rest ih =>
    intro off hoff
    rw [sizeList] at hoff ⊢
    simp only [List.map_cons, List.sum_cons] at hoff
    rw [show esize a = ((esize a).1, (esize a).2) from rfl] at hoff ⊢
    simp only [] at hoff
    rw [stackGo_false_cons]
    refine ⟨⟨rfl, ?_⟩, ih (off + (esize a).1 * (esize a).2) (by omega)⟩
    intro t ht
    obtain ⟨p, q, hp, hq, rfl⟩ := mem_stackTriplets ht
    refine ⟨?_, stack_col_bound hp hq⟩
    have hb := stack_col_bound hp hq
    omega

theorem fsOK_stack_v (d R : Nat) : ∀ (args : List Expr) (off : Nat),
    (∀ s ∈ sizeList args, s.2 * R ≤ d) →
    off + ((sizeList args).map (fun s => s.1)).sum ≤ R →
    FsOK (stackGo d R true (sizeList args) off) args d := by
  intro args
  induction args with
  | nil => intro off _ _; exact trivial
  | cons a rest ih =>
    intro off hs hoff
    rw [sizeList] at hs hoff ⊢
    simp only [List.map_cons, List.sum_cons] at hoff
    rw [show esize a = ((esize a).1, (esize a).2) from rfl] at hs hoff ⊢
    simp only [] at hoff
    have hhead : ((esize a).1, (esize a).2).2 * R ≤ d :=
      hs _ (List.mem_cons_self _ _)
    simp only [] at hhead
    rw [stackGo_true_cons]
    refine ⟨⟨rfl, ?_⟩,
      ih (off + (esize a).1) (fun s hsm => hs s (List.mem_cons_of_mem _ hsm))
        (by omega)⟩
    intro t ht
    obtain ⟨p, q, hp, hq, rfl⟩ := mem_stackTriplets ht
    exact ⟨stack_row_bound_v hp hq (by omega) hhead, stack_col_bound hp hq⟩

theorem contribSum_hstack (d R : Nat) (σ : Nat → Nat → ℚ) (i : Nat) :
    ∀ (args : List Expr) (off : Nat),
      contribSum (stackGo d R false (sizeList args) off) args σ i =
        if off ≤ i then hstackEval args σ (i - off) else 0 := by
  intro args
  induction args with
  | nil =>
    intro off
    rw [contribSum, hstackEval, ite_self]
  | cons a rest ih =>
    intro off
    rw [sizeList, show esize a = ((esize a).1, (esize a).2) from rfl,
      stackGo_false_cons, contribSum, List.headD_cons, List.tail_cons, hstackEval,
      applyVec_stack_h (esize a).1 (esize a).2 off d (evalVec a σ) i,
      ih (off + (esize a).1 * (esize a).2)]
    have hda : (esize a).1 * (esize a).2 = dimE a := rfl
    by_cases h1 : off ≤ i
    · by_cases h2 : i < off + (esize a).1 * (esize a).2
      · rw [if_pos ⟨h1, h2⟩, if_neg (by omega), if_pos h1, if_pos (by omega), add_zero]
      · rw [if_neg (fun hx => h2 hx.2), if_pos (by omega), if_pos h1,
          if_neg (by omega), zero_add,
          show i - (off + (esize a).1 * (esize a).2) = i - off - dimE a from by omega]
    · rw [if_neg (fun hx => h1 hx.1), if_neg (by omega), if_neg h1, add_zero]

theorem contribSum_vstack (d R : Nat) (σ : Nat → Nat → ℚ) (i : Nat) :
    ∀ (args : List Expr) (off : Nat),
      (∀ s ∈ sizeList args, i < R * s.2) →
      off + ((sizeList args).map (fun s => s.1)).sum ≤ R →
      contribSum (stackGo d R true (sizeList args) off) args σ i =
        if off ≤ i % R then vstackEval args σ (i % R - off) (i / R) else 0 := by
  intro args
  induction args with
  | nil =>
    intro off _ _
    rw [contribSum, vstackEval, ite_self]
  | cons a rest ih =>
    intro off hs hoff
    rw [sizeList] at hs hoff ⊢
    simp only [List.map_cons, List.sum_cons] at hoff
    rw [show esize a = ((esize a).1, (esize a).2) from rfl] at hs hoff ⊢
    simp only [] at hoff
    have hhead : i < R * ((esize a).1, (esize a).2).2 := hs _ (List.mem_cons_self _ _)
    simp only [] at hhead
    rw [stackGo_true_cons, contribSum, List.headD_cons, List.tail_cons, vstackEval,
      applyVec_stack_v R (esize a).1 (esize a).2 off d (evalVec a σ) i (by omega)
        hhead,
      ih (off + (esize a).1) (fun s hsm => hs s (List.mem_cons_of_mem _ hsm))
        (by omega)]
    by_cases h1 : off ≤ i % R
    · by_cases h2 : i % R < off + (esize a).1
      · rw [if_pos ⟨h1, h2⟩, if_neg (by omega), if_pos h1, if_pos (by omega), add_zero,
          Nat.add_comm (i % R - off) (i / R * (esize a).1)]
      · rw [if_neg (fun hx => h2 hx.2), if_pos (by omega), if_pos h1,
          if_neg (by omega), zero_add,
          show i % R - (off + (esize a).1) = i % R - off - (esize a).1 from by omega]
    · rw [if_neg (fun hx => h1 hx.1), if_neg (by omega), if_neg h1, add_zero]

/-! ## Positivity of well-formed shapes -/

/-- Every shape-well-formed expression has positive dimensions. -/
theorem wf_pos : ∀ e : Expr, wf e = true → 0 < (esize e).1 ∧ 0 < (esize e).2 := by
  intro e
  induction e using Expr.indOn with
  | hconst r c data =>
    intro hwf
    simp only [wf, Bool.and_eq_true, decide_eq_true_eq] at hwf
    exact hwf
  | hvar v r c =>
    intro hwf
    simp only [wf, Bool.and_eq_true, decide_eq_true_eq] at hwf
    exact hwf
  | hadd args hargs =>
    intro hwf
    rw [wf, Bool.and_eq_true] at hwf
    have hmem : ∀ s ∈ sizeList args, 0 < s.1 ∧ 0 < s.2 := by
      intro s hsm
      rw [sizeList_eq_map] at hsm
      obtain ⟨a, ha, rfl⟩ := List.mem_map.mp hsm
      exact hargs a ha (wfList_mem args hwf.2 a ha)
    exact addShape_pos (sizeList args) hmem
  | hneg e IH =>
    intro hwf
    exact IH hwf
  | hmul l r IHl IHr =>
    intro hwf
    simp only [wf, Bool.and_eq_true, decide_eq_true_eq] at hwf
    exact ⟨(IHl hwf.1.2).1, (IHr hwf.2).2⟩
  | hsum e IH =>
    intro _
    exact ⟨Nat.one_pos, Nat.one_pos⟩
  | hhs args hargs =>
    intro hwf
    simp only [wf, Bool.and_eq_true] at hwf
    obtain ⟨⟨hne, _hall⟩, hwl⟩ := hwf
    cases args with
    | nil => simp at hne
    | cons a0 rest =>
      have h0 : 0 < (esize a0).1 ∧ 0 < (esize a0).2 :=
        hargs a0 (List.mem_cons_self _ _)
          (wfList_mem _ hwl a0 (List.mem_cons_self _ _))
      constructor
      · show 0 < ((sizeList (a0 :: rest)).headD (0, 0)).1
        rw [sizeList, List.headD_cons]
        exact h0.1
      · show 0 < ((sizeList (a0 :: rest)).map (fun s => s.2)).sum
        rw [sizeList, List.map_cons, List.sum_cons]
        omega
  | hvs args hargs =>
    intro hwf
    simp only [wf, Bool.and_eq_true] at hwf
    obtain ⟨⟨hne, _hall⟩, hwl⟩ := hwf
    cases args with
    | nil => simp at hne
    | cons a0 rest =>
      have h0 : 0 < (esize a0).1 ∧ 0 < (esize a0).2 :=
        hargs a0 (List.mem_cons_self _ _)
          (wfList_mem _ hwl a0 (List.mem_cons_self _ _))
      constructor
      · show 0 < ((sizeList (a0 :: rest)).map (fun s => s.1)).sum
        rw [sizeList, List.map_cons, List.sum_cons]
        omega
      · show 0 < ((sizeList (a0 :: rest)).headD (0, 0)).2
        rw [sizeList, List.headD_cons]
        exact h0.2
  | hresh e r c IH =>
    intro hwf
    simp only [wf, Bool.and_eq_true, decide_eq_true_eq] at hwf
    exact ⟨hwf.1.1.1, hwf.1.1.2⟩
  | hidx e rs cs IH =>
    intro hwf
    simp only [wf, Bool.and_eq_true, decide_eq_true_eq] at hwf
    exact ⟨hwf.1.1.2, hwf.1.2⟩
  | hdm e IH =>
    intro hwf
    simp only [wf, Bool.and_eq_true, decide_eq_true_eq] at hwf
    exact ⟨(IH hwf.2).1, Nat.one_pos⟩
  | hdv e IH =>
    intro hwf
    simp only [wf, Bool.and_eq_true, decide_eq_true_eq] at hwf
    exact ⟨(IH hwf.2).1, (IH hwf.2).1⟩
  | htr e IH =>
    intro hwf
    exact ⟨(IH hwf).2, (IH hwf).1⟩
  | habs e IH => intro hwf; simp [wf] at hwf
  | hpn p e IH => intro hwf; simp [wf] at hwf
  | hqol x y IHx IHy => intro hwf; simp [wf] at hwf
  | hleq l r IHl IHr => intro hwf; simp [wf] at hwf
  | hsoc v w IHv IHw => intro hwf; simp [wf] at hwf

/-! ## The extractor invariant -/

/-- The main induction: on every shape-well-formed expression on which
`get_coefficients` succeeds, the returned map has every matrix with
`dim(e)` rows and in-range triplet rows, a single-column constant entry,
distinct keys, is nonempty, and represents the evaluation of the
expression. -/
theorem extract_inv : ∀ e : Expr, wf e = true → ∀ m : CoeffMap,
    get_coefficients e = some m →
    GoodMap m (dimE e) ∧ m ≠ [] ∧ KeysDistinct m ∧
    ∀ (σ : Nat → Nat → ℚ) (i : Nat), i < dimE e →
      evalVec e σ i = coeffSum m (extendAssign σ) i := by
  intro e
  induction e using Expr.indOn with
  | hconst r c data =>
    intro hwf m hc
    rw [get_coefficients, Option.some.injEq] at hc
    subst hc
    refine ⟨?_, by simp, List.pairwise_singleton _ _, ?_⟩
    · intro p hp
      rw [List.mem_singleton] at hp
      subst hp
      refine ⟨rfl, ?_, fun _ => ⟨rfl, ?_⟩⟩
      · intro t ht
        simp only [to_vector, List.mem_filterMap, List.mem_range] at ht
        obtain ⟨k, hk, hsome⟩ := ht
        by_cases hz : nth2 data (k % r) (k / r) = 0
        · rw [if_pos hz] at hsome; cases hsome
        · rw [if_neg hz, Option.some.injEq] at hsome
          subst hsome
          exact hk
      · intro t ht
        simp only [to_vector, List.mem_filterMap, List.mem_range] at ht
        obtain ⟨k, hk, hsome⟩ := ht
        by_cases hz : nth2 data (k % r) (k / r) = 0
        · rw [if_pos hz] at hsome; cases hsome
        · rw [if_neg hz, Option.some.injEq] at hsome
          subst hsome
          rfl
    · intro σ i hi
      simp only [coeffSum, List.map_cons, List.map_nil, List.sum_cons, List.sum_nil,
        add_zero, extendAssign_const]
      rw [applyVec_to_vector r c data i hi]
      rfl
  | hvar v r c =>
    intro hwf m hc
    rw [get_coefficients, Option.some.injEq] at hc
    subst hc
    refine ⟨?_, by simp, List.pairwise_singleton _ _, ?_⟩
    · intro p hp
      rw [List.mem_singleton] at hp
      subst hp
      refine ⟨rfl, fun t ht => (mem_identity ht).1, fun hk => absurd hk ?_⟩
      show ¬((v : Int) = (-1 : Int))
      omega
    · intro σ i hi
      simp only [coeffSum, List.map_cons, List.map_nil, List.sum_cons, List.sum_nil,
        add_zero, extendAssign_nat]
      rw [applyVec_identity (r * c) (σ v) i hi]
      rfl
  | hadd args hargs =>
    intro hwf m hc
    rw [wf, Bool.and_eq_true] at hwf
    rw [get_coefficients] at hc
    have hIH : ∀ (σ : Nat → Nat → ℚ), ∀ a ∈ args, ∀ γ : CoeffMap,
        get_coefficients a = some γ →
        GoodMap γ (dimE a) ∧ γ ≠ [] ∧
        ∀ i, i < dimE a → evalVec a σ i = coeffSum γ (extendAssign σ) i := by
      intro σ a ha γ hγ
      obtain ⟨hg, hne, _hd, hsem⟩ := hargs a ha (wfList_mem args hwf.2 a ha) γ hγ
      exact ⟨hg, hne, fun i hi => hsem σ i hi⟩
    have hargs_ne : args ≠ [] := by
      cases args with
      | nil => simp at hwf
      | cons a0 rest => simp
    have hfs : FsOK (get_add_coefficients (.add args)) args (dimE (.add args)) :=
      fsOK_add (dimE (.add args)) args
    obtain ⟨hg, hd, hne, _⟩ := accumulate_master (fun _ _ => 0) (dimE (.add args))
      args (get_add_coefficients (.add args)) [] m hc hfs (hIH _)
      (fun p hp => absurd hp (List.not_mem_nil p)) List.Pairwise.nil
    refine ⟨hg, hne (Or.inl hargs_ne), hd, ?_⟩
    intro σ i hi
    obtain ⟨_, _, _, hsum2⟩ := accumulate_master σ (dimE (.add args))
      args (get_add_coefficients (.add args)) [] m hc hfs (hIH σ)
      (fun p hp => absurd hp (List.not_mem_nil p)) List.Pairwise.nil
    rw [hsum2 i, coeffSum_nil, zero_add,
      show get_add_coefficients (.add args) = args.map (fun arg =>
        if dimE arg = 1 then ones_matrix (dimE (.add args)) 1
        else identity (dimE (.add args))) from rfl,
      contribSum_add (dimE (.add args)) σ i hi args]
    rfl
  | hneg e IH =>
    intro hwf m hc
    rw [get_coefficients] at hc
    cases hγ : get_coefficients e with
    | none => rw [hγ] at hc; simp at hc
    | some γ =>
      rw [hγ] at hc
      simp only [Option.bind_eq_bind, Option.some_bind] at hc
      obtain ⟨hg, hne, _hd, hsem⟩ := IH hwf γ hγ
      have hF : ∀ t ∈ (get_neg_coefficients (.neg e)).triplets,
          t.1 < dimE (.neg e) ∧ t.2.1 < (get_neg_coefficients (.neg e)).cols :=
        fun t ht => mem_scalar ht
      obtain ⟨hg2, hne2, hd2, _hc2, hsum⟩ := unary_master
        (get_neg_coefficients (.neg e)) γ m (dimE (.neg e)) (dimE e) hc hg hne rfl hF
      refine ⟨hg2, hne2, hd2, ?_⟩
      intro σ i hi
      rw [hsum (extendAssign σ) (evalVec e σ) (fun j hj => (hsem σ j hj).symm) i,
        show get_neg_coefficients (.neg e) = scalar_matrix (-1) (dimE (.neg e)) from
          rfl,
        applyVec_scalar (-1) (dimE (.neg e)) (evalVec e σ) i hi]
      show -(evalVec e σ i) = -1 * evalVec e σ i
      ring
  | hsum e IH =>
    intro hwf m hc
    rw [get_coefficients] at hc
    cases hγ : get_coefficients e with
    | none => rw [hγ] at hc; simp at hc
    | some γ =>
      rw [hγ] at hc
      simp only [Option.bind_eq_bind, Option.some_bind] at hc
      obtain ⟨hg, hne, _hd, hsem⟩ := IH hwf γ hγ
      have hF : ∀ t ∈ (get_sum_entries_coefficients (.sum_entries e)).triplets,
          t.1 < dimE (.sum_entries e) ∧
          t.2.1 < (get_sum_entries_coefficients (.sum_entries e)).cols :=
        fun t ht => mem_ones ht
      obtain ⟨hg2, hne2, hd2, _hc2, hsum⟩ := unary_master
        (get_sum_entries_coefficients (.sum_entries e)) γ m (dimE (.sum_entries e))
        (dimE e) hc hg hne rfl hF
      refine ⟨hg2, hne2, hd2, ?_⟩
      intro σ i hi
      rw [hsum (extendAssign σ) (evalVec e σ) (fun j hj => (hsem σ j hj).symm) i]
      have h0 : i = 0 := by
        have h1 : i < 1 := hi
        omega
      subst h0
      rw [show get_sum_entries_coefficients (.sum_entries e) =
          ones_matrix 1 (dimE e) from rfl,
        applyVec_ones 1 (dimE e) (evalVec e σ) 0 Nat.one_pos]
      rfl
  | hmul l r IHl IHr =>
    intro hwf m hc
    simp only [wf, Bool.and_eq_true, decide_eq_true_eq] at hwf
    obtain ⟨⟨hlr, hwl⟩, hwr⟩ := hwf
    have hposl := wf_pos l hwl
    have hposr := wf_pos r hwr
    rw [get_coefficients] at hc
    cases hL : get_coefficients l with
    | none => rw [hL] at hc; simp at hc
    | some L =>
      cases hR : get_coefficients r with
      | none => rw [hL, hR] at hc; simp at hc
      | some R2 =>
        rw [hL, hR] at hc
        simp only [Option.bind_eq_bind, Option.some_bind] at hc
        obtain ⟨hLg, hLne, _hLd, hLsem⟩ := IHl hwl L hL
        obtain ⟨hRg, hRne, _hRd, hRsem⟩ := IHr hwr R2 hR
        by_cases hLc : is_constant L = true
        · rw [if_pos hLc] at hc
          have hLeq := is_constant_destruct L hLc
          set B := constPart L with hB
          have hBfacts := hLg (kConstCoefficientId, B)
            (by rw [hLeq]; exact List.mem_cons_self _ _)
          have hBrows : B.rows = dimE l := hBfacts.1
          have hBconst := hBfacts.2.2 rfl
          have hBcols : B.cols = 1 := hBconst.1
          have hBt : ∀ t ∈ B.triplets, t.1 < B.rows ∧ t.2.1 = 0 := by
            intro t ht
            refine ⟨?_, hBconst.2 t ht⟩
            rw [hBrows]
            exact hBfacts.2.1 t ht
          have hFcols : (get_left_mul_coefficients (.mul l r) B).cols = dimE r := by
            obtain ⟨p, hp⟩ := List.exists_mem_of_ne_nil R2 hRne
            rw [mbc_guard _ R2 [] m hc p hp]
            exact (hRg p hp).1
          have hFcols2 : (get_left_mul_coefficients (.mul l r) B).cols =
              (esize (.mul l r)).2 * B.cols := rfl
          have hr1 : (esize r).1 = 1 := by
            have h1 : (esize (.mul l r)).2 * B.cols = dimE r := by
              rw [← hFcols2, hFcols]
            rw [hBcols, Nat.mul_one] at h1
            have h1' : (esize r).1 * (esize r).2 = 1 * (esize r).2 := by
              rw [Nat.one_mul]
              exact h1.symm
            exact Nat.eq_of_mul_eq_mul_right hposr.2 h1'
          have hl2 : (esize l).2 = 1 := by rw [hlr, hr1]
          have hFrows : (get_left_mul_coefficients (.mul l r) B).rows =
              dimE (.mul l r) := by
            show (esize (.mul l r)).2 * B.rows = dimE (.mul l r)
            rw [hBrows]
            show (esize r).2 * dimE l = (esize l).1 * (esize r).2
            rw [show dimE l = (esize l).1 * (esize l).2 from rfl, hl2, Nat.mul_one]
            exact Nat.mul_comm _ _
          have hFt : ∀ t ∈ (get_left_mul_coefficients (.mul l r) B).triplets,
              t.1 < dimE (.mul l r) ∧
              t.2.1 < (get_left_mul_coefficients (.mul l r) B).cols := by
            intro t ht
            obtain ⟨k, hk, u, hu, rfl⟩ := mem_left_mul ht
            constructor
            · rw [← hFrows]
              show k * B.rows + u.1 < (esize (.mul l r)).2 * B.rows
              have hu1 : u.1 < B.rows := (hBt u hu).1
              calc k * B.rows + u.1 < k * B.rows + B.rows := by omega
                _ = (k + 1) * B.rows := by ring
                _ ≤ (esize (.mul l r)).2 * B.rows :=
                  Nat.mul_le_mul_right _ (by omega)
            · rw [hFcols2]
              show k * B.cols + u.2.1 < (esize (.mul l r)).2 * B.cols
              rw [(hBt u hu).2, hBcols]
              omega
          obtain ⟨hg2, hne2, hd2, _hc2, hsum⟩ := unary_master
            (get_left_mul_coefficients (.mul l r) B) R2 m (dimE (.mul l r)) (dimE r)
            hc hRg hRne hFrows hFt
          refine ⟨hg2, hne2, hd2, ?_⟩
          intro σ i hi
          rw [hsum (extendAssign σ) (evalVec r σ) (fun j hj => (hRsem σ j hj).symm) i]
          have hiB : i < (esize (.mul l r)).2 * B.rows := by
            have h2 : (esize (.mul l r)).2 * B.rows = dimE (.mul l r) := hFrows
            omega
          rw [applyVec_left_mul (.mul l r) B hBcols hBt (evalVec r σ) i hiB]
          show ((List.range (esize l).2).map (fun k =>
            evalVec l σ (k * (esize l).1 + i % (esize l).1) *
              evalVec r σ ((i / (esize l).1) * (esize l).2 + k))).sum = _
          rw [hl2, show List.range 1 = [0] from rfl]
          simp only [List.map_cons, List.map_nil, List.sum_cons, List.sum_nil,
            add_zero, Nat.zero_mul, Nat.zero_add, Nat.mul_one, Nat.add_zero]
          have hBr1 : B.rows = (esize l).1 := by
            rw [hBrows]
            show (esize l).1 * (esize l).2 = (esize l).1
            rw [hl2, Nat.mul_one]
          rw [hBr1]
          congr 1
          have hp1 : 0 < (esize l).1 := hposl.1
          have hmlt : i % (esize l).1 < dimE l := by
            have h3 : i % (esize l).1 < (esize l).1 := Nat.mod_lt i hp1
            show i % (esize l).1 < (esize l).1 * (esize l).2
            rw [hl2, Nat.mul_one]
            exact h3
          have hsem1 := hLsem σ (i % (esize l).1) hmlt
          rw [hLeq] at hsem1
          rw [hsem1]
          simp only [coeffSum, List.map_cons, List.map_nil, List.sum_cons,
            List.sum_nil, add_zero, extendAssign_const]
        · rw [if_neg hLc] at hc
          by_cases hRc : is_constant R2 = true
          · rw [if_pos hRc] at hc
            have hReq := is_constant_destruct R2 hRc
            set B := constPart R2 with hB
            have hBfacts := hRg (kConstCoefficientId, B)
              (by rw [hReq]; exact List.mem_cons_self _ _)
            have hBrows : B.rows = dimE r := hBfacts.1
            have hBconst := hBfacts.2.2 rfl
            have hBcols : B.cols = 1 := hBconst.1
            have hBt : ∀ t ∈ B.triplets, t.1 < B.rows ∧ t.2.1 = 0 := by
              intro t ht
              refine ⟨?_, hBconst.2 t ht⟩
              rw [hBrows]
              exact hBfacts.2.1 t ht
            have hFcols : (get_right_mul_coefficients (.mul l r) B).cols = dimE l := by
              obtain ⟨p, hp⟩ := List.exists_mem_of_ne_nil L hLne
              rw [mbc_guard _ L [] m hc p hp]
              exact (hLg p hp).1
            have hFcols2 : (get_right_mul_coefficients (.mul l r) B).cols =
                B.rows * (esize (.mul l r)).1 := rfl
            have hc2 : (esize r).2 = 1 := by
              have h1 : B.rows * (esize (.mul l r)).1 = dimE l := by
                rw [← hFcols2, hFcols]
              rw [hBrows] at h1
              have h2 : ((esize r).1 * (esize r).2) * (esize l).1 =
                  (esize l).1 * (esize l).2 := h1
              rw [hlr] at h2
              have hl1 : 0 < (esize l).1 := hposl.1
              have hr1p : 0 < (esize r).1 := hposr.1
              have h3 : (esize r).2 * ((esize r).1 * (esize l).1) =
                  1 * ((esize r).1 * (esize l).1) := by
                rw [Nat.one_mul]
                calc (esize r).2 * ((esize r).1 * (esize l).1)
                    = (esize r).1 * (esize r).2 * (esize l).1 := by ring
                  _ = (esize l).1 * (esize r).1 := h2
                  _ = (esize r).1 * (esize l).1 := Nat.mul_comm _ _
              exact Nat.eq_of_mul_eq_mul_right (Nat.mul_pos hr1p hl1) h3
            have hFrows : (get_right_mul_coefficients (.mul l r) B).rows =
                dimE (.mul l r) := by
              show B.cols * (esize (.mul l r)).1 = dimE (.mul l r)
              rw [hBcols, Nat.one_mul]
              show (esize l).1 = (esize l).1 * (esize r).2
              rw [hc2, Nat.mul_one]
            have hFt : ∀ t ∈ (get_right_mul_coefficients (.mul l r) B).triplets,
                t.1 < dimE (.mul l r) ∧
                t.2.1 < (get_right_mul_coefficients (.mul l r) B).cols := by
              intro t ht
              obtain ⟨u, hu, k, hk, rfl⟩ := mem_right_mul ht
              have hu0 : u.2.1 = 0 := (hBt u hu).2
              have hu1 : u.1 < B.rows := (hBt u hu).1
              constructor
              · rw [← hFrows]
                show u.2.1 * (esize (.mul l r)).1 + k <
                  B.cols * (esize (.mul l r)).1
                rw [hu0, hBcols]
                omega
              · rw [hFcols2]
                show u.1 * (esize (.mul l r)).1 + k <
                  B.rows * (esize (.mul l r)).1
                calc u.1 * (esize (.mul l r)).1 + k
                    < u.1 * (esize (.mul l r)).1 + (esize (.mul l r)).1 := by omega
                  _ = (u.1 + 1) * (esize (.mul l r)).1 := by ring
                  _ ≤ B.rows * (esize (.mul l r)).1 :=
                    Nat.mul_le_mul_right _ (by omega)
            obtain ⟨hg2, hne2, hd2, _hc3, hsum⟩ := unary_master
              (get_right_mul_coefficients (.mul l r) B) L m (dimE (.mul l r))
              (dimE l) hc hLg hLne hFrows hFt
            refine ⟨hg2, hne2, hd2, ?_⟩
            intro σ i hi
            rw [hsum (extendAssign σ) (evalVec l σ)
              (fun j hj => (hLsem σ j hj).symm) i]
            have hin1 : i < (esize l).1 := by
              have h3 : i < (esize l).1 * (esize r).2 := hi
              have h4 : (esize l).1 * (esize r).2 = (esize l).1 := by
                rw [hc2, Nat.mul_one]
              omega
            have hin1' : i < (esize (.mul l r)).1 := hin1
            rw [applyVec_right_mul (.mul l r) B hBcols hBt (evalVec l σ) i hin1']
            show ((List.range (esize l).2).map (fun k =>
              evalVec l σ (k * (esize l).1 + i % (esize l).1) *
                evalVec r σ ((i / (esize l).1) * (esize l).2 + k))).sum = _
            have hm : i % (esize l).1 = i := Nat.mod_eq_of_lt hin1
            have hdv : i / (esize l).1 = 0 := Nat.div_eq_of_lt hin1
            rw [hm, hdv, Nat.zero_mul]
            have hBr : B.rows = (esize l).2 := by
              rw [hBrows, hlr]
              show (esize r).1 * (esize r).2 = (esize r).1
              rw [hc2, Nat.mul_one]
            rw [← hBr]
            apply lsum_congr
            intro k hk
            have hkB : k < B.rows := List.mem_range.mp hk
            show evalVec l σ (k * (esize l).1 + i) * evalVec r σ (0 + k) =
              B.applyVec unitVec k * evalVec l σ (k * (esize l).1 + i)
            rw [Nat.zero_add]
            have hkd : k < dimE r := by
              rw [← hBrows]
              exact hkB
            have hsem2 := hRsem σ k hkd
            rw [hReq] at hsem2
            rw [hsem2]
            simp only [coeffSum, List.map_cons, List.map_nil, List.sum_cons,
              List.sum_nil, add_zero, extendAssign_const]
            ring
          · rw [if_neg hRc] at hc
            cases hc
  | hhs args hargs =>
    intro hwf m hc
    simp only [wf, Bool.and_eq_true] at hwf
    obtain ⟨⟨hne0, hall⟩, hwl⟩ := hwf
    rw [get_coefficients] at hc
    rw [List.all_eq_true] at hall
    have hall' : ∀ s ∈ sizeList args,
        s.1 = ((sizeList args).headD (0, 0)).1 ∧ 0 < s.2 := by
      intro s hsm
      have h1 := hall s hsm
      simp only [Bool.and_eq_true, decide_eq_true_eq] at h1
      exact h1
    have hargs_ne : args ≠ [] := by
      cases args with
      | nil => simp at hne0
      | cons a0 rest => simp
    have hIH : ∀ (σ : Nat → Nat → ℚ), ∀ a ∈ args, ∀ γ : CoeffMap,
        get_coefficients a = some γ →
        GoodMap γ (dimE a) ∧ γ ≠ [] ∧
        ∀ i, i < dimE a → evalVec a σ i = coeffSum γ (extendAssign σ) i := by
      intro σ a ha γ hγ
      obtain ⟨hg, hne, _hd, hsem⟩ := hargs a ha (wfList_mem args hwl a ha) γ hγ
      exact ⟨hg, hne, fun i hi => hsem σ i hi⟩
    have hsum_dims : ((sizeList args).map (fun s => s.1 * s.2)).sum =
        dimE (.hstack args) := by
      rw [sum_dims_by_rows (sizeList args) (((sizeList args).headD (0, 0)).1)
        (fun s hsm => (hall' s hsm).1)]
      rfl
    have hfs : FsOK (get_hstack_coefficients (.hstack args)) args
        (dimE (.hstack args)) :=
      fsOK_stack_h (dimE (.hstack args)) ((esize (.hstack args)).1) args 0 (by omega)
    obtain ⟨hg, hd, hne, _⟩ := accumulate_master (fun _ _ => 0) (dimE (.hstack args))
      args (get_hstack_coefficients (.hstack args)) [] m hc hfs (hIH _)
      (fun p hp => absurd hp (List.not_mem_nil p)) List.Pairwise.nil
    refine ⟨hg, hne (Or.inl hargs_ne), hd, ?_⟩
    intro σ i hi
    obtain ⟨_, _, _, hsum2⟩ := accumulate_master σ (dimE (.hstack args))
      args (get_hstack_coefficients (.hstack args)) [] m hc hfs (hIH σ)
      (fun p hp => absurd hp (List.not_mem_nil p)) List.Pairwise.nil
    rw [hsum2 i, coeffSum_nil, zero_add,
      show get_hstack_coefficients (.hstack args) =
        stackGo (dimE (.hstack args)) ((esize (.hstack args)).1) false
          (sizeList args) 0 from rfl,
      contribSum_hstack (dimE (.hstack args)) ((esize (.hstack args)).1) σ i args 0,
      if_pos (Nat.zero_le i), Nat.sub_zero]
    rfl
  | hvs args hargs =>
    intro hwf m hc
    simp only [wf, Bool.and_eq_true] at hwf
    obtain ⟨⟨hne0, hall⟩, hwl⟩ := hwf
    rw [get_coefficients] at hc
    rw [List.all_eq_true] at hall
    have hall' : ∀ s ∈ sizeList args,
        s.2 = ((sizeList args).headD (0, 0)).2 ∧ 0 < s.1 := by
      intro s hsm
      have h1 := hall s hsm
      simp only [Bool.and_eq_true, decide_eq_true_eq] at h1
      exact h1
    have hargs_ne : args ≠ [] := by
      cases args with
      | nil => simp at hne0
      | cons a0 rest => simp
    have hIH : ∀ (σ : Nat → Nat → ℚ), ∀ a ∈ args, ∀ γ : CoeffMap,
        get_coefficients a = some γ →
        GoodMap γ (dimE a) ∧ γ ≠ [] ∧
        ∀ i, i < dimE a → evalVec a σ i = coeffSum γ (extendAssign σ) i := by
      intro σ a ha γ hγ
      obtain ⟨hg, hne, _hd, hsem⟩ := hargs a ha (wfList_mem args hwl a ha) γ hγ
      exact ⟨hg, hne, fun i hi => hsem σ i hi⟩
    have hdim : dimE (.vstack args) =
        (esize (.vstack args)).1 * ((sizeList args).headD (0, 0)).2 := rfl
    have hRsum : ((sizeList args).map (fun s => s.1)).sum =
        (esize (.vstack args)).1 := rfl
    have hcols_bound : ∀ s ∈ sizeList args,
        s.2 * (esize (.vstack args)).1 ≤ dimE (.vstack args) := by
      intro s hsm
      rw [(hall' s hsm).1, hdim,
        Nat.mul_comm (((sizeList args).headD (0, 0)).2) ((esize (.vstack args)).1)]
    have hfs : FsOK (get_vstack_coefficients (.vstack args)) args
        (dimE (.vstack args)) :=
      fsOK_stack_v (dimE (.vstack args)) ((esize (.vstack args)).1) args 0
        hcols_bound (by omega)
    obtain ⟨hg, hd, hne, _⟩ := accumulate_master (fun _ _ => 0) (dimE (.vstack args))
      args (get_vstack_coefficients (.vstack args)) [] m hc hfs (hIH _)
      (fun p hp => absurd hp (List.not_mem_nil p)) List.Pairwise.nil
    refine ⟨hg, hne (Or.inl hargs_ne), hd, ?_⟩
    intro σ i hi
    obtain ⟨_, _, _, hsum2⟩ := accumulate_master σ (dimE (.vstack args))
      args (get_vstack_coefficients (.vstack args)) [] m hc hfs (hIH σ)
      (fun p hp => absurd hp (List.not_mem_nil p)) List.Pairwise.nil
    have hival : ∀ s ∈ sizeList args, i < (esize (.vstack args)).1 * s.2 := by
      intro s hsm
      rw [(hall' s hsm).1, ← hdim]
      exact hi
    rw [hsum2 i, coeffSum_nil, zero_add,
      show get_vstack_coefficients (.vstack args) =
        stackGo (dimE (.vstack args)) ((esize (.vstack args)).1) true
          (sizeList args) 0 from rfl,
      contribSum_vstack (dimE (.vstack args)) ((esize (.vstack args)).1) σ i args 0
        hival (by omega),
      if_pos (Nat.zero_le _), Nat.sub_zero]
    rfl
  | hresh e r c IH =>
    intro hwf m hc
    simp only [wf, Bool.and_eq_true, decide_eq_true_eq] at hwf
    obtain ⟨⟨⟨hr, hcpos⟩, hrc⟩, hwe⟩ := hwf
    rw [get_coefficients] at hc
    cases hγ : get_coefficients e with
    | none => rw [hγ] at hc; simp at hc
    | some γ =>
      rw [hγ] at hc
      simp only [Option.bind_eq_bind, Option.some_bind] at hc
      obtain ⟨hg, hne, _hd, hsem⟩ := IH hwe γ hγ
      have hF : ∀ t ∈ (get_reshape_coefficients (.reshape e r c)).triplets,
          t.1 < dimE (.reshape e r c) ∧
          t.2.1 < (get_reshape_coefficients (.reshape e r c)).cols :=
        fun t ht => mem_identity ht
      obtain ⟨hg2, hne2, hd2, _hc2, hsum⟩ := unary_master
        (get_reshape_coefficients (.reshape e r c)) γ m (dimE (.reshape e r c))
        (dimE e) hc hg hne rfl hF
      refine ⟨hg2, hne2, hd2, ?_⟩
      intro σ i hi
      rw [hsum (extendAssign σ) (evalVec e σ) (fun j hj => (hsem σ j hj).symm) i,
        show get_reshape_coefficients (.reshape e r c) =
          identity (dimE (.reshape e r c)) from rfl,
        applyVec_identity (dimE (.reshape e r c)) (evalVec e σ) i hi]
      rfl
  | hidx e rs cs IH =>
    intro hwf m hc
    simp only [wf, Bool.and_eq_true, decide_eq_true_eq] at hwf
    obtain ⟨⟨⟨⟨hrs, hcs⟩, hlr1⟩, hlc1⟩, hwe⟩ := hwf
    rw [get_coefficients] at hc
    cases hγ : get_coefficients e with
    | none => rw [hγ] at hc; simp at hc
    | some γ =>
      rw [hγ] at hc
      simp only [Option.bind_eq_bind, Option.some_bind] at hc
      obtain ⟨hg, hne, _hd, hsem⟩ := IH hwe γ hγ
      have hlen : (indexSel (esize e).1 (esize e).2 rs cs).length =
          dimE (.index e rs cs) := by
        rw [indexSel_length]
        exact Nat.mul_comm _ _
      have hF : ∀ t ∈ (get_index_coefficients (.index e rs cs)).triplets,
          t.1 < dimE (.index e rs cs) ∧
          t.2.1 < (get_index_coefficients (.index e rs cs)).cols := by
        intro t ht
        have ht' : t ∈ indexTriplets (indexSel (esize e).1 (esize e).2 rs cs) 0 := ht
        obtain ⟨h1, h2, h3⟩ := mem_indexTriplets _ 0 t ht'
        constructor
        · rw [← hlen]
          omega
        · show t.2.1 < (esize e).1 * (esize e).2
          exact indexSel_mem_bound _ _ rs cs t.2.1 h3
      obtain ⟨hg2, hne2, hd2, _hc2, hsum⟩ := unary_master
        (get_index_coefficients (.index e rs cs)) γ m (dimE (.index e rs cs))
        (dimE e) hc hg hne rfl hF
      refine ⟨hg2, hne2, hd2, ?_⟩
      intro σ i hi
      rw [hsum (extendAssign σ) (evalVec e σ) (fun j hj => (hsem σ j hj).symm) i,
        show get_index_coefficients (.index e rs cs) =
          (⟨dimE (.index e rs cs), (esize e).1 * (esize e).2,
            indexTriplets (indexSel (esize e).1 (esize e).2 rs cs) 0⟩ :
            SparseMatrix) from rfl,
        indexTriplets_applyVec (dimE (.index e rs cs)) ((esize e).1 * (esize e).2)
          (indexSel (esize e).1 (esize e).2 rs cs) 0 (evalVec e σ) i,
        if_pos ⟨Nat.zero_le i, by rw [Nat.zero_add, hlen]; exact hi⟩]
      rfl
  | hdm e IH =>
    intro hwf m hc
    simp only [wf, Bool.and_eq_true, decide_eq_true_eq] at hwf
    obtain ⟨hsq, hwe⟩ := hwf
    rw [get_coefficients] at hc
    cases hγ : get_coefficients e with
    | none => rw [hγ] at hc; simp at hc
    | some γ =>
      rw [hγ] at hc
      simp only [Option.bind_eq_bind, Option.some_bind] at hc
      obtain ⟨hg, hne, _hd, hsem⟩ := IH hwe γ hγ
      have hFr : (get_diag_mat_coefficients (.diag_mat e)).rows =
          dimE (.diag_mat e) := by
        show (esize e).1 = (esize e).1 * 1
        rw [Nat.mul_one]
      have hF : ∀ t ∈ (get_diag_mat_coefficients (.diag_mat e)).triplets,
          t.1 < dimE (.diag_mat e) ∧
          t.2.1 < (get_diag_mat_coefficients (.diag_mat e)).cols := by
        intro t ht
        simp only [get_diag_mat_coefficients, List.mem_map, List.mem_range] at ht
        obtain ⟨k, hk, rfl⟩ := ht
        constructor
        · show k < (esize (.diag_mat e)).1 * 1
          omega
        · show k * (esize (.diag_mat e)).1 + k <
            (esize (.diag_mat e)).1 * (esize (.diag_mat e)).1
          calc k * (esize (.diag_mat e)).1 + k
              < k * (esize (.diag_mat e)).1 + (esize (.diag_mat e)).1 := by omega
            _ = (k + 1) * (esize (.diag_mat e)).1 := by ring
            _ ≤ (esize (.diag_mat e)).1 * (esize (.diag_mat e)).1 :=
              Nat.mul_le_mul_right _ (by omega)
      obtain ⟨hg2, hne2, hd2, _hc2, hsum⟩ := unary_master
        (get_diag_mat_coefficients (.diag_mat e)) γ m (dimE (.diag_mat e)) (dimE e)
        hc hg hne hFr hF
      refine ⟨hg2, hne2, hd2, ?_⟩
      intro σ i hi
      rw [hsum (extendAssign σ) (evalVec e σ) (fun j hj => (hsem σ j hj).symm) i]
      have hin : i < (esize e).1 := by
        have h2 : i < (esize e).1 * 1 := hi
        omega
      rw [show get_diag_mat_coefficients (.diag_mat e) =
          (⟨(esize e).1, (esize e).1 * (esize e).1,
            (List.range (esize e).1).map
              (fun j => (j, j * (esize e).1 + j, (1 : ℚ)))⟩ : SparseMatrix) from rfl,
        applyVec_diag_mat (esize e).1 (evalVec e σ) i hin]
      rfl
  | hdv e IH =>
    intro hwf m hc
    simp only [wf, Bool.and_eq_true, decide_eq_true_eq] at hwf
    obtain ⟨hcol, hwe⟩ := hwf
    rw [get_coefficients] at hc
    cases hγ : get_coefficients e with
    | none => rw [hγ] at hc; simp at hc
    | some γ =>
      rw [hγ] at hc
      simp only [Option.bind_eq_bind, Option.some_bind] at hc
      obtain ⟨hg, hne, _hd, hsem⟩ := IH hwe γ hγ
      have hF : ∀ t ∈ (get_diag_vec_coefficients (.diag_vec e)).triplets,
          t.1 < dimE (.diag_vec e) ∧
          t.2.1 < (get_diag_vec_coefficients (.diag_vec e)).cols := by
        intro t ht
        simp only [get_diag_vec_coefficients, List.mem_map, List.mem_range] at ht
        obtain ⟨k, hk, rfl⟩ := ht
        constructor
        · show k * (esize (.diag_vec e)).1 + k <
            (esize (.diag_vec e)).1 * (esize (.diag_vec e)).1
          calc k * (esize (.diag_vec e)).1 + k
              < k * (esize (.diag_vec e)).1 + (esize (.diag_vec e)).1 := by omega
            _ = (k + 1) * (esize (.diag_vec e)).1 := by ring
            _ ≤ (esize (.diag_vec e)).1 * (esize (.diag_vec e)).1 :=
              Nat.mul_le_mul_right _ (by omega)
        · show k < (esize (.diag_vec e)).1
          omega
      obtain ⟨hg2, hne2, hd2, _hc2, hsum⟩ := unary_master
        (get_diag_vec_coefficients (.diag_vec e)) γ m (dimE (.diag_vec e)) (dimE e)
        hc hg hne rfl hF
      refine ⟨hg2, hne2, hd2, ?_⟩
      intro σ i hi
      rw [hsum (extendAssign σ) (evalVec e σ) (fun j hj => (hsem σ j hj).symm) i]
      have hin : i < (esize e).1 * (esize e).1 := hi
      rw [show get_diag_vec_coefficients (.diag_vec e) =
          (⟨(esize e).1 * (esize e).1, (esize e).1,
            (List.range (esize e).1).map
              (fun j => (j * (esize e).1 + j, j, (1 : ℚ)))⟩ : SparseMatrix) from rfl,
        applyVec_diag_vec (esize e).1 (evalVec e σ) i hin]
      rfl
  | htr e IH =>
    intro hwf m hc
    rw [get_coefficients] at hc
    cases hγ : get_coefficients e with
    | none => rw [hγ] at hc; simp at hc
    | some γ =>
      rw [hγ] at hc
      simp only [Option.bind_eq_bind, Option.some_bind] at hc
      obtain ⟨hg, hne, _hd, hsem⟩ := IH hwf γ hγ
      have hF : ∀ t ∈ (get_transpose_coefficients (.transpose e)).triplets,
          t.1 < dimE (.transpose e) ∧
          t.2.1 < (get_transpose_coefficients (.transpose e)).cols := by
        intro t ht
        simp only [get_transpose_coefficients, List.mem_flatMap, List.mem_map,
          List.mem_range] at ht
        obtain ⟨p, hp, q, hq, rfl⟩ := ht
        constructor
        · show (esize (.transpose e)).1 * q + p <
            (esize (.transpose e)).1 * (esize (.transpose e)).2
          calc (esize (.transpose e)).1 * q + p
              < (esize (.transpose e)).1 * q + (esize (.transpose e)).1 := by omega
            _ = (esize (.transpose e)).1 * (q + 1) := by ring
            _ ≤ (esize (.transpose e)).1 * (esize (.transpose e)).2 :=
              Nat.mul_le_mul_left _ (by omega)
        · show p * (esize (.transpose e)).2 + q <
            (esize (.transpose e)).1 * (esize (.transpose e)).2
          calc p * (esize (.transpose e)).2 + q
              < p * (esize (.transpose e)).2 + (esize (.transpose e)).2 := by omega
            _ = (p + 1) * (esize (.transpose e)).2 := by ring
            _ ≤ (esize (.transpose e)).1 * (esize (.transpose e)).2 :=
              Nat.mul_le_mul_right _ (by omega)
      obtain ⟨hg2, hne2, hd2, _hc2, hsum⟩ := unary_master
        (get_transpose_coefficients (.transpose e)) γ m (dimE (.transpose e))
        (dimE e) hc hg hne rfl hF
      refine ⟨hg2, hne2, hd2, ?_⟩
      intro σ i hi
      rw [hsum (extendAssign σ) (evalVec e σ) (fun j hj => (hsem σ j hj).symm) i]
      have hi2 : i < (esize (.transpose e)).1 * (esize (.transpose e)).2 := hi
      rw [show get_transpose_coefficients (.transpose e) =
          (⟨(esize (.transpose e)).1 * (esize (.transpose e)).2,
            (esize (.transpose e)).1 * (esize (.transpose e)).2,
            (List.range (esize (.transpose e)).1).flatMap (fun p =>
              (List.range (esize (.transpose e)).2).map (fun q =>
                ((esize (.transpose e)).1 * q + p,
                  p * (esize (.transpose e)).2 + q, (1 : ℚ))))⟩ :
            SparseMatrix) from rfl,
        applyVec_transpose_triplets ((esize (.transpose e)).1)
          ((esize (.transpose e)).2) (evalVec e σ) i hi2]
      rfl
  | habs e IH => intro hwf m hc; simp [wf] at hwf
  | hpn p e IH => intro hwf m hc; simp [wf] at hwf
  | hqol x y IHx IHy => intro hwf m hc; simp [wf] at hwf
  | hleq l r IHl IHr => intro hwf m hc; simp [wf] at hwf
  | hsoc v w IHv IHw => intro hwf m hc; simp [wf] at hwf

/-! ## C1: functional correctness of the extracted coefficients -/

/-- **C1.** For every shape-well-formed affine expression `e` on which
`get_coefficients` succeeds with map `m`, and every assignment `σ` of
flattened values to the variables, each coordinate `i < dim(e)` of the
column-major flattened value of `e` equals the affine map represented by
`m`: the sum, over the entries of `m`, of the stored matrix applied to the
flattened value of its variable, with the `kConstCoefficientId` entry
applied to the unit vector so that its single column contributes the
constant term — i.e. `vec(eval(e)) = Σ_v A_v · vec(v) + c`. -/
theorem affine_correctness_C1 (e : Expr) (m : CoeffMap)
    (hwf : wf e = true) (hc : get_coefficients e = some m)
    (σ : Nat → Nat → ℚ) (i : Nat) (hi : i < dimE e) :
    evalVec e σ i = coeffSum m (extendAssign σ) i :=
  (extract_inv e hwf m hc).2.2.2 σ i hi

theorem affine_correctness_C1_witness :
    wf (.var 0 1 1) = true ∧ 0 < dimE (.var 0 1 1) ∧
    evalVec (.var 0 1 1) (fun _ _ => (5 : ℚ)) 0 =
      coeffSum [((0 : Int), identity (1 * 1))]
        (extendAssign (fun _ _ => (5 : ℚ))) 0 :=
  ⟨by decide, by decide,
    affine_correctness_C1 (.var 0 1 1) [((0 : Int), identity (1 * 1))] (by decide)
      rfl (fun _ _ => (5 : ℚ)) 0 (by decide)⟩

/-! ## C5: the row-count invariant of returned coefficient maps -/

/-- **C5.** On every shape-well-formed expression `e` on which
`get_coefficients` succeeds, every sparse matrix in the returned
`CoeffMap` has exactly `dim(e) = rows(e)·cols(e)` rows — the invariant is
preserved through every recursive composition step, including the
accumulation of colliding keys (`insertAdd`/`spAdd` keep the stored
operand's row count). -/
theorem row_invariant_C5 (e : Expr) (m : CoeffMap)
    (hwf : wf e = true) (hc : get_coefficients e = some m) :
    ∀ p ∈ m, p.2.rows = dimE e :=
  fun p hp => ((extract_inv e hwf m hc).1 p hp).1

theorem row_invariant_C5_witness :
    wf (.var 0 2 3) = true ∧
    ∀ p ∈ [((0 : Int), identity (2 * 3))], p.2.rows = dimE (.var 0 2 3) :=
  ⟨by decide, row_invariant_C5 (.var 0 2 3) [((0 : Int), identity (2 * 3))]
    (by decide) rfl⟩

/-! ## C4: the failure condition of the MUL dispatch -/

/-- Counterexample to **C4** as stated.  A fully shape-well-formed `MUL`
whose left child is a constant of shape `(2, 2)` and whose right child is
a variable of shape `(2, 1)`: "neither child is constant" does not hold,
yet `get_coefficients` fails fatally rather than succeeding — the left
broadcasting matrix is built from the flattened `4 × 1` constant column,
so its column count `1` hits the `CHECK_EQ(lhs.cols(), coeffs.rows())`
of `multiply_by_constant` against the variable's `2`-row identity. -/
theorem mul_fatal_C4_counterexample :
    wf (.mul (.const 2 2 [[(1 : ℚ), 2], [3, 4]]) (.var 0 2 1)) = true ∧
    is_constant ((get_coefficients (.const 2 2 [[(1 : ℚ), 2], [3, 4]])).getD []) =
      true ∧
    get_coefficients (.mul (.const 2 2 [[(1 : ℚ), 2], [3, 4]]) (.var 0 2 1)) =
      none :=
  ⟨by decide, rfl, rfl⟩

/-- **C4 (amended).** For a binary `MUL` node whose children's maps both
extract: (a) if neither child's map `is_constant`, the node fails fatally;
(b) if the left map is constant, the node runs `multiply_by_constant` with
the left broadcasting matrix `F`: it succeeds iff every entry of the right
map has exactly `F.cols` rows (the `CHECK_EQ` inside
`multiply_by_constant` — a mismatch is fatal even though one side is
constant), and on success the entry for every variable `v` of the right
map is `F · coeffs[v]`; (c) symmetrically with the right broadcasting
matrix when only the right map is constant. -/
theorem mul_fatal_C4 (l r : Expr) (L R2 : CoeffMap)
    (hL : get_coefficients l = some L) (hR : get_coefficients r = some R2) :
    (is_constant L = false → is_constant R2 = false →
      get_coefficients (.mul l r) = none) ∧
    (is_constant L = true → KeysDistinct R2 →
      ((∀ p ∈ R2, (get_left_mul_coefficients (.mul l r) (constPart L)).cols =
          p.2.rows) →
        get_coefficients (.mul l r) = some (R2.map (fun p =>
          (p.1, spMul (get_left_mul_coefficients (.mul l r) (constPart L)) p.2)))) ∧
      ((∃ p ∈ R2, (get_left_mul_coefficients (.mul l r) (constPart L)).cols ≠
          p.2.rows) →
        get_coefficients (.mul l r) = none)) ∧
    (is_constant L = false → is_constant R2 = true → KeysDistinct L →
      ((∀ p ∈ L, (get_right_mul_coefficients (.mul l r) (constPart R2)).cols =
          p.2.rows) →
        get_coefficients (.mul l r) = some (L.map (fun p =>
          (p.1, spMul (get_right_mul_coefficients (.mul l r) (constPart R2)) p.2)))) ∧
      ((∃ p ∈ L, (get_right_mul_coefficients (.mul l r) (constPart R2)).cols ≠
          p.2.rows) →
        get_coefficients (.mul l r) = none)) := by
  have hunfold : get_coefficients (.mul l r) =
      (if is_constant L then
        multiply_by_constant (get_left_mul_coefficients (.mul l r) (constPart L))
          R2 []
      else if is_constant R2 then
        multiply_by_constant (get_right_mul_coefficients (.mul l r) (constPart R2))
          L []
      else none) := by
    rw [get_coefficients, hL, hR]
    simp only [Option.bind_eq_bind, Option.some_bind]
  refine ⟨?_, ?_, ?_⟩
  · intro h1 h2
    rw [hunfold]
    simp [h1, h2]
  · intro h1 hdist
    constructor
    · intro hall
      rw [hunfold, if_pos h1, mbc_map_of_distinct _ R2 [] hall
        (fun p _ q hq => absurd hq (List.not_mem_nil q)) hdist, List.nil_append]
    · rintro ⟨p, hp, hne⟩
      rw [hunfold, if_pos h1]
      exact mbc_none_of_mismatch _ R2 [] p hp hne
  · intro h1 h2 hdist
    constructor
    · intro hall
      rw [hunfold, if_neg (by simp [h1]), if_pos h2, mbc_map_of_distinct _ L []
        hall (fun p _ q hq => absurd hq (List.not_mem_nil q)) hdist,
        List.nil_append]
    · rintro ⟨p, hp, hne⟩
      rw [hunfold, if_neg (by simp [h1]), if_pos h2]
      exact mbc_none_of_mismatch _ L [] p hp hne

theorem mul_fatal_C4_witness :
    get_coefficients (.mul (.const 1 1 [[(2 : ℚ)]]) (.var 0 1 2)) =
      some ([((0 : Int), identity (1 * 2))].map (fun p =>
        (p.1, spMul (get_left_mul_coefficients
          (.mul (.const 1 1 [[(2 : ℚ)]]) (.var 0 1 2))
          (constPart [(kConstCoefficientId, to_vector 1 1 [[(2 : ℚ)]])])) p.2))) :=
  ((mul_fatal_C4 (.const 1 1 [[(2 : ℚ)]]) (.var 0 1 2)
      [(kConstCoefficientId, to_vector 1 1 [[(2 : ℚ)]])]
      [((0 : Int), identity (1 * 2))] rfl rfl).2.1 (by decide)
      (List.pairwise_singleton _ _)).1 (by decide)

end CVXcanon
